import Mathlib

/-!
Verification of the kruskal-clustering repository (`kruskal.py`).

The source represents a weighted undirected graph as an iterable of edges
`(weight, source, target)`.  Its API is `minimum_spanning_tree(edges)` and
`clustering(edges, nb_clusters)`, both driven by a union-find structure
(`parent`, `rank`) with per-root membership sets (`cc`), recursive
path-compressing `_find`, and union-by-rank `_union` /
`_union_returning_choosen`.

The shallow embedding below models vertices as an arbitrary linearly ordered
type `V` (Python vertices are comparable hashables), weights as `Int`, an
edge as `Int × V × V`, Python dicts `parent`, `rank` as total functions
updated functionally (entries are created for exactly the vertices of the
input, all other points are never read), the dict `cc` as a key set
`ccKeys` plus a value function `ccMem` that is `∅` off the keys (mirroring
`del`), and Python's unbounded recursion in `_find` by an explicit fuel,
instantiated at top level with `card vertices + 1`, which suffices under the
union-find invariant.  `sorted(edges)` is lexicographic sorting of tuples.
-/

set_option linter.unusedSectionVars false
set_option linter.unusedVariables false

namespace Kruskal

variable {V : Type} [DecidableEq V] [LinearOrder V]

/-- An edge `(weight, source node, target node)`, as in the source module
docstring. -/
abbrev EdgeT (V : Type) : Type := Int × V × V

/-- Python's tuple comparison, specialised to 3-tuples `(weight, v1, v2)`:
lexicographic. -/
def edgeLE (e f : EdgeT V) : Prop :=
  e.1 < f.1 ∨ (e.1 = f.1 ∧ (e.2.1 < f.2.1 ∨ (e.2.1 = f.2.1 ∧ e.2.2 ≤ f.2.2)))

instance : DecidableRel (edgeLE : EdgeT V → EdgeT V → Prop) := fun e f => by
  unfold edgeLE; infer_instance

instance : IsTotal (EdgeT V) edgeLE := by
  constructor
  intro e f
  rcases lt_trichotomy e.1 f.1 with h | h | h
  · exact Or.inl (Or.inl h)
  · rcases lt_trichotomy e.2.1 f.2.1 with h2 | h2 | h2
    · exact Or.inl (Or.inr ⟨h, Or.inl h2⟩)
    · rcases le_total e.2.2 f.2.2 with h3 | h3
      · exact Or.inl (Or.inr ⟨h, Or.inr ⟨h2, h3⟩⟩)
      · exact Or.inr (Or.inr ⟨h.symm, Or.inr ⟨h2.symm, h3⟩⟩)
    · exact Or.inr (Or.inr ⟨h.symm, Or.inl h2⟩)
  · exact Or.inr (Or.inl h)

instance : IsTrans (EdgeT V) edgeLE := by
  constructor
  intro e f g hef hfg
  rcases hef with h1 | ⟨h1, h1b⟩
  · rcases hfg with h2 | ⟨h2, _⟩
    · exact Or.inl (h1.trans h2)
    · exact Or.inl (h2 ▸ h1)
  · rcases hfg with h2 | ⟨h2, h2b⟩
    · exact Or.inl (h1 ▸ h2)
    · refine Or.inr ⟨h1.trans h2, ?_⟩
      rcases h1b with h3 | ⟨h3, h3b⟩
      · rcases h2b with h4 | ⟨h4, _⟩
        · exact Or.inl (h3.trans h4)
        · exact Or.inl (h4 ▸ h3)
      · rcases h2b with h4 | ⟨h4, h4b⟩
        · exact Or.inl (h3 ▸ h4)
        · exact Or.inr ⟨h3.trans h4, h3b.trans h4b⟩

/-- `sorted(edges)`: sort the edge list by Python tuple order. -/
def sortEdges (edges : List (EdgeT V)) : List (EdgeT V) :=
  List.insertionSort edgeLE edges

/-- `_vertices(edges)` before deduplication: the list
`chain(*((source, target) for _, source, target in edges))`. -/
def verticesList (edges : List (EdgeT V)) : List V :=
  edges.flatMap (fun e => [e.2.1, e.2.2])

/-- `_vertices(edges)`: the set of nodes found in the edge iterable. -/
def verticesOf (edges : List (EdgeT V)) : Finset V :=
  (verticesList edges).toFinset

/-- The combined mutable state of one call: dicts `parent`, `rank`, `cc`
(as key set `ccKeys` and values `ccMem`), the accumulating result set
(`minspantree`), the loop counter `union_performed` (`up`), and an
instrumentation counter `ops` for the number of union operations actually
performed (calls that merged two components). -/
@[ext]
structure St (V : Type) where
  parent : V → V
  rank : V → Nat
  ccKeys : Finset V
  ccMem : V → Finset V
  tree : Finset (EdgeT V)
  up : Nat
  ops : Nat

/-- `_make_set(vertice, parent, rank, cc)`. -/
def make_set (v : V) (s : St V) : St V :=
  { s with
    parent := Function.update s.parent v v
    rank := Function.update s.rank v 0
    ccKeys := insert v s.ccKeys
    ccMem := Function.update s.ccMem v {v} }

/-- The state at the start of a call: empty dicts.  `parent` is modelled as
the identity off the registered vertices (those entries are never read). -/
def emptySt (V : Type) : St V :=
  { parent := fun v => v
    rank := fun _ => 0
    ccKeys := ∅
    ccMem := fun _ => ∅
    tree := ∅
    up := 1
    ops := 0 }

/-- `for vertex in _vertices(edges): _make_set(vertex, ...)`. -/
def initSt (edges : List (EdgeT V)) : St V :=
  (verticesList edges).dedup.foldl (fun s v => make_set v s) (emptySt V)

/-- `_find(vertice, parent)` with recursive path compression, made total by
an explicit recursion fuel.  Returns the root found together with the
updated `parent` map (`parent[vertice] = _find(parent[vertice], parent)`).
With fuel `0` the vertex itself is returned; at top level the fuel is
`card vertices + 1`, which is never exhausted under the union-find
invariant. -/
def findC : Nat → (V → V) → V → V × (V → V)
  | 0, p, v => (v, p)
  | n + 1, p, v =>
    if p v = v then (v, p)
    else
      let r := findC n p (p v)
      (r.1, Function.update r.2 v r.1)

/-- The root-chasing part of `_find` alone (no compression). -/
def rootAux : Nat → (V → V) → V → V
  | 0, _, v => v
  | n + 1, p, v => if p v = v then v else rootAux n p (p v)

/-- `_union(vertice1, vertice2, parent, rank)`: find both roots, then merge
by rank (on ties, `parent[root1] = root2` and `rank[root2] += 1`). -/
def unionUF (v1 v2 : V) (fuel : Nat) (p : V → V) (rk : V → Nat) :
    (V → V) × (V → Nat) :=
  let f1 := findC fuel p v1
  let f2 := findC fuel f1.2 v2
  let r1 := f1.1
  let r2 := f2.1
  let q := f2.2
  if r1 ≠ r2 then
    if rk r2 < rk r1 then (Function.update q r2 r1, rk)
    else
      if rk r1 = rk r2 then
        (Function.update q r1 r2, Function.update rk r2 (rk r2 + 1))
      else (Function.update q r1 r2, rk)
  else (q, rk)

/-- `_union_returning_choosen(...)`: same merge, but returning
`some (choosen_root, unchoosen_root)` when a merge happened and `none`
otherwise. -/
def union_returning_choosen (v1 v2 : V) (fuel : Nat) (p : V → V)
    (rk : V → Nat) : Option (V × V) × (V → V) × (V → Nat) :=
  let f1 := findC fuel p v1
  let f2 := findC fuel f1.2 v2
  let r1 := f1.1
  let r2 := f2.1
  let q := f2.2
  if r1 ≠ r2 then
    if rk r2 < rk r1 then (some (r1, r2), Function.update q r2 r1, rk)
    else
      if rk r1 = rk r2 then
        (some (r2, r1), Function.update q r1 r2,
          Function.update rk r2 (rk r2 + 1))
      else (some (r2, r1), Function.update q r1 r2, rk)
  else (none, q, rk)

/-- The body of the edge loop of `minimum_spanning_tree` for one edge:
`if find(v1) != find(v2): _union(v1, v2); minspantree.add(edge)`.  The two
`find` calls compress paths in `parent` even when the edge is skipped. -/
def mstStep (fuel : Nat) (e : EdgeT V) (s : St V) : St V :=
  let f1 := findC fuel s.parent e.2.1
  let f2 := findC fuel f1.2 e.2.2
  if f1.1 ≠ f2.1 then
    let u := unionUF e.2.1 e.2.2 fuel f2.2 s.rank
    { s with
      parent := u.1
      rank := u.2
      tree := insert e s.tree
      ops := s.ops + 1 }
  else { s with parent := f2.2 }

/-- The edge loop of `minimum_spanning_tree` over the sorted edge list. -/
def mstLoop (fuel : Nat) : List (EdgeT V) → St V → St V
  | [], s => s
  | e :: rest, s => mstLoop fuel rest (mstStep fuel e s)

/-- The full run of `minimum_spanning_tree` (initialisation plus loop),
keeping the final state. -/
def mstRun (edges : List (EdgeT V)) : St V :=
  mstLoop ((verticesOf edges).card + 1) (sortEdges edges) (initSt edges)

/-- `minimum_spanning_tree(edges)`. -/
def minimum_spanning_tree (edges : List (EdgeT V)) : Finset (EdgeT V) :=
  (mstRun edges).tree

/-- The body of the edge loop of `clustering` for one edge (the part after
the `union_performed > nb_unions` break check): find both roots; if they
differ, call `_union_returning_choosen`, merge the `cc` entry of the
absorbed root into the surviving root's entry and delete it, add the edge
to `minspantree` and increment `union_performed` (the last two actions
happen even in the dead `union_result == None` branch, as in the source). -/
def clusStep (fuel : Nat) (e : EdgeT V) (s : St V) : St V :=
  let f1 := findC fuel s.parent e.2.1
  let f2 := findC fuel f1.2 e.2.2
  if f1.1 ≠ f2.1 then
    let u := union_returning_choosen e.2.1 e.2.2 fuel f2.2 s.rank
    match u.1 with
    | some rs =>
      { parent := u.2.1
        rank := u.2.2
        ccKeys := s.ccKeys.erase rs.2
        ccMem := Function.update
          (Function.update s.ccMem rs.1 (s.ccMem rs.1 ∪ s.ccMem rs.2))
          rs.2 ∅
        tree := insert e s.tree
        up := s.up + 1
        ops := s.ops + 1 }
    | none =>
      { parent := u.2.1
        rank := u.2.2
        ccKeys := s.ccKeys
        ccMem := s.ccMem
        tree := insert e s.tree
        up := s.up + 1
        ops := s.ops }
  else { s with parent := f2.2 }

/-- The edge loop of `clustering`: break out as soon as
`union_performed > nb_unions`, otherwise run `clusStep` on each sorted
edge. -/
def clusLoop (fuel : Nat) (nbU : Int) : List (EdgeT V) → St V → St V
  | [], s => s
  | e :: rest, s =>
    if (s.up : Int) > nbU then s
    else clusLoop fuel nbU rest (clusStep fuel e s)

/-- The full run of `clustering(edges, nb_clusters)` (after the input shape
check), keeping the final state.  `nb_unions = len(vertices) -
nb_clusters`. -/
def clusRun (edges : List (EdgeT V)) (nb_clusters : Int) : St V :=
  clusLoop ((verticesOf edges).card + 1)
    ((verticesOf edges).card - nb_clusters) (sortEdges edges) (initSt edges)

/-- `clustering(edges, nb_clusters)`: the pair of the accepted edge set and
the dict of connected components, the latter as its key set and value
function. -/
def clustering (edges : List (EdgeT V)) (nb_clusters : Int) :
    Finset (EdgeT V) × Finset V × (V → Finset V) :=
  ((clusRun edges nb_clusters).tree, (clusRun edges nb_clusters).ccKeys,
    (clusRun edges nb_clusters).ccMem)

/-- The input validation of `clustering`:
`assert all(len(edge) == 3 for edge in edges)`, re-raised as a descriptive
`ValueError`.  A raw Python argument is modelled as a list of tuples of
unknown arity (`List U`); `parse` interprets a well-shaped tuple as an
edge. -/
def clusteringChecked {U : Type} (parse : List U → EdgeT V)
    (raw : List (List U)) (nb_clusters : Int) :
    Except String (Finset (EdgeT V) × Finset V × (V → Finset V)) :=
  if raw.all (fun e => e.length == 3) then
    Except.ok (clustering (raw.map parse) nb_clusters)
  else
    Except.error ("Given graph must be an iterable of 3-tuple, " ++
      "defining an edge (weight, source node, target node).")

/-! ## Graph connectivity over finite edge sets

Specification-side notions used to state the claims: undirected adjacency
and reachability in a finite set of edges, the set of touched vertices,
connected components and their number. -/

/-- Undirected adjacency in an edge set. -/
def adjE (F : Finset (EdgeT V)) (a b : V) : Prop :=
  ∃ w, (w, a, b) ∈ F ∨ (w, b, a) ∈ F

/-- Connectivity in an edge set: the reflexive-transitive closure of
adjacency. -/
def Reach (F : Finset (EdgeT V)) (a b : V) : Prop :=
  Relation.ReflTransGen (adjE F) a b

lemma adjE_symm {F : Finset (EdgeT V)} {a b : V} (h : adjE F a b) :
    adjE F b a := by
  obtain ⟨w, h⟩ := h
  exact ⟨w, h.symm⟩

lemma adjE_mono {F G : Finset (EdgeT V)} (hFG : F ⊆ G) {a b : V}
    (h : adjE F a b) : adjE G a b := by
  obtain ⟨w, h | h⟩ := h
  · exact ⟨w, Or.inl (hFG h)⟩
  · exact ⟨w, Or.inr (hFG h)⟩

lemma adjE_of_mem {F : Finset (EdgeT V)} {w : Int} {a b : V}
    (h : (w, a, b) ∈ F) : adjE F a b := ⟨w, Or.inl h⟩

lemma Reach.rfl {F : Finset (EdgeT V)} {a : V} : Reach F a a :=
  Relation.ReflTransGen.refl

lemma Reach.symm {F : Finset (EdgeT V)} {a b : V} (h : Reach F a b) :
    Reach F b a :=
  Relation.ReflTransGen.symmetric (fun _ _ => adjE_symm) h

lemma Reach.trans {F : Finset (EdgeT V)} {a b c : V} (h1 : Reach F a b)
    (h2 : Reach F b c) : Reach F a c :=
  Relation.ReflTransGen.trans h1 h2

lemma Reach.mono {F G : Finset (EdgeT V)} (hFG : F ⊆ G) {a b : V}
    (h : Reach F a b) : Reach G a b :=
  Relation.ReflTransGen.mono (fun _ _ hab => adjE_mono hFG hab) h

lemma Reach.of_adjE {F : Finset (EdgeT V)} {a b : V} (h : adjE F a b) :
    Reach F a b :=
  Relation.ReflTransGen.single h

lemma reach_empty_iff {a b : V} : Reach (∅ : Finset (EdgeT V)) a b ↔ a = b := by
  constructor
  · intro h
    induction h with
    | refl => rfl
    | tail _ hadj ih =>
      obtain ⟨w, h | h⟩ := hadj <;> simp at h
  · rintro rfl; exact Reach.rfl

lemma adjE_insert_iff {F : Finset (EdgeT V)} {w : Int} {a b x y : V} :
    adjE (insert (w, a, b) F) x y ↔
      adjE F x y ∨ (x = a ∧ y = b) ∨ (x = b ∧ y = a) := by
  constructor
  · rintro ⟨wv, h | h⟩ <;> rcases Finset.mem_insert.mp h with h1 | h1
    · simp only [Prod.mk.injEq] at h1
      obtain ⟨h2, rfl, rfl⟩ := h1
      exact Or.inr (Or.inl ⟨rfl, rfl⟩)
    · exact Or.inl ⟨wv, Or.inl h1⟩
    · simp only [Prod.mk.injEq] at h1
      obtain ⟨h2, rfl, rfl⟩ := h1
      exact Or.inr (Or.inr ⟨rfl, rfl⟩)
    · exact Or.inl ⟨wv, Or.inr h1⟩
  · rintro (h | ⟨rfl, rfl⟩ | ⟨rfl, rfl⟩)
    · exact adjE_mono (Finset.subset_insert _ _) h
    · exact ⟨w, Or.inl (Finset.mem_insert_self _ _)⟩
    · exact ⟨w, Or.inr (Finset.mem_insert_self _ _)⟩

/-- The effect of one extra edge on connectivity. -/
lemma reach_insert_iff {F : Finset (EdgeT V)} {w : Int} {a b u v : V} :
    Reach (insert (w, a, b) F) u v ↔
      Reach F u v ∨ (Reach F u a ∧ Reach F b v) ∨
        (Reach F u b ∧ Reach F a v) := by
  constructor
  · intro h
    induction h using Relation.ReflTransGen.head_induction_on with
    | refl => exact Or.inl Reach.rfl
    | head hadj _ ih =>
      rcases adjE_insert_iff.mp hadj with h1 | ⟨rfl, rfl⟩ | ⟨rfl, rfl⟩
      · rcases ih with h2 | ⟨h2, h3⟩ | ⟨h2, h3⟩
        · exact Or.inl ((Reach.of_adjE h1).trans h2)
        · exact Or.inr (Or.inl ⟨(Reach.of_adjE h1).trans h2, h3⟩)
        · exact Or.inr (Or.inr ⟨(Reach.of_adjE h1).trans h2, h3⟩)
      · rcases ih with h2 | ⟨h2, h3⟩ | ⟨h2, h3⟩
        · exact Or.inr (Or.inl ⟨Reach.rfl, h2⟩)
        · exact Or.inr (Or.inl ⟨Reach.rfl, h3⟩)
        · exact Or.inl h3
      · rcases ih with h2 | ⟨h2, h3⟩ | ⟨h2, h3⟩
        · exact Or.inr (Or.inr ⟨Reach.rfl, h2⟩)
        · exact Or.inl h3
        · exact Or.inr (Or.inr ⟨Reach.rfl, h3⟩)
  · have hsub : F ⊆ insert (w, a, b) F := Finset.subset_insert _ _
    have hab : Reach (insert (w, a, b) F) a b :=
      Reach.of_adjE ⟨w, Or.inl (Finset.mem_insert_self _ _)⟩
    rintro (h | ⟨h1, h2⟩ | ⟨h1, h2⟩)
    · exact h.mono hsub
    · exact ((h1.mono hsub).trans hab).trans (h2.mono hsub)
    · exact ((h1.mono hsub).trans hab.symm).trans (h2.mono hsub)

/-- The vertices touched by an edge set. -/
def evertsOf (F : Finset (EdgeT V)) : Finset V :=
  F.biUnion (fun e => {e.2.1, e.2.2})

lemma adjE_mem_everts {F : Finset (EdgeT V)} {a b : V} (h : adjE F a b) :
    a ∈ evertsOf F ∧ b ∈ evertsOf F := by
  obtain ⟨w, h | h⟩ := h
  · exact ⟨Finset.mem_biUnion.mpr ⟨_, h, by simp⟩,
      Finset.mem_biUnion.mpr ⟨_, h, by simp⟩⟩
  · exact ⟨Finset.mem_biUnion.mpr ⟨_, h, by simp⟩,
      Finset.mem_biUnion.mpr ⟨_, h, by simp⟩⟩

lemma reach_mem_everts_left {F : Finset (EdgeT V)} {a b : V}
    (h : Reach F a b) (hne : a ≠ b) : a ∈ evertsOf F := by
  rcases Relation.ReflTransGen.cases_head h with rfl | ⟨c, hadj, _⟩
  · exact absurd rfl hne
  · exact (adjE_mem_everts hadj).1

lemma reach_mem_everts {F : Finset (EdgeT V)} {a b : V} (h : Reach F a b)
    (hne : a ≠ b) : a ∈ evertsOf F ∧ b ∈ evertsOf F :=
  ⟨reach_mem_everts_left h hne, reach_mem_everts_left h.symm (Ne.symm hne)⟩

/-! ### Decidability of connectivity -/

/-- One round of breadth-first expansion of a vertex set along edges. -/
def expandF (F : Finset (EdgeT V)) (S : Finset V) : Finset V :=
  S ∪ F.biUnion
    (fun e => if e.2.1 ∈ S ∨ e.2.2 ∈ S then {e.2.1, e.2.2} else ∅)

/-- Iterated expansion. -/
def compClosure (F : Finset (EdgeT V)) : Nat → Finset V → Finset V
  | 0, S => S
  | n + 1, S => compClosure F n (expandF F S)

/-- The connected component of a vertex, computed by saturating
expansion. -/
def compSet (F : Finset (EdgeT V)) (v : V) : Finset V :=
  compClosure F ((evertsOf F).card + 1) {v}

lemma subset_expandF {F : Finset (EdgeT V)} {S : Finset V} :
    S ⊆ expandF F S :=
  Finset.subset_union_left

lemma subset_compClosure {F : Finset (EdgeT V)} :
    ∀ (n : Nat) (S : Finset V), S ⊆ compClosure F n S := by
  intro n
  induction n with
  | zero => intro S; exact le_refl S
  | succ n ih =>
    intro S
    exact subset_expandF.trans (ih (expandF F S))

lemma compClosure_of_stable {F : Finset (EdgeT V)} {S : Finset V}
    (h : expandF F S = S) : ∀ n, compClosure F n S = S := by
  intro n
  induction n with
  | zero => rfl
  | succ n ih => show compClosure F n (expandF F S) = S; rw [h, ih]

lemma expandF_subset_union {F : Finset (EdgeT V)} {S : Finset V} :
    expandF F S ⊆ S ∪ evertsOf F := by
  apply Finset.union_subset Finset.subset_union_left
  intro x hx
  obtain ⟨e, he, hxe⟩ := Finset.mem_biUnion.mp hx
  by_cases hc : e.2.1 ∈ S ∨ e.2.2 ∈ S
  · rw [if_pos hc] at hxe
    apply Finset.mem_union_right
    apply Finset.mem_biUnion.mpr ⟨e, he, ?_⟩
    exact hxe
  · rw [if_neg hc] at hxe
    simp at hxe

lemma compClosure_subset_union {F : Finset (EdgeT V)} :
    ∀ (n : Nat) (S : Finset V), compClosure F n S ⊆ S ∪ evertsOf F := by
  intro n
  induction n with
  | zero => intro S; exact Finset.subset_union_left
  | succ n ih =>
    intro S
    refine (ih (expandF F S)).trans ?_
    exact Finset.union_subset
      (expandF_subset_union.trans (by
        exact Finset.union_subset_union_left (le_refl _)))
      Finset.subset_union_right

lemma compClosure_sound {F : Finset (EdgeT V)} :
    ∀ (n : Nat) (S : Finset V), ∀ w ∈ compClosure F n S,
      ∃ v ∈ S, Reach F v w := by
  intro n
  induction n with
  | zero => intro S w hw; exact ⟨w, hw, Reach.rfl⟩
  | succ n ih =>
    intro S w hw
    obtain ⟨x, hx, hreach⟩ := ih (expandF F S) w hw
    rcases Finset.mem_union.mp hx with hxS | hxB
    · exact ⟨x, hxS, hreach⟩
    · obtain ⟨e, he, hxe⟩ := Finset.mem_biUnion.mp hxB
      by_cases hc : e.2.1 ∈ S ∨ e.2.2 ∈ S
      · rw [if_pos hc] at hxe
        have hadj : adjE F e.2.1 e.2.2 := ⟨e.1, Or.inl (by
          rcases e with ⟨w1, a1, b1⟩; exact he)⟩
        rcases Finset.mem_insert.mp hxe with rfl | hxe
        · rcases hc with hc | hc
          · exact ⟨e.2.1, hc, hreach⟩
          · exact ⟨e.2.2, hc, (Reach.of_adjE (adjE_symm hadj)).trans hreach⟩
        · rcases Finset.mem_singleton.mp hxe with rfl
          rcases hc with hc | hc
          · exact ⟨e.2.1, hc, (Reach.of_adjE hadj).trans hreach⟩
          · exact ⟨e.2.2, hc, hreach⟩
      · rw [if_neg hc] at hxe
        simp at hxe

lemma closed_absorbs {F : Finset (EdgeT V)} {T : Finset V}
    (hT : expandF F T = T) {v w : V} (hv : v ∈ T) (h : Reach F v w) :
    w ∈ T := by
  induction h with
  | refl => exact hv
  | @tail x y hxy hadj ih =>
    obtain ⟨wt, hmem | hmem⟩ := hadj
    · have : y ∈ expandF F T := by
        apply Finset.mem_union_right
        apply Finset.mem_biUnion.mpr
        refine ⟨(wt, x, y), hmem, ?_⟩
        rw [if_pos (Or.inl ih)]
        simp
      rwa [hT] at this
    · have : y ∈ expandF F T := by
        apply Finset.mem_union_right
        apply Finset.mem_biUnion.mpr
        refine ⟨(wt, y, x), hmem, ?_⟩
        rw [if_pos (Or.inr ih)]
        simp
      rwa [hT] at this

lemma compClosure_stable_or_card {F : Finset (EdgeT V)} :
    ∀ (n : Nat) (S : Finset V),
      expandF F (compClosure F n S) = compClosure F n S ∨
        S.card + n ≤ (compClosure F n S).card := by
  intro n
  induction n with
  | zero => intro S; exact Or.inr (by simp [compClosure])
  | succ n ih =>
    intro S
    by_cases hstab : expandF F S = S
    · rw [show compClosure F (n + 1) S = compClosure F n (expandF F S) from
        rfl, hstab, compClosure_of_stable hstab n]
      exact Or.inl hstab
    · rcases ih (expandF F S) with h | h
      · exact Or.inl h
      · refine Or.inr ?_
        have hlt : S.card < (expandF F S).card :=
          Finset.card_lt_card ⟨subset_expandF, fun hsub =>
            hstab (Finset.Subset.antisymm hsub subset_expandF)⟩
      -- (expandF F S).card + n ≤ card of closure, and S.card + 1 ≤ that
        calc S.card + (n + 1) = S.card + 1 + n := by omega
          _ ≤ (expandF F S).card + n := by omega
          _ ≤ _ := h

lemma compSet_stable {F : Finset (EdgeT V)} (v : V) :
    expandF F (compSet F v) = compSet F v := by
  rcases compClosure_stable_or_card ((evertsOf F).card + 1)
    ({v} : Finset V) with h | h
  · exact h
  · exfalso
    have hsub : compClosure F ((evertsOf F).card + 1) {v} ⊆
        {v} ∪ evertsOf F := compClosure_subset_union _ _
    have hcard := Finset.card_le_card hsub
    have hub : ({v} ∪ evertsOf F).card ≤ 1 + (evertsOf F).card :=
      (Finset.card_union_le _ _).trans (by simp)
    simp only [Finset.card_singleton] at h
    omega

lemma mem_compSet_iff {F : Finset (EdgeT V)} (v w : V) :
    w ∈ compSet F v ↔ Reach F v w := by
  constructor
  · intro h
    obtain ⟨x, hx, hreach⟩ := compClosure_sound _ _ _ h
    rcases Finset.mem_singleton.mp hx with rfl
    exact hreach
  · intro h
    exact closed_absorbs (compSet_stable v)
      (subset_compClosure _ _ (Finset.mem_singleton_self v)) h

instance reachDec (F : Finset (EdgeT V)) (a b : V) :
    Decidable (Reach F a b) :=
  decidable_of_iff (b ∈ compSet F a) (mem_compSet_iff a b)

/-! ### Connected components and their number -/

/-- The connected component of `v` inside a vertex set `W`. -/
def classOn (W : Finset V) (F : Finset (EdgeT V)) (v : V) : Finset V :=
  W.filter (fun w => Reach F v w)

/-- The family of connected components of `W`. -/
def classesOn (W : Finset V) (F : Finset (EdgeT V)) : Finset (Finset V) :=
  W.image (fun v => classOn W F v)

/-- The number of connected components of the vertex set `W` under the
edges `F`. -/
def ncOn (W : Finset V) (F : Finset (EdgeT V)) : Nat :=
  (classesOn W F).card

lemma mem_classOn {W : Finset V} {F : Finset (EdgeT V)} {v w : V} :
    w ∈ classOn W F v ↔ w ∈ W ∧ Reach F v w :=
  Finset.mem_filter

lemma classOn_self {W : Finset V} {F : Finset (EdgeT V)} {v : V}
    (hv : v ∈ W) : v ∈ classOn W F v :=
  mem_classOn.mpr ⟨hv, Reach.rfl⟩

lemma classOn_eq_of_reach {W : Finset V} {F : Finset (EdgeT V)} {u v : V}
    (h : Reach F u v) : classOn W F u = classOn W F v := by
  ext w
  simp only [mem_classOn]
  exact ⟨fun ⟨hw, hr⟩ => ⟨hw, h.symm.trans hr⟩,
    fun ⟨hw, hr⟩ => ⟨hw, h.trans hr⟩⟩

lemma classOn_eq_iff {W : Finset V} {F : Finset (EdgeT V)} {u v : V}
    (hu : u ∈ W) (hv : v ∈ W) :
    classOn W F u = classOn W F v ↔ Reach F u v := by
  constructor
  · intro h
    have : v ∈ classOn W F u := h ▸ classOn_self hv
    exact (mem_classOn.mp this).2
  · exact classOn_eq_of_reach

lemma classOn_mem_classesOn {W : Finset V} {F : Finset (EdgeT V)} {v : V}
    (hv : v ∈ W) : classOn W F v ∈ classesOn W F :=
  Finset.mem_image_of_mem _ hv

lemma ncOn_congr {W : Finset V} {F G : Finset (EdgeT V)}
    (h : ∀ a ∈ W, ∀ b ∈ W, (Reach F a b ↔ Reach G a b)) :
    ncOn W F = ncOn W G := by
  unfold ncOn classesOn
  congr 1
  apply Finset.image_congr
  intro v hv
  ext w
  simp only [mem_classOn]
  constructor
  · rintro ⟨hw, hr⟩; exact ⟨hw, (h v hv w hw).mp hr⟩
  · rintro ⟨hw, hr⟩; exact ⟨hw, (h v hv w hw).mpr hr⟩

lemma ncOn_empty (W : Finset V) : ncOn W (∅ : Finset (EdgeT V)) = W.card := by
  unfold ncOn classesOn
  have himg : W.image (fun v => classOn W (∅ : Finset (EdgeT V)) v) =
      W.image (fun v => ({v} : Finset V)) := by
    apply Finset.image_congr
    intro v hv
    ext w
    simp only [mem_classOn, reach_empty_iff, Finset.mem_singleton]
    constructor
    · rintro ⟨hw, rfl⟩; rfl
    · rintro rfl; exact ⟨hv, rfl⟩
  rw [himg]
  exact Finset.card_image_of_injective W (fun a b h => by
    simpa using Finset.singleton_injective h)

/-- Adding an edge between vertices already connected does not change
connectivity at all. -/
lemma reach_insert_of_reach {F : Finset (EdgeT V)} {w : Int} {a b u v : V}
    (hab : Reach F a b) :
    Reach (insert (w, a, b) F) u v ↔ Reach F u v := by
  rw [reach_insert_iff]
  constructor
  · rintro (h | ⟨h1, h2⟩ | ⟨h1, h2⟩)
    · exact h
    · exact (h1.trans hab).trans h2
    · exact (h1.trans hab.symm).trans h2
  · exact Or.inl

lemma ncOn_insert_reach {W : Finset V} {F : Finset (EdgeT V)} {w : Int}
    {a b : V} (hab : Reach F a b) :
    ncOn W (insert (w, a, b) F) = ncOn W F :=
  ncOn_congr (fun x _ y _ => reach_insert_of_reach hab)

/-- Adding an edge between two vertices of `W` in distinct components
merges exactly those two components. -/
lemma ncOn_insert_not_reach {W : Finset V} {F : Finset (EdgeT V)} {w : Int}
    {a b : V} (ha : a ∈ W) (hb : b ∈ W) (hnr : ¬ Reach F a b) :
    ncOn W (insert (w, a, b) F) + 1 = ncOn W F := by
  set F' := insert (w, a, b) F with hF'
  -- effect of the new edge on individual components
  have hclass : ∀ v ∈ W, classOn W F' v =
      if Reach F v a ∨ Reach F v b then classOn W F a ∪ classOn W F b
      else classOn W F v := by
    intro v hv
    by_cases hva : Reach F v a
    · rw [if_pos (Or.inl hva)]
      ext x
      simp only [mem_classOn, Finset.mem_union, hF', reach_insert_iff]
      constructor
      · rintro ⟨hx, h | ⟨h1, h2⟩ | ⟨h1, h2⟩⟩
        · exact Or.inl ⟨hx, hva.symm.trans h⟩
        · exact Or.inr ⟨hx, h2⟩
        · exact absurd (hva.symm.trans h1) hnr
      · rintro (⟨hx, h⟩ | ⟨hx, h⟩)
        · exact ⟨hx, Or.inl (hva.trans h)⟩
        · exact ⟨hx, Or.inr (Or.inl ⟨hva, h⟩)⟩
    · by_cases hvb : Reach F v b
      · rw [if_pos (Or.inr hvb)]
        ext x
        simp only [mem_classOn, Finset.mem_union, hF', reach_insert_iff]
        constructor
        · rintro ⟨hx, h | ⟨h1, h2⟩ | ⟨h1, h2⟩⟩
          · exact Or.inr ⟨hx, hvb.symm.trans h⟩
          · exact absurd (hvb.symm.trans h1).symm hnr
          · exact Or.inl ⟨hx, h2⟩
        · rintro (⟨hx, h⟩ | ⟨hx, h⟩)
          · exact ⟨hx, Or.inr (Or.inr ⟨hvb, h⟩)⟩
          · exact ⟨hx, Or.inl (hvb.trans h)⟩
      · rw [if_neg (by tauto)]
        ext x
        simp only [mem_classOn, hF', reach_insert_iff]
        constructor
        · rintro ⟨hx, h | ⟨h1, h2⟩ | ⟨h1, h2⟩⟩
          · exact ⟨hx, h⟩
          · exact absurd h1 hva
          · exact absurd h1 hvb
        · rintro ⟨hx, h⟩
          exact ⟨hx, Or.inl h⟩
  set A := classOn W F a with hA
  set B := classOn W F b with hB
  -- the new family of components
  have hclasses : classesOn W F' =
      insert (A ∪ B) (((classesOn W F).erase A).erase B) := by
    ext S
    simp only [Finset.mem_insert, Finset.mem_erase]
    constructor
    · intro hS
      obtain ⟨v, hv, rfl⟩ := Finset.mem_image.mp hS
      rw [hclass v hv]
      by_cases hc : Reach F v a ∨ Reach F v b
      · rw [if_pos hc]; exact Or.inl rfl
      · rw [if_neg hc]
        push_neg at hc
        refine Or.inr ⟨?_, ?_, classOn_mem_classesOn hv⟩
        · intro h
          exact hc.2 ((classOn_eq_iff hv hb).mp h)
        · intro h
          exact hc.1 ((classOn_eq_iff hv ha).mp h)
    · rintro (rfl | ⟨hSB, hSA, hS⟩)
      · have : classOn W F' a = A ∪ B := by
          rw [hclass a ha, if_pos (Or.inl Reach.rfl)]
        exact this ▸ classOn_mem_classesOn ha
      · obtain ⟨v, hv, rfl⟩ := Finset.mem_image.mp hS
        have hva : ¬ Reach F v a := fun h =>
          hSA ((classOn_eq_iff hv ha).mpr h)
        have hvb : ¬ Reach F v b := fun h =>
          hSB ((classOn_eq_iff hv hb).mpr h)
        have : classOn W F' v = classOn W F v := by
          rw [hclass v hv, if_neg (by tauto)]
        exact this ▸ classOn_mem_classesOn hv
  -- count
  have hAmem : A ∈ classesOn W F := classOn_mem_classesOn ha
  have hBmem : B ∈ classesOn W F := classOn_mem_classesOn hb
  have hABne : A ≠ B := fun h => hnr ((classOn_eq_iff ha hb).mp h)
  have hMnot : (A ∪ B) ∉ classesOn W F := by
    intro h
    obtain ⟨v, hv, hveq⟩ := Finset.mem_image.mp h
    have hva : Reach F v a := by
      have : a ∈ classOn W F v := by
        rw [hveq]; exact Finset.mem_union_left _ (classOn_self ha)
      exact (mem_classOn.mp this).2
    have hvb : Reach F v b := by
      have : b ∈ classOn W F v := by
        rw [hveq]; exact Finset.mem_union_right _ (classOn_self hb)
      exact (mem_classOn.mp this).2
    exact hnr (hva.symm.trans hvb)
  have hBerase : B ∈ (classesOn W F).erase A :=
    Finset.mem_erase.mpr ⟨fun h => hABne h.symm, hBmem⟩
  have hMnot2 : (A ∪ B) ∉ ((classesOn W F).erase A).erase B := fun h =>
    hMnot (Finset.mem_of_mem_erase (Finset.mem_of_mem_erase h))
  have hc1 : 1 ≤ (classesOn W F).card := Finset.card_pos.mpr ⟨A, hAmem⟩
  have hc2 : 1 ≤ ((classesOn W F).erase A).card :=
    Finset.card_pos.mpr ⟨B, hBerase⟩
  rw [Finset.card_erase_of_mem hAmem] at hc2
  unfold ncOn
  rw [hclasses, Finset.card_insert_of_not_mem hMnot2,
    Finset.card_erase_of_mem hBerase, Finset.card_erase_of_mem hAmem]
  omega

/-! ### Forests -/

/-- An edge set is a forest (acyclic) when no edge connects two vertices
already connected by the remaining edges. -/
def IsForest (F : Finset (EdgeT V)) : Prop :=
  ∀ e ∈ F, ¬ Reach (F.erase e) e.2.1 e.2.2

lemma isForest_subset {F G : Finset (EdgeT V)} (hGF : G ⊆ F)
    (hF : IsForest F) : IsForest G := by
  intro e he hreach
  exact hF e (hGF he) (hreach.mono (Finset.erase_subset_erase _ hGF))

lemma isForest_empty : IsForest (∅ : Finset (EdgeT V)) := by
  intro e he
  simp at he

lemma not_mem_of_not_reach {F : Finset (EdgeT V)} {w : Int} {a b : V}
    (hnr : ¬ Reach F a b) : (w, a, b) ∉ F := fun h =>
  hnr (Reach.of_adjE (adjE_of_mem h))

lemma isForest_insert {F : Finset (EdgeT V)} {w : Int} {a b : V}
    (hF : IsForest F) (hnr : ¬ Reach F a b) :
    IsForest (insert (w, a, b) F) := by
  have hnotmem : (w, a, b) ∉ F := not_mem_of_not_reach hnr
  intro f hf
  rcases Finset.mem_insert.mp hf with rfl | hfF
  · rw [Finset.erase_insert hnotmem]
    exact hnr
  · have hne : f ≠ (w, a, b) := fun h => hnotmem (h ▸ hfF)
    rw [Finset.erase_insert_of_ne (fun h => hne h.symm)]
    intro hreach
    obtain ⟨wf, fa, fb⟩ := f
    rcases reach_insert_iff.mp hreach with h | ⟨h1, h2⟩ | ⟨h1, h2⟩
    · exact hF _ hfF h
    · -- fa ~ a and b ~ fb in F.erase f would close a path from a to b
      have hfafb : Reach F fa fb := Reach.of_adjE (adjE_of_mem hfF)
      have hsub : (F.erase (wf, fa, fb) : Finset (EdgeT V)) ⊆ F :=
        Finset.erase_subset _ _
      exact hnr (((h1.mono hsub).symm.trans hfafb).trans (h2.mono hsub).symm)
    · have hfafb : Reach F fa fb := Reach.of_adjE (adjE_of_mem hfF)
      have hsub : (F.erase (wf, fa, fb) : Finset (EdgeT V)) ⊆ F :=
        Finset.erase_subset _ _
      exact hnr (((h2.mono hsub).trans hfafb.symm).trans (h1.mono hsub))

lemma everts_subset_of_subset {F G : Finset (EdgeT V)} (h : F ⊆ G) :
    evertsOf F ⊆ evertsOf G := by
  intro x hx
  obtain ⟨e, he, hxe⟩ := Finset.mem_biUnion.mp hx
  exact Finset.mem_biUnion.mpr ⟨e, h he, hxe⟩

/-- A forest on a vertex set `W` has exactly `card W - ncOn W F` edges. -/
lemma isForest_card {W : Finset V} :
    ∀ (F : Finset (EdgeT V)), IsForest F → evertsOf F ⊆ W →
      F.card + ncOn W F = W.card := by
  intro F
  induction F using Finset.induction_on with
  | empty => intro _ _; simpa using ncOn_empty W
  | insert hnotmem =>
    rename_i e F ih
    intro hforest hverts
    obtain ⟨w, a, b⟩ := e
    have hFsub : F ⊆ insert (w, a, b) F := Finset.subset_insert _ _
    have hforestF : IsForest F := isForest_subset hFsub hforest
    have hvertsF : evertsOf F ⊆ W :=
      (everts_subset_of_subset hFsub).trans hverts
    have hnr : ¬ Reach F a b := by
      have := hforest (w, a, b) (Finset.mem_insert_self _ _)
      rwa [Finset.erase_insert hnotmem] at this
    have ha : a ∈ W := by
      apply hverts
      exact Finset.mem_biUnion.mpr ⟨(w, a, b), Finset.mem_insert_self _ _,
        by simp⟩
    have hb : b ∈ W := by
      apply hverts
      exact Finset.mem_biUnion.mpr ⟨(w, a, b), Finset.mem_insert_self _ _,
        by simp⟩
    have hcount : ncOn W (insert (w, a, b) F) + 1 = ncOn W F :=
      ncOn_insert_not_reach ha hb hnr
    have hcard := Finset.card_insert_of_not_mem hnotmem
    have := ih hforestF hvertsF
    omega

/-- Exchange property used by the greedy argument: a forest `M` connecting
`a` and `b` has, outside any subset `A` not connecting them, an edge whose
removal disconnects `a` and `b` in `M`. -/
lemma forest_exchange :
    ∀ (n : Nat) (M A : Finset (EdgeT V)), (M \ A).card ≤ n → A ⊆ M →
      IsForest M → ∀ a b, ¬ Reach A a b → Reach M a b →
        ∃ f ∈ M, f ∉ A ∧ ¬ Reach (M.erase f) a b := by
  intro n
  induction n with
  | zero =>
    intro M A hcard hAM _ a b hnr hM
    exfalso
    have hMA : M = A := by
      apply Finset.Subset.antisymm ?_ hAM
      intro x hx
      by_contra hxA
      have : x ∈ M \ A := Finset.mem_sdiff.mpr ⟨hx, hxA⟩
      have : 0 < (M \ A).card := Finset.card_pos.mpr ⟨x, this⟩
      omega
    exact hnr (hMA ▸ hM)
  | succ n ih =>
    intro M A hcard hAM hforest a b hnr hM
    by_cases hempty : (M \ A).card = 0
    · exfalso
      have hMA : M = A := by
        apply Finset.Subset.antisymm ?_ hAM
        intro x hx
        by_contra hxA
        have hmem : x ∈ M \ A := Finset.mem_sdiff.mpr ⟨hx, hxA⟩
        have : 0 < (M \ A).card := Finset.card_pos.mpr ⟨x, hmem⟩
        omega
      exact hnr (hMA ▸ hM)
    · obtain ⟨g, hg⟩ := Finset.card_pos.mp (Nat.pos_of_ne_zero hempty)
      obtain ⟨hgM, hgA⟩ := Finset.mem_sdiff.mp hg
      by_cases hga : Reach (M.erase g) a b
      · -- recurse in the smaller forest M.erase g
        have hsub : A ⊆ M.erase g := fun x hx =>
          Finset.mem_erase.mpr ⟨fun h => hgA (h ▸ hx), hAM hx⟩
        have hcard2 : ((M.erase g) \ A).card ≤ n := by
          have h1 : (M.erase g) \ A = (M \ A).erase g := by
            ext x
            simp only [Finset.mem_sdiff, Finset.mem_erase]
            tauto
          rw [h1, Finset.card_erase_of_mem hg]
          omega
        obtain ⟨f, hfM, hfA, hf⟩ := ih (M.erase g) A hcard2 hsub
          (isForest_subset (Finset.erase_subset _ _) hforest) a b hnr hga
        refine ⟨f, Finset.mem_of_mem_erase hfM, hfA, ?_⟩
        intro hreach
        have hgf : g ≠ f := fun h => (Finset.mem_erase.mp hfM).1 h.symm
        obtain ⟨wg, ga, gb⟩ := g
        have hMf : M.erase f = insert (wg, ga, gb) ((M.erase (wg, ga, gb)).erase f) := by
          ext x
          simp only [Finset.mem_insert, Finset.mem_erase]
          constructor
          · rintro ⟨hxf, hxM⟩
            by_cases hxg : x = (wg, ga, gb)
            · exact Or.inl hxg
            · exact Or.inr ⟨hxf, hxg, hxM⟩
          · rintro (rfl | ⟨hxf, hxg, hxM⟩)
            · exact ⟨fun h => hgf h, hgM⟩
            · exact ⟨hxf, hxM⟩
        rw [hMf] at hreach
        rcases reach_insert_iff.mp hreach with h | ⟨h1, h2⟩ | ⟨h1, h2⟩
        · exact hf h
        · -- a path through g inside M.erase g connects ga to gb
          have hsub2 : ((M.erase (wg, ga, gb)).erase f : Finset (EdgeT V)) ⊆
              M.erase (wg, ga, gb) := Finset.erase_subset _ _
          have : Reach (M.erase (wg, ga, gb)) ga gb :=
            ((h1.mono hsub2).symm.trans hga).trans (h2.mono hsub2).symm
          exact hforest _ hgM this
        · have hsub2 : ((M.erase (wg, ga, gb)).erase f : Finset (EdgeT V)) ⊆
              M.erase (wg, ga, gb) := Finset.erase_subset _ _
          have : Reach (M.erase (wg, ga, gb)) ga gb :=
            ((h2.mono hsub2).trans hga.symm).trans (h1.mono hsub2)
          exact hforest _ hgM this
      · exact ⟨g, hgM, hgA, hga⟩

/-! ### Spanning forests -/

/-- `F` is a spanning forest of the graph `E0`: a subset of the edges,
acyclic, preserving the connectivity of `E0`. -/
def IsSpanningForest (E0 F : Finset (EdgeT V)) : Prop :=
  F ⊆ E0 ∧ IsForest F ∧
    ∀ a ∈ evertsOf E0, ∀ b ∈ evertsOf E0, Reach E0 a b → Reach F a b

/-- The total weight of an edge set. -/
def weightOf (F : Finset (EdgeT V)) : Int :=
  Finset.sum F (fun e => e.1)

instance (E0 F : Finset (EdgeT V)) : Decidable (IsSpanningForest E0 F) := by
  unfold IsSpanningForest IsForest
  infer_instance

lemma spanning_reach {E0 F : Finset (EdgeT V)} (h : IsSpanningForest E0 F)
    {a b : V} (hab : Reach E0 a b) : Reach F a b := by
  by_cases hne : a = b
  · exact hne ▸ Reach.rfl
  · obtain ⟨ha, hb⟩ := reach_mem_everts hab hne
    exact h.2.2 a ha b hb hab

/-- Some spanning forest of minimum weight exists as soon as any spanning
forest does. -/
lemma exists_min_spanning_forest {E0 T : Finset (EdgeT V)}
    (hT : IsSpanningForest E0 T) :
    ∃ M, IsSpanningForest E0 M ∧
      ∀ F, IsSpanningForest E0 F → weightOf M ≤ weightOf F := by
  have hne : (E0.powerset.filter (fun F => IsSpanningForest E0 F)).Nonempty :=
    ⟨T, Finset.mem_filter.mpr ⟨Finset.mem_powerset.mpr hT.1, hT⟩⟩
  obtain ⟨M, hM, hmin⟩ := Finset.exists_min_image _ weightOf hne
  obtain ⟨hMsub, hMsf⟩ := Finset.mem_filter.mp hM
  refine ⟨M, hMsf, fun F hF => ?_⟩
  exact hmin F (Finset.mem_filter.mpr ⟨Finset.mem_powerset.mpr hF.1, hF⟩)

/-! ## Union-find: roots, invariant, and the behaviour of `_find` and the
union operations -/

/-- Chasing parent pointers: `r` is reachable from `v` by proper steps. -/
def Reaches (p : V → V) (v r : V) : Prop :=
  Relation.ReflTransGen (fun a b => p a = b ∧ a ≠ b) v r

/-- `r` is its own parent. -/
def IsRoot (p : V → V) (r : V) : Prop := p r = r

/-- `r` is the representative (root) of `v`. -/
def RootedAt (p : V → V) (v r : V) : Prop := Reaches p v r ∧ IsRoot p r

lemma reaches_of_root {p : V → V} {v r : V} (hroot : IsRoot p v)
    (h : Reaches p v r) : r = v := by
  rcases Relation.ReflTransGen.cases_head h with rfl | ⟨c, ⟨hc, hne⟩, _⟩
  · rfl
  · exact absurd (hroot.symm.trans hc) hne

lemma rootedAt_self_iff {p : V → V} {v : V} :
    RootedAt p v v ↔ IsRoot p v :=
  ⟨fun h => h.2, fun h => ⟨Relation.ReflTransGen.refl, h⟩⟩

lemma reaches_unique_aux {p : V → V} {v r1 : V} (h : Reaches p v r1)
    (hroot1 : IsRoot p r1) :
    ∀ r2, Reaches p v r2 → IsRoot p r2 → r1 = r2 := by
  induction h using Relation.ReflTransGen.head_induction_on with
  | refl =>
    intro r2 h2 hroot2
    exact (reaches_of_root hroot1 h2).symm
  | head hstep hrest ih =>
    rename_i x c
    obtain ⟨hpc, hne⟩ := hstep
    intro r2 h2 hroot2
    rcases Relation.ReflTransGen.cases_head h2 with rfl | ⟨d, ⟨hd, _⟩, hdr⟩
    · exact absurd (hroot2.symm.trans hpc) hne
    · exact ih r2 ((hpc.symm.trans hd) ▸ hdr) hroot2

lemma rootedAt_unique {p : V → V} {v r1 r2 : V} (h1 : RootedAt p v r1)
    (h2 : RootedAt p v r2) : r1 = r2 :=
  reaches_unique_aux h1.1 h1.2 r2 h2.1 h2.2

/-- The union-find invariant: parents are the identity outside the
registered vertices, stay inside them on them, and strictly increase the
rank. -/
structure UFInv (verts : Finset V) (p : V → V) (rk : V → Nat) : Prop where
  outside : ∀ v, v ∉ verts → p v = v
  closed : ∀ v ∈ verts, p v ∈ verts
  rankLt : ∀ v, p v ≠ v → rk v < rk (p v)

/-- Termination measure for parent chasing. -/
def rkMeasure (verts : Finset V) (rk : V → Nat) (v : V) : Nat :=
  (verts.filter (fun w => rk v < rk w)).card

lemma rkMeasure_le_card {verts : Finset V} {rk : V → Nat} (v : V) :
    rkMeasure verts rk v ≤ verts.card :=
  Finset.card_le_card (Finset.filter_subset _ _)

lemma rkMeasure_lt {verts : Finset V} {p : V → V} {rk : V → Nat}
    (hinv : UFInv verts p rk) {v : V} (hv : p v ≠ v) :
    rkMeasure verts rk (p v) < rkMeasure verts rk v := by
  have hvin : v ∈ verts := by
    by_contra hvout
    exact hv (hinv.outside v hvout)
  have hpvin : p v ∈ verts := hinv.closed v hvin
  have hlt : rk v < rk (p v) := hinv.rankLt v hv
  apply Finset.card_lt_card
  constructor
  · intro w hw
    obtain ⟨hwv, hwr⟩ := Finset.mem_filter.mp hw
    exact Finset.mem_filter.mpr ⟨hwv, hlt.trans hwr⟩
  · intro hsub
    have : p v ∈ verts.filter (fun w => rk (p v) < rk w) :=
      hsub (Finset.mem_filter.mpr ⟨hpvin, hlt⟩)
    exact absurd (Finset.mem_filter.mp this).2 (lt_irrefl _)

lemma reaches_rank_le {verts : Finset V} {p : V → V} {rk : V → Nat}
    (hinv : UFInv verts p rk) {v r : V} (h : Reaches p v r) :
    rk v ≤ rk r := by
  induction h with
  | refl => exact le_refl _
  | @tail b c hchain hstep ih =>
    obtain ⟨hp, hne⟩ := hstep
    have h1 : rk b < rk (p b) :=
      hinv.rankLt b (by rw [hp]; exact fun h => hne h.symm)
    rw [hp] at h1
    omega

lemma reaches_rank_lt {verts : Finset V} {p : V → V} {rk : V → Nat}
    (hinv : UFInv verts p rk) {v r : V} (h : Reaches p v r) (hne : v ≠ r) :
    rk v < rk r := by
  rcases Relation.ReflTransGen.cases_head h with rfl | ⟨c, ⟨hc, hcne⟩, hcr⟩
  · exact absurd rfl hne
  · have h1 : p v ≠ v := by rw [hc]; exact fun h => hcne h.symm
    have h2 : rk v < rk (p v) := hinv.rankLt v h1
    rw [hc] at h2
    have h3 : rk c ≤ rk r := reaches_rank_le hinv hcr
    omega

lemma reaches_closed {verts : Finset V} {p : V → V} {rk : V → Nat}
    (hinv : UFInv verts p rk) {v r : V} (hv : v ∈ verts)
    (h : Reaches p v r) : r ∈ verts := by
  induction h with
  | refl => exact hv
  | tail hchain hstep ih => exact hstep.1 ▸ hinv.closed _ ih

lemma rootAux_rootedAt {verts : Finset V} {p : V → V} {rk : V → Nat}
    (hinv : UFInv verts p rk) :
    ∀ (fuel : Nat) (v : V), rkMeasure verts rk v < fuel →
      RootedAt p v (rootAux fuel p v) := by
  intro fuel
  induction fuel with
  | zero => intro v h; omega
  | succ n ih =>
    intro v hv
    by_cases hpv : p v = v
    · rw [show rootAux (n + 1) p v = v from by simp [rootAux, hpv]]
      exact ⟨Relation.ReflTransGen.refl, hpv⟩
    · rw [show rootAux (n + 1) p v = rootAux n p (p v) from by
        simp [rootAux, hpv]]
      have hmeas : rkMeasure verts rk (p v) < n := by
        have := rkMeasure_lt hinv hpv
        omega
      obtain ⟨hchain, hroot⟩ := ih (p v) hmeas
      exact ⟨Relation.ReflTransGen.head ⟨rfl, fun h => hpv h.symm⟩ hchain,
        hroot⟩

/-- The canonical root function: `rootAux` with always-sufficient fuel. -/
def uroot (verts : Finset V) (p : V → V) (v : V) : V :=
  rootAux (verts.card + 1) p v

lemma uroot_rootedAt {verts : Finset V} {p : V → V} {rk : V → Nat}
    (hinv : UFInv verts p rk) (v : V) : RootedAt p v (uroot verts p v) :=
  rootAux_rootedAt hinv _ v (by
    have : rkMeasure verts rk v ≤ verts.card := rkMeasure_le_card v
    omega)

lemma uroot_eq_of_rootedAt {verts : Finset V} {p : V → V} {rk : V → Nat}
    (hinv : UFInv verts p rk) {v r : V} (h : RootedAt p v r) :
    uroot verts p v = r :=
  rootedAt_unique (uroot_rootedAt hinv v) h

lemma uroot_isRoot {verts : Finset V} {p : V → V} {rk : V → Nat}
    (hinv : UFInv verts p rk) (v : V) : IsRoot p (uroot verts p v) :=
  (uroot_rootedAt hinv v).2

lemma uroot_of_isRoot {verts : Finset V} {p : V → V} {rk : V → Nat}
    (hinv : UFInv verts p rk) {v : V} (h : IsRoot p v) :
    uroot verts p v = v :=
  uroot_eq_of_rootedAt hinv (rootedAt_self_iff.mpr h)

lemma uroot_uroot {verts : Finset V} {p : V → V} {rk : V → Nat}
    (hinv : UFInv verts p rk) (v : V) :
    uroot verts p (uroot verts p v) = uroot verts p v :=
  uroot_of_isRoot hinv (uroot_isRoot hinv v)

lemma uroot_mem {verts : Finset V} {p : V → V} {rk : V → Nat}
    (hinv : UFInv verts p rk) {v : V} (hv : v ∈ verts) :
    uroot verts p v ∈ verts :=
  reaches_closed hinv hv (uroot_rootedAt hinv v).1

lemma uroot_eq_uroot_of_rootedAt_iff {verts : Finset V} {p q : V → V}
    {rk rk2 : V → Nat} (hp : UFInv verts p rk) (hq : UFInv verts q rk2)
    (hiff : ∀ w s, RootedAt q w s ↔ RootedAt p w s) (v : V) :
    uroot verts q v = uroot verts p v :=
  uroot_eq_of_rootedAt hq (((hiff v _).mpr (uroot_rootedAt hp v)))

lemma isRoot_iff_of_rootedAt_iff {p q : V → V}
    (hiff : ∀ w s, RootedAt q w s ↔ RootedAt p w s) (v : V) :
    IsRoot q v ↔ IsRoot p v := by
  rw [← rootedAt_self_iff, ← rootedAt_self_iff]
  exact hiff v v

/-- Redirecting a vertex to its own root preserves the whole root
structure. -/
lemma update_root_preserve {verts : Finset V} {p : V → V} {rk : V → Nat}
    (hinv : UFInv verts p rk) {v r : V} (hvr : RootedAt p v r) :
    UFInv verts (Function.update p v r) rk ∧
      ∀ w s, RootedAt (Function.update p v r) w s ↔ RootedAt p w s := by
  by_cases hveqr : v = r
  · subst hveqr
    have : p v = v := hvr.2
    rw [show Function.update p v v = Function.update p v (p v) from by
      rw [this], Function.update_eq_self]
    exact ⟨hinv, fun _ _ => Iff.rfl⟩
  · set p' := Function.update p v r with hp'
    have hvin : v ∈ verts := by
      by_contra hvout
      have hroot : IsRoot p v := hinv.outside v hvout
      exact hveqr (rootedAt_unique (rootedAt_self_iff.mpr hroot) hvr)
    have hrin : r ∈ verts := reaches_closed hinv hvin hvr.1
    have hrkvr : rk v < rk r := reaches_rank_lt hinv hvr.1 hveqr
    have hp'v : p' v = r := Function.update_same _ _ _
    have hp'ne : ∀ w, w ≠ v → p' w = p w := fun w hw =>
      Function.update_noteq hw _ _
    have hrnev : r ≠ v := fun h => hveqr h.symm
    have hinv2 : UFInv verts p' rk := by
      constructor
      · intro w hw
        have hwv : w ≠ v := fun h => hw (h ▸ hvin)
        rw [hp'ne w hwv]
        exact hinv.outside w hw
      · intro w hw
        by_cases hwv : w = v
        · subst hwv; rw [hp'v]; exact hrin
        · rw [hp'ne w hwv]; exact hinv.closed w hw
      · intro w hw
        by_cases hwv : w = v
        · subst hwv; rw [hp'v] at hw ⊢; exact hrkvr
        · rw [hp'ne w hwv] at hw ⊢; exact hinv.rankLt w hw
    have hfwd : ∀ w s, RootedAt p w s → RootedAt p' w s := by
      intro w s ⟨hchain, hroot⟩
      have hsnev : s ≠ v := by
        intro h
        rw [h] at hroot
        exact hveqr (rootedAt_unique (rootedAt_self_iff.mpr hroot) hvr)
      have hroots : IsRoot p' s := by
        show p' s = s
        rw [hp'ne s hsnev]; exact hroot
      refine ⟨?_, hroots⟩
      clear hroots
      induction hchain using Relation.ReflTransGen.head_induction_on with
      | refl => exact Relation.ReflTransGen.refl
      | head hstep hrest ih =>
        rename_i x c
        obtain ⟨hpc, hne⟩ := hstep
        by_cases hxv : x = v
        · subst hxv
          -- from v the old chain leads to s, so s = r; one new step reaches r
          have hsr : s = r :=
            rootedAt_unique ⟨Relation.ReflTransGen.head ⟨hpc, hne⟩ hrest,
              hroot⟩ hvr
          rw [hsr]
          exact Relation.ReflTransGen.single ⟨hp'v, hveqr⟩
        · exact Relation.ReflTransGen.head
            ⟨(hp'ne x hxv).trans hpc, hne⟩ ih
    have hbwd : ∀ w s, RootedAt p' w s → RootedAt p w s := by
      intro w s ⟨hchain, hroot⟩
      have hsnev : s ≠ v := by
        intro h
        have hps : p' s = s := hroot
        rw [h, hp'v] at hps
        exact hveqr hps.symm
      have hroots : IsRoot p s := by
        have hps : p' s = s := hroot
        rwa [hp'ne s hsnev] at hps
      refine ⟨?_, hroots⟩
      induction hchain using Relation.ReflTransGen.head_induction_on with
      | refl => exact Relation.ReflTransGen.refl
      | head hstep hrest ih =>
        rename_i x c
        obtain ⟨hpc, hne⟩ := hstep
        by_cases hxv : x = v
        · subst hxv
          rw [hp'v] at hpc
          -- the new chain continues from r, which is a root of p', so s = r
          have hroot2 : IsRoot p' c := by
            show p' c = c
            rw [← hpc, hp'ne r hrnev]
            exact hvr.2
          have hsr : s = c := reaches_of_root hroot2 hrest
          rw [hsr, ← hpc]
          exact hvr.1
        · rw [hp'ne x hxv] at hpc
          exact Relation.ReflTransGen.head ⟨hpc, hne⟩ ih
    exact ⟨hinv2, fun w s => ⟨hbwd w s, hfwd w s⟩⟩

lemma findC_fst (fuel : Nat) (p : V → V) (v : V) :
    (findC fuel p v).1 = rootAux fuel p v := by
  induction fuel generalizing p v with
  | zero => rfl
  | succ n ih =>
    by_cases hpv : p v = v
    · simp [findC, rootAux, hpv]
    · simp [findC, rootAux, hpv, ih]

/-- The full behaviour of `_find`: it returns the root of its argument and
compresses `parent` without changing any root. -/
lemma findC_spec {verts : Finset V} {rk : V → Nat} :
    ∀ (fuel : Nat) (p : V → V), UFInv verts p rk → ∀ (v : V),
      rkMeasure verts rk v < fuel →
      RootedAt p v (findC fuel p v).1 ∧
        UFInv verts (findC fuel p v).2 rk ∧
        ∀ w s, RootedAt (findC fuel p v).2 w s ↔ RootedAt p w s := by
  intro fuel
  induction fuel with
  | zero => intro p hinv v h; omega
  | succ n ih =>
    intro p hinv v hv
    by_cases hpv : p v = v
    · rw [show findC (n + 1) p v = (v, p) from by simp [findC, hpv]]
      exact ⟨⟨Relation.ReflTransGen.refl, hpv⟩, hinv, fun _ _ => Iff.rfl⟩
    · have hres : findC (n + 1) p v =
          ((findC n p (p v)).1,
            Function.update (findC n p (p v)).2 v (findC n p (p v)).1) := by
        simp [findC, hpv]
      have hmeas : rkMeasure verts rk (p v) < n := by
        have := rkMeasure_lt hinv hpv
        omega
      obtain ⟨hroot, hinvq, hpres⟩ := ih p hinv (p v) hmeas
      set r := (findC n p (p v)).1 with hr
      set q := (findC n p (p v)).2 with hq
      have hrootv : RootedAt p v r :=
        ⟨Relation.ReflTransGen.head ⟨rfl, fun h => hpv h.symm⟩ hroot.1,
          hroot.2⟩
      have hrootvq : RootedAt q v r := (hpres v r).mpr hrootv
      obtain ⟨hinv2, hpres2⟩ := update_root_preserve hinvq hrootvq
      rw [hres]
      refine ⟨hrootv, hinv2, fun w s => ?_⟩
      exact (hpres2 w s).trans (hpres w s)

lemma reaches_update_target {q : V → V} {w s t : V} (h : Reaches q w s)
    (hroot : IsRoot q s) : Reaches (Function.update q s t) w s := by
  induction h using Relation.ReflTransGen.head_induction_on with
  | refl => exact Relation.ReflTransGen.refl
  | head hstep hrest ih =>
    rename_i x c
    obtain ⟨hpc, hne⟩ := hstep
    have hxs : x ≠ s := by
      intro h
      rw [h] at hpc hne
      exact absurd (hroot.symm.trans hpc) hne
    exact Relation.ReflTransGen.head
      ⟨(Function.update_noteq hxs _ _).trans hpc, hne⟩ ih

lemma rootedAt_update_avoid {q : V → V} {w s ur cr : V}
    (h : RootedAt q w s) (hsur : s ≠ ur) (hur : IsRoot q ur) :
    RootedAt (Function.update q ur cr) w s := by
  obtain ⟨hchain, hroot⟩ := h
  refine ⟨?_, ?_⟩
  · induction hchain using Relation.ReflTransGen.head_induction_on with
    | refl => exact Relation.ReflTransGen.refl
    | head hstep hrest ih =>
      rename_i x c
      obtain ⟨hpc, hne⟩ := hstep
      have hxur : x ≠ ur := by
        intro h
        rw [h] at hpc hne
        exact absurd (hur.symm.trans hpc) hne
      exact Relation.ReflTransGen.head
        ⟨(Function.update_noteq hxur _ _).trans hpc, hne⟩ ih
  · show Function.update q ur cr s = s
    rw [Function.update_noteq hsur]
    exact hroot

/-- Attaching the root `ur` under the root `cr`: the invariant is kept (for
a rank function that only grew at `cr`) and every vertex rooted at `ur`
becomes rooted at `cr`, all other roots being unchanged. -/
lemma attach_spec {verts : Finset V} {q : V → V} {rk rk2 : V → Nat}
    (hinv : UFInv verts q rk) {cr ur : V}
    (hcr : IsRoot q cr) (hur : IsRoot q ur) (hne : ur ≠ cr)
    (hurv : ur ∈ verts) (hcrv : cr ∈ verts)
    (hrkpoint : ∀ w, rk w ≤ rk2 w)
    (hrkne : ∀ w, w ≠ cr → rk2 w = rk w)
    (hlt : rk2 ur < rk2 cr) :
    UFInv verts (Function.update q ur cr) rk2 ∧
      (∀ w, RootedAt (Function.update q ur cr) w
        (if uroot verts q w = ur then cr else uroot verts q w)) ∧
      ∀ w, IsRoot (Function.update q ur cr) w ↔ (IsRoot q w ∧ w ≠ ur) := by
  set p' := Function.update q ur cr with hp'
  have hp'ur : p' ur = cr := Function.update_same _ _ _
  have hp'ne : ∀ w, w ≠ ur → p' w = q w := fun w hw =>
    Function.update_noteq hw _ _
  have hcrne : cr ≠ ur := fun h => hne h.symm
  have hinv2 : UFInv verts p' rk2 := by
    constructor
    · intro w hw
      have hwur : w ≠ ur := fun h => hw (h ▸ hurv)
      rw [hp'ne w hwur]
      exact hinv.outside w hw
    · intro w hw
      by_cases hwur : w = ur
      · subst hwur; rw [hp'ur]; exact hcrv
      · rw [hp'ne w hwur]; exact hinv.closed w hw
    · intro w hw
      by_cases hwur : w = ur
      · subst hwur; rw [hp'ur]; exact hlt
      · rw [hp'ne w hwur] at hw ⊢
        have hwcr : w ≠ cr := by
          intro h
          rw [h] at hw
          exact hw hcr
        rw [hrkne w hwcr]
        calc rk w < rk (q w) := hinv.rankLt w hw
          _ ≤ rk2 (q w) := hrkpoint _
  have hroots : ∀ w, IsRoot p' w ↔ (IsRoot q w ∧ w ≠ ur) := by
    intro w
    by_cases hwur : w = ur
    · rw [hwur]
      constructor
      · intro h
        have h2 : p' ur = ur := h
        rw [hp'ur] at h2
        exact absurd h2 hcrne
      · rintro ⟨_, h⟩; exact absurd rfl h
    · constructor
      · intro h
        have : p' w = w := h
        rw [hp'ne w hwur] at this
        exact ⟨this, hwur⟩
      · rintro ⟨h, _⟩
        show p' w = w
        rw [hp'ne w hwur]; exact h
  refine ⟨hinv2, fun w => ?_, hroots⟩
  by_cases hw : uroot verts q w = ur
  · rw [if_pos hw]
    have hchain : Reaches q w ur := hw ▸ (uroot_rootedAt hinv w).1
    have hchain2 : Reaches p' w ur := reaches_update_target hchain hur
    refine ⟨hchain2.trans (Relation.ReflTransGen.single ⟨hp'ur, hne⟩), ?_⟩
    show p' cr = cr
    rw [hp'ne cr hcrne]; exact hcr
  · rw [if_neg hw]
    exact rootedAt_update_avoid (uroot_rootedAt hinv w) hw hur

/-- The two union functions perform the same state change. -/
lemma unionUF_eq_returning (v1 v2 : V) (fuel : Nat) (p : V → V)
    (rk : V → Nat) :
    unionUF v1 v2 fuel p rk = (union_returning_choosen v1 v2 fuel p rk).2 := by
  unfold unionUF union_returning_choosen
  dsimp only
  split_ifs <;> rfl

/-- The full behaviour of `_union_returning_choosen` on a well-formed
state. -/
lemma unionRC_spec {verts : Finset V} {p : V → V} {rk : V → Nat}
    (hinv : UFInv verts p rk) {a b : V} (ha : a ∈ verts) (hb : b ∈ verts)
    {fuel : Nat} (hfuel : verts.card < fuel) :
    UFInv verts (union_returning_choosen a b fuel p rk).2.1
        (union_returning_choosen a b fuel p rk).2.2 ∧
      (if uroot verts p a = uroot verts p b
       then (union_returning_choosen a b fuel p rk).1 = none ∧
         (union_returning_choosen a b fuel p rk).2.2 = rk ∧
         (∀ w, uroot verts (union_returning_choosen a b fuel p rk).2.1 w =
           uroot verts p w) ∧
         (∀ w, IsRoot (union_returning_choosen a b fuel p rk).2.1 w ↔
           IsRoot p w)
       else ∃ cr ur, (union_returning_choosen a b fuel p rk).1 =
           some (cr, ur) ∧ cr ≠ ur ∧
         ((cr = uroot verts p a ∧ ur = uroot verts p b) ∨
          (cr = uroot verts p b ∧ ur = uroot verts p a)) ∧
         (∀ w, uroot verts (union_returning_choosen a b fuel p rk).2.1 w =
           if uroot verts p w = ur then cr else uroot verts p w) ∧
         (∀ w, IsRoot (union_returning_choosen a b fuel p rk).2.1 w ↔
           (IsRoot p w ∧ w ≠ ur))) := by
  have hmeasa : rkMeasure verts rk a < fuel :=
    lt_of_le_of_lt (rkMeasure_le_card a) hfuel
  have hmeasb : rkMeasure verts rk b < fuel :=
    lt_of_le_of_lt (rkMeasure_le_card b) hfuel
  obtain ⟨hroota, hinv1, hpres1⟩ := findC_spec fuel p hinv a hmeasa
  set f1 := findC fuel p a with hf1
  obtain ⟨hrootb, hinv2, hpres2⟩ := findC_spec fuel f1.2 hinv1 b hmeasb
  set f2 := findC fuel f1.2 b with hf2
  set r1 := f1.1 with hr1
  set r2 := f2.1 with hr2
  set q := f2.2 with hq
  have hpres : ∀ w s, RootedAt q w s ↔ RootedAt p w s := fun w s =>
    (hpres2 w s).trans (hpres1 w s)
  have hr1p : uroot verts p a = r1 := uroot_eq_of_rootedAt hinv hroota
  have hrootbp : RootedAt p b r2 := (hpres1 b r2).mp hrootb
  have hr2p : uroot verts p b = r2 := uroot_eq_of_rootedAt hinv hrootbp
  have hq_uroot : ∀ w, uroot verts q w = uroot verts p w := fun w =>
    uroot_eq_uroot_of_rootedAt_iff hinv hinv2 hpres w
  have hisroot_q : ∀ w, IsRoot q w ↔ IsRoot p w :=
    isRoot_iff_of_rootedAt_iff hpres
  have hr1root : IsRoot q r1 := by
    have : RootedAt q a r1 := (hpres a r1).mpr hroota
    exact this.2
  have hr2root : IsRoot q r2 := ((hpres2 b r2).mpr hrootb).2
  have hr1q : uroot verts q r1 = r1 := uroot_of_isRoot hinv2 hr1root
  have hr2q : uroot verts q r2 = r2 := uroot_of_isRoot hinv2 hr2root
  have hr1v : r1 ∈ verts := by
    rw [← hr1p]; exact uroot_mem hinv ha
  have hr2v : r2 ∈ verts := by
    rw [← hr2p]; exact uroot_mem hinv hb
  have hrun : union_returning_choosen a b fuel p rk =
      if r1 ≠ r2 then
        if rk r2 < rk r1 then (some (r1, r2), Function.update q r2 r1, rk)
        else
          if rk r1 = rk r2 then
            (some (r2, r1), Function.update q r1 r2,
              Function.update rk r2 (rk r2 + 1))
          else (some (r2, r1), Function.update q r1 r2, rk)
      else (none, q, rk) := rfl
  by_cases heq : r1 = r2
  · rw [hrun, if_neg (by simpa using heq)]
    rw [if_pos (by rw [hr1p, hr2p]; exact heq)]
    exact ⟨hinv2, rfl, rfl, hq_uroot, hisroot_q⟩
  · have hne2 : uroot verts p a ≠ uroot verts p b := by
      rw [hr1p, hr2p]; exact heq
    rw [hrun, if_pos (by simpa using heq)]
    rw [if_neg hne2]
    by_cases hrk : rk r2 < rk r1
    · rw [if_pos hrk]
      obtain ⟨hinv3, hmap, hroots3⟩ := attach_spec hinv2 hr1root hr2root
        (fun h => heq h.symm) hr2v hr1v (fun w => le_refl _)
        (fun w hw => rfl) hrk
      refine ⟨hinv3, r1, r2, rfl, heq, Or.inl ⟨hr1p.symm, hr2p.symm⟩,
        fun w => ?_, fun w => ?_⟩
      · have := hmap w
        rw [hq_uroot w] at this
        exact uroot_eq_of_rootedAt hinv3 this
      · rw [hroots3 w, hisroot_q w]
    · rw [if_neg hrk]
      have hle : rk r1 ≤ rk r2 := le_of_not_lt hrk
      by_cases hrkeq : rk r1 = rk r2
      · rw [if_pos hrkeq]
        have hlt2 : Function.update rk r2 (rk r2 + 1) r1 <
            Function.update rk r2 (rk r2 + 1) r2 := by
          rw [Function.update_same, Function.update_noteq heq]
          omega
        obtain ⟨hinv3, hmap, hroots3⟩ := attach_spec hinv2 hr2root hr1root
          heq hr1v hr2v
          (fun w => by
            by_cases hw : w = r2
            · subst hw; rw [Function.update_same]; omega
            · rw [Function.update_noteq hw])
          (fun w hw => Function.update_noteq hw _ _) hlt2
        refine ⟨hinv3, r2, r1, rfl, fun h => heq h.symm, Or.inr ⟨hr2p.symm, hr1p.symm⟩,
          fun w => ?_, fun w => ?_⟩
        · have := hmap w
          rw [hq_uroot w] at this
          exact uroot_eq_of_rootedAt hinv3 this
        · rw [hroots3 w, hisroot_q w]
      · rw [if_neg hrkeq]
        have hlt2 : rk r1 < rk r2 := lt_of_le_of_ne hle hrkeq
        obtain ⟨hinv3, hmap, hroots3⟩ := attach_spec hinv2 hr2root hr1root
          heq hr1v hr2v (fun w => le_refl _) (fun w hw => rfl) hlt2
        refine ⟨hinv3, r2, r1, rfl, fun h => heq h.symm, Or.inr ⟨hr2p.symm, hr1p.symm⟩,
          fun w => ?_, fun w => ?_⟩
        · have := hmap w
          rw [hq_uroot w] at this
          exact uroot_eq_of_rootedAt hinv3 this
        · rw [hroots3 w, hisroot_q w]

/-! ## Properties of initialisation and sorting -/

lemma mem_sortEdges {e : EdgeT V} {edges : List (EdgeT V)} :
    e ∈ sortEdges edges ↔ e ∈ edges :=
  (List.perm_insertionSort edgeLE edges).mem_iff

lemma sorted_sortEdges (edges : List (EdgeT V)) :
    List.Sorted edgeLE (sortEdges edges) :=
  List.sorted_insertionSort edgeLE edges

lemma edgeLE_weight {e f : EdgeT V} (h : edgeLE e f) : e.1 ≤ f.1 := by
  rcases h with h | ⟨h, _⟩
  · exact le_of_lt h
  · exact le_of_eq h

lemma mem_verticesOf_of_mem {edges : List (EdgeT V)} {e : EdgeT V}
    (he : e ∈ edges) :
    e.2.1 ∈ verticesOf edges ∧ e.2.2 ∈ verticesOf edges := by
  unfold verticesOf verticesList
  constructor <;> rw [List.mem_toFinset] <;>
    exact List.mem_flatMap.mpr ⟨e, he, by simp⟩

lemma everts_toFinset (edges : List (EdgeT V)) :
    evertsOf edges.toFinset = verticesOf edges := by
  ext x
  unfold evertsOf verticesOf verticesList
  simp only [Finset.mem_biUnion, List.mem_toFinset, List.mem_flatMap]
  constructor
  · rintro ⟨e, he, hx⟩
    refine ⟨e, he, ?_⟩
    simpa using hx
  · rintro ⟨e, he, hx⟩
    refine ⟨e, he, ?_⟩
    simpa using hx

lemma foldl_make_set_spec :
    ∀ (l : List V) (s : St V),
      l.foldl (fun s v => make_set v s) s =
        { parent := fun v => if v ∈ l then v else s.parent v
          rank := fun v => if v ∈ l then 0 else s.rank v
          ccKeys := l.toFinset ∪ s.ccKeys
          ccMem := fun v => if v ∈ l then {v} else s.ccMem v
          tree := s.tree
          up := s.up
          ops := s.ops } := by
  intro l
  induction l with
  | nil =>
    intro s
    cases s
    simp
  | cons v l ih =>
    intro s
    rw [List.foldl_cons, ih (make_set v s)]
    unfold make_set
    ext x
    · simp only [List.mem_cons, Function.update_apply]
      by_cases h1 : x ∈ l <;> by_cases h2 : x = v <;> simp [h1, h2]
    · simp only [List.mem_cons, Function.update_apply]
      by_cases h1 : x ∈ l <;> by_cases h2 : x = v <;> simp [h1, h2]
    · simp only [List.toFinset_cons]
      constructor
      · intro hx
        rcases Finset.mem_union.mp hx with hx | hx
        · exact Finset.mem_union_left _ (Finset.mem_insert_of_mem hx)
        · rcases Finset.mem_insert.mp hx with rfl | hx
          · exact Finset.mem_union_left _ (Finset.mem_insert_self _ _)
          · exact Finset.mem_union_right _ hx
      · intro hx
        rcases Finset.mem_union.mp hx with hx | hx
        · rcases Finset.mem_insert.mp hx with rfl | hx
          · exact Finset.mem_union_right _ (Finset.mem_insert_self _ _)
          · exact Finset.mem_union_left _ hx
        · exact Finset.mem_union_right _ (Finset.mem_insert_of_mem hx)
    · simp only [List.mem_cons, Function.update_apply]
      by_cases h1 : x ∈ l <;> by_cases h2 : x = v <;> simp [h1, h2]
    · rfl
    · rfl
    · rfl

lemma initSt_parent (edges : List (EdgeT V)) :
    (initSt edges).parent = fun v => v := by
  unfold initSt
  rw [foldl_make_set_spec]
  funext v
  by_cases h : v ∈ (verticesList edges).dedup <;> simp [emptySt, h]

lemma initSt_rank (edges : List (EdgeT V)) :
    (initSt edges).rank = fun _ => 0 := by
  unfold initSt
  rw [foldl_make_set_spec]
  funext v
  by_cases h : v ∈ (verticesList edges).dedup <;> simp [emptySt, h]

lemma initSt_ccKeys (edges : List (EdgeT V)) :
    (initSt edges).ccKeys = verticesOf edges := by
  unfold initSt
  rw [foldl_make_set_spec]
  show (verticesList edges).dedup.toFinset ∪ (emptySt V).ccKeys = _
  ext x
  simp [emptySt, verticesOf, List.mem_dedup]

lemma initSt_ccMem (edges : List (EdgeT V)) (v : V) :
    (initSt edges).ccMem v =
      if v ∈ verticesOf edges then {v} else ∅ := by
  unfold initSt
  rw [foldl_make_set_spec]
  show (if v ∈ (verticesList edges).dedup then ({v} : Finset V)
      else (emptySt V).ccMem v) = _
  have hmem : v ∈ (verticesList edges).dedup ↔ v ∈ verticesOf edges := by
    simp [verticesOf, List.mem_dedup]
  by_cases h : v ∈ verticesOf edges
  · rw [if_pos (hmem.mpr h), if_pos h]
  · rw [if_neg (fun hc => h (hmem.mp hc)), if_neg h]
    rfl

lemma initSt_tree (edges : List (EdgeT V)) : (initSt edges).tree = ∅ := by
  unfold initSt
  rw [foldl_make_set_spec]
  rfl

lemma initSt_up (edges : List (EdgeT V)) : (initSt edges).up = 1 := by
  unfold initSt
  rw [foldl_make_set_spec]
  rfl

lemma initSt_ops (edges : List (EdgeT V)) : (initSt edges).ops = 0 := by
  unfold initSt
  rw [foldl_make_set_spec]
  rfl

/-! ## The loop invariant -/

/-- The part of the invariant shared by both edge loops: union-find
well-formedness, and the accepted edge set mirroring exactly the union-find
components. -/
structure CoreInv (E0 : Finset (EdgeT V)) (verts : Finset V) (s : St V) :
    Prop where
  uf : UFInv verts s.parent s.rank
  treeSub : s.tree ⊆ E0
  treeVerts : evertsOf s.tree ⊆ verts
  rootReach : ∀ a ∈ verts, ∀ b ∈ verts,
    (uroot verts s.parent a = uroot verts s.parent b ↔ Reach s.tree a b)
  forest : IsForest s.tree
  opsEq : s.ops = s.tree.card

/-- The additional invariant of `clustering`: the `cc` dict maps exactly
the current roots to their member sets, and the counter bookkeeping. -/
structure CCInv (verts : Finset V) (s : St V) : Prop where
  keys : s.ccKeys = verts.filter (fun v => s.parent v = v)
  memEq : ∀ r ∈ s.ccKeys, s.ccMem r =
    verts.filter (fun w => uroot verts s.parent w = r)
  memEmpty : ∀ r, r ∉ s.ccKeys → s.ccMem r = ∅
  cardKeys : s.tree.card + s.ccKeys.card = verts.card
  upOps : s.up = s.ops + 1

lemma everts_empty : evertsOf (∅ : Finset (EdgeT V)) = ∅ := by
  unfold evertsOf
  exact Finset.biUnion_empty

lemma everts_insert (e : EdgeT V) (F : Finset (EdgeT V)) :
    evertsOf (insert e F) = insert e.2.1 (insert e.2.2 (evertsOf F)) := by
  unfold evertsOf
  ext x
  simp only [Finset.mem_biUnion, Finset.mem_insert, Finset.mem_singleton]
  constructor
  · rintro ⟨f, rfl | hf, hx⟩
    · tauto
    · exact Or.inr (Or.inr ⟨f, hf, hx⟩)
  · rintro (rfl | rfl | ⟨f, hf, hx⟩)
    · exact ⟨e, Or.inl rfl, Or.inl rfl⟩
    · exact ⟨e, Or.inl rfl, Or.inr rfl⟩
    · exact ⟨f, Or.inr hf, hx⟩

lemma ite_merge_iff (cr ur X Y : V) :
    ((if X = ur then cr else X) = (if Y = ur then cr else Y)) ↔
      (X = Y ∨ (X = ur ∧ Y = cr) ∨ (X = cr ∧ Y = ur)) := by
  by_cases hX : X = ur <;> by_cases hY : Y = ur
  · rw [if_pos hX, if_pos hY]
    exact ⟨fun _ => Or.inl (hX.trans hY.symm), fun _ => rfl⟩
  · rw [if_pos hX, if_neg hY]
    constructor
    · intro h
      exact Or.inr (Or.inl ⟨hX, h.symm⟩)
    · rintro (h | ⟨h1, h2⟩ | ⟨h1, h2⟩)
      · exact absurd (h ▸ hX) hY
      · exact h2.symm
      · exact absurd h2 hY
  · rw [if_neg hX, if_pos hY]
    constructor
    · intro h
      exact Or.inr (Or.inr ⟨h, hY⟩)
    · rintro (h | ⟨h1, h2⟩ | ⟨h1, h2⟩)
      · exact absurd (h.trans hY) hX
      · exact absurd h1 hX
      · exact h1
  · rw [if_neg hX, if_neg hY]
    constructor
    · exact Or.inl
    · rintro (h | ⟨h1, h2⟩ | ⟨h1, h2⟩)
      · exact h
      · exact absurd h1 hX
      · exact absurd h2 hY

lemma reach_comm {F : Finset (EdgeT V)} {a b : V} :
    Reach F a b ↔ Reach F b a :=
  ⟨Reach.symm, Reach.symm⟩

lemma clusStep_skip {fuel : Nat} {e : EdgeT V} {s : St V}
    (h : (findC fuel s.parent e.2.1).1 =
      (findC fuel (findC fuel s.parent e.2.1).2 e.2.2).1) :
    clusStep fuel e s =
      { s with
        parent := (findC fuel (findC fuel s.parent e.2.1).2 e.2.2).2 } := by
  unfold clusStep
  rw [if_neg (by simpa using h)]

lemma clusStep_accept {fuel : Nat} {e : EdgeT V} {s : St V}
    (h : ¬ (findC fuel s.parent e.2.1).1 =
      (findC fuel (findC fuel s.parent e.2.1).2 e.2.2).1)
    {cr ur : V}
    (hu : (union_returning_choosen e.2.1 e.2.2 fuel
      (findC fuel (findC fuel s.parent e.2.1).2 e.2.2).2 s.rank).1 =
        some (cr, ur)) :
    clusStep fuel e s =
      { parent := (union_returning_choosen e.2.1 e.2.2 fuel
          (findC fuel (findC fuel s.parent e.2.1).2 e.2.2).2 s.rank).2.1
        rank := (union_returning_choosen e.2.1 e.2.2 fuel
          (findC fuel (findC fuel s.parent e.2.1).2 e.2.2).2 s.rank).2.2
        ccKeys := s.ccKeys.erase ur
        ccMem := Function.update
          (Function.update s.ccMem cr (s.ccMem cr ∪ s.ccMem ur)) ur ∅
        tree := insert e s.tree
        up := s.up + 1
        ops := s.ops + 1 } := by
  unfold clusStep
  rw [if_pos (by simpa using h)]
  simp only [hu]

lemma mstStep_skip {fuel : Nat} {e : EdgeT V} {s : St V}
    (h : (findC fuel s.parent e.2.1).1 =
      (findC fuel (findC fuel s.parent e.2.1).2 e.2.2).1) :
    mstStep fuel e s =
      { s with
        parent := (findC fuel (findC fuel s.parent e.2.1).2 e.2.2).2 } := by
  unfold mstStep
  rw [if_neg (by simpa using h)]

lemma mstStep_accept {fuel : Nat} {e : EdgeT V} {s : St V}
    (h : ¬ (findC fuel s.parent e.2.1).1 =
      (findC fuel (findC fuel s.parent e.2.1).2 e.2.2).1) :
    mstStep fuel e s =
      { s with
        parent := (unionUF e.2.1 e.2.2 fuel
          (findC fuel (findC fuel s.parent e.2.1).2 e.2.2).2 s.rank).1
        rank := (unionUF e.2.1 e.2.2 fuel
          (findC fuel (findC fuel s.parent e.2.1).2 e.2.2).2 s.rank).2
        tree := insert e s.tree
        ops := s.ops + 1 } := by
  unfold mstStep
  rw [if_pos (by simpa using h)]

set_option maxHeartbeats 1600000 in
/-- Effect of one loop body execution of `clustering` on the invariant:
it is preserved, the edge's endpoints end up connected, and the counters
move exactly when the edge is accepted. -/
lemma clusStep_spec {E0 : Finset (EdgeT V)} {verts : Finset V} {fuel : Nat}
    (hfuel : verts.card < fuel) {s : St V}
    (hc : CoreInv E0 verts s) {e : EdgeT V}
    (heE : e ∈ E0) (ha : e.2.1 ∈ verts) (hb : e.2.2 ∈ verts) :
    CoreInv E0 verts (clusStep fuel e s) ∧
      (CCInv verts s → CCInv verts (clusStep fuel e s)) ∧
      Reach (clusStep fuel e s).tree e.2.1 e.2.2 ∧
      s.tree ⊆ (clusStep fuel e s).tree ∧
      (Reach s.tree e.2.1 e.2.2 →
        (clusStep fuel e s).tree = s.tree ∧
          (clusStep fuel e s).up = s.up ∧
          (clusStep fuel e s).ops = s.ops ∧
          (clusStep fuel e s).ccKeys = s.ccKeys ∧
          (clusStep fuel e s).ccMem = s.ccMem) ∧
      (¬ Reach s.tree e.2.1 e.2.2 →
        (clusStep fuel e s).tree = insert e s.tree ∧
          (clusStep fuel e s).up = s.up + 1 ∧
          (clusStep fuel e s).ops = s.ops + 1) := by
  obtain ⟨ew, ea, eb⟩ := e
  have hmeasa : rkMeasure verts s.rank ea < fuel :=
    lt_of_le_of_lt (rkMeasure_le_card _) hfuel
  have hmeasb : rkMeasure verts s.rank eb < fuel :=
    lt_of_le_of_lt (rkMeasure_le_card _) hfuel
  obtain ⟨hroota, hinv1, hpres1⟩ := findC_spec fuel s.parent hc.uf ea hmeasa
  obtain ⟨hrootb, hinv2, hpres2⟩ :=
    findC_spec fuel (findC fuel s.parent ea).2 hinv1 eb hmeasb
  set r1 := (findC fuel s.parent ea).1 with hr1def
  set q1 := (findC fuel s.parent ea).2 with hq1def
  set r2 := (findC fuel q1 eb).1 with hr2def
  set q := (findC fuel q1 eb).2 with hqdef
  have hpres : ∀ w t, RootedAt q w t ↔ RootedAt s.parent w t := fun w t =>
    (hpres2 w t).trans (hpres1 w t)
  have hq_uroot : ∀ w, uroot verts q w = uroot verts s.parent w := fun w =>
    uroot_eq_uroot_of_rootedAt_iff hc.uf hinv2 hpres w
  have hq_isroot : ∀ w, IsRoot q w ↔ IsRoot s.parent w :=
    isRoot_iff_of_rootedAt_iff hpres
  have hr1 : uroot verts s.parent ea = r1 :=
    uroot_eq_of_rootedAt hc.uf hroota
  have hr2 : uroot verts s.parent eb = r2 :=
    uroot_eq_of_rootedAt hc.uf ((hpres1 _ _).mp hrootb)
  have hcond : (r1 = r2) ↔ Reach s.tree ea eb := by
    rw [← hr1, ← hr2]
    exact hc.rootReach _ ha _ hb
  by_cases hR : Reach s.tree ea eb
  · -- the edge is skipped: only path compression happened
    have h12 : r1 = r2 := hcond.mpr hR
    have hstep := @clusStep_skip V _ _ fuel (ew, ea, eb) s h12
    rw [hstep]
    refine ⟨⟨hinv2, hc.treeSub, hc.treeVerts, ?_, hc.forest, hc.opsEq⟩,
      ?_, hR,
      Finset.Subset.refl _, fun _ => ⟨rfl, rfl, rfl, rfl, rfl⟩,
      fun h => absurd hR h⟩
    · intro x hx y hy
      rw [show ({ s with parent := q } : St V).parent = q from rfl,
        hq_uroot x, hq_uroot y]
      exact hc.rootReach x hx y hy
    · intro hcc
      refine ⟨?_, ?_, hcc.memEmpty, hcc.cardKeys, hcc.upOps⟩
      · rw [show ({ s with parent := q } : St V).ccKeys = s.ccKeys from rfl,
          hcc.keys]
        apply Finset.filter_congr
        intro x hx
        exact (hq_isroot x).symm
      · intro r hr
        rw [show ({ s with parent := q } : St V).ccMem = s.ccMem from rfl,
          hcc.memEq r hr]
        apply Finset.filter_congr
        intro w hw
        rw [hq_uroot w]
  · -- the edge is accepted: a union is performed and the edge recorded
    have h12 : ¬ r1 = r2 := fun h => hR (hcond.mp h)
    obtain ⟨hinvu, hrest⟩ := unionRC_spec hinv2 ha hb hfuel
    rw [if_neg (by rw [hq_uroot, hq_uroot, hr1, hr2]; exact h12)] at hrest
    obtain ⟨cr, ur, hu1, hcrur, hor, humap, huroots⟩ := hrest
    rw [hq_uroot, hq_uroot, hr1, hr2] at hor
    set u := union_returning_choosen ea eb fuel q s.rank with hudef
    have humap' : ∀ w, uroot verts u.2.1 w =
        if uroot verts s.parent w = ur then cr
        else uroot verts s.parent w := by
      intro w
      rw [humap w, hq_uroot w]
    have huroots' : ∀ w, IsRoot u.2.1 w ↔
        (IsRoot s.parent w ∧ w ≠ ur) := by
      intro w
      rw [huroots w, hq_isroot w]
    have hstep := @clusStep_accept V _ _ fuel (ew, ea, eb) s h12 cr ur hu1
    have heNotMem : (ew, ea, eb) ∉ s.tree := by
      intro hmem
      exact hR (Reach.of_adjE ⟨ew, Or.inl hmem⟩)
    have hcrIsRoot : IsRoot s.parent cr := by
      rcases hor with ⟨h1, _⟩ | ⟨h1, _⟩ <;> rw [h1]
      · rw [← hr1]; exact uroot_isRoot hc.uf ea
      · rw [← hr2]; exact uroot_isRoot hc.uf eb
    have hurIsRoot : IsRoot s.parent ur := by
      rcases hor with ⟨_, h2⟩ | ⟨_, h2⟩ <;> rw [h2]
      · rw [← hr2]; exact uroot_isRoot hc.uf eb
      · rw [← hr1]; exact uroot_isRoot hc.uf ea
    have hcrVerts : cr ∈ verts := by
      rcases hor with ⟨h1, _⟩ | ⟨h1, _⟩ <;> rw [h1]
      · rw [← hr1]; exact uroot_mem hc.uf ha
      · rw [← hr2]; exact uroot_mem hc.uf hb
    have hurVerts : ur ∈ verts := by
      rcases hor with ⟨_, h2⟩ | ⟨_, h2⟩ <;> rw [h2]
      · rw [← hr2]; exact uroot_mem hc.uf hb
      · rw [← hr1]; exact uroot_mem hc.uf ha
    rw [hstep]
    refine ⟨⟨hinvu, ?_, ?_, ?_, ?_, ?_⟩, ?_,
      Reach.of_adjE ⟨ew, Or.inl (Finset.mem_insert_self _ _)⟩,
      Finset.subset_insert _ _, fun h => absurd h hR,
      fun _ => ⟨rfl, rfl, rfl⟩⟩
    · exact Finset.insert_subset_iff.mpr ⟨heE, hc.treeSub⟩
    · show evertsOf (insert (ew, ea, eb) s.tree) ⊆ verts
      rw [everts_insert]
      exact Finset.insert_subset_iff.mpr ⟨ha,
        Finset.insert_subset_iff.mpr ⟨hb, hc.treeVerts⟩⟩
    · intro x hx y hy
      show uroot verts u.2.1 x = uroot verts u.2.1 y ↔
        Reach (insert (ew, ea, eb) s.tree) x y
      rw [humap' x, humap' y, ite_merge_iff, reach_insert_iff]
      have hxy : Reach s.tree x y ↔
          uroot verts s.parent x = uroot verts s.parent y :=
        (hc.rootReach x hx y hy).symm
      have hxa : Reach s.tree x ea ↔ uroot verts s.parent x = r1 := by
        rw [← hr1]; exact (hc.rootReach x hx ea ha).symm
      have hxb : Reach s.tree x eb ↔ uroot verts s.parent x = r2 := by
        rw [← hr2]; exact (hc.rootReach x hx eb hb).symm
      have hby : Reach s.tree eb y ↔ uroot verts s.parent y = r2 := by
        rw [reach_comm, ← hr2]; exact (hc.rootReach y hy eb hb).symm
      have hay : Reach s.tree ea y ↔ uroot verts s.parent y = r1 := by
        rw [reach_comm, ← hr1]; exact (hc.rootReach y hy ea ha).symm
      rw [hxy, hxa, hxb, hby, hay]
      rcases hor with ⟨h1, h2⟩ | ⟨h1, h2⟩ <;> rw [h1, h2] <;> tauto
    · show IsForest (insert (ew, ea, eb) s.tree)
      exact isForest_insert hc.forest hR
    · show s.ops + 1 = (insert (ew, ea, eb) s.tree).card
      rw [Finset.card_insert_of_not_mem heNotMem, hc.opsEq]
    · -- the cc invariant, when it held before the step
      intro hcc
      have hcrKeys : cr ∈ s.ccKeys := by
        rw [hcc.keys]
        exact Finset.mem_filter.mpr ⟨hcrVerts, hcrIsRoot⟩
      have hurKeys : ur ∈ s.ccKeys := by
        rw [hcc.keys]
        exact Finset.mem_filter.mpr ⟨hurVerts, hurIsRoot⟩
      refine ⟨?_, ?_, ?_, ?_, ?_⟩
      · show s.ccKeys.erase ur = verts.filter (fun v => u.2.1 v = v)
        ext x
        simp only [Finset.mem_erase, hcc.keys, Finset.mem_filter]
        constructor
        · rintro ⟨hxur, hxv, hxroot⟩
          exact ⟨hxv, (huroots' x).mpr ⟨hxroot, hxur⟩⟩
        · rintro ⟨hxv, hxroot⟩
          obtain ⟨h1, h2⟩ := (huroots' x).mp hxroot
          exact ⟨h2, hxv, h1⟩
      · -- values of cc are exactly the components
        intro r hr
        obtain ⟨hrne, hrkeys⟩ := Finset.mem_erase.mp hr
        show Function.update
            (Function.update s.ccMem cr (s.ccMem cr ∪ s.ccMem ur)) ur ∅ r =
          verts.filter (fun w => uroot verts u.2.1 w = r)
        rw [Function.update_noteq hrne]
        by_cases hrcr : r = cr
        · rw [hrcr, Function.update_same]
          rw [hcc.memEq cr hcrKeys, hcc.memEq ur hurKeys]
          ext w
          simp only [Finset.mem_union, Finset.mem_filter]
          constructor
          · rintro (⟨hwv, hw⟩ | ⟨hwv, hw⟩)
            · refine ⟨hwv, ?_⟩
              rw [humap' w, hw, if_neg hcrur]
            · refine ⟨hwv, ?_⟩
              rw [humap' w, hw, if_pos rfl]
          · rintro ⟨hwv, hw⟩
            rw [humap' w] at hw
            by_cases hwu : uroot verts s.parent w = ur
            · exact Or.inr ⟨hwv, hwu⟩
            · rw [if_neg hwu] at hw
              exact Or.inl ⟨hwv, hw⟩
        · rw [Function.update_noteq hrcr, hcc.memEq r hrkeys]
          apply Finset.filter_congr
          intro w hw
          rw [humap' w]
          by_cases hwu : uroot verts s.parent w = ur
          · rw [hwu, if_pos rfl]
            constructor
            · intro h; exact absurd h.symm hrne
            · intro h; exact absurd h.symm hrcr
          · rw [if_neg hwu]
      · -- deleted or never-present keys have no entry
        intro r hrnot
        by_cases hru : r = ur
        · rw [hru]
          show Function.update
            (Function.update s.ccMem cr (s.ccMem cr ∪ s.ccMem ur)) ur ∅ ur = ∅
          rw [Function.update_same]
        · have hrkeys : r ∉ s.ccKeys := by
            intro hmem
            exact hrnot (Finset.mem_erase.mpr ⟨hru, hmem⟩)
          have hrcr : r ≠ cr := fun h => hrkeys (h ▸ hcrKeys)
          show Function.update
            (Function.update s.ccMem cr (s.ccMem cr ∪ s.ccMem ur)) ur ∅ r = ∅
          rw [Function.update_noteq hru, Function.update_noteq hrcr]
          exact hcc.memEmpty r hrkeys
      · show (insert (ew, ea, eb) s.tree).card + (s.ccKeys.erase ur).card =
          verts.card
        rw [Finset.card_insert_of_not_mem heNotMem,
          Finset.card_erase_of_mem hurKeys]
        have h1 := hcc.cardKeys
        have h2 : 1 ≤ s.ccKeys.card := Finset.card_pos.mpr ⟨ur, hurKeys⟩
        omega
      · show s.up + 1 = (s.ops + 1) + 1
        rw [hcc.upOps]

lemma clusLoop_break {fuel : Nat} {nbU : Int} {l : List (EdgeT V)}
    {s : St V} (h : (s.up : Int) > nbU) : clusLoop fuel nbU l s = s := by
  cases l with
  | nil => rfl
  | cons e rest =>
    unfold clusLoop
    rw [if_pos h]

lemma clusLoop_cons {fuel : Nat} {nbU : Int} {e : EdgeT V}
    {l : List (EdgeT V)} {s : St V} (h : ¬ (s.up : Int) > nbU) :
    clusLoop fuel nbU (e :: l) s = clusLoop fuel nbU l (clusStep fuel e s) := by
  conv_lhs => unfold clusLoop
  rw [if_neg h]

/-- Invariant preservation and behaviour of the whole `clustering` loop. -/
lemma clusLoop_spec {E0 : Finset (EdgeT V)} {verts : Finset V} {fuel : Nat}
    (hfuel : verts.card < fuel) (nbU : Int) :
    ∀ (l : List (EdgeT V)) (s : St V), CoreInv E0 verts s → CCInv verts s →
      (∀ e ∈ l, e ∈ E0 ∧ e.2.1 ∈ verts ∧ e.2.2 ∈ verts) →
      CoreInv E0 verts (clusLoop fuel nbU l s) ∧
        CCInv verts (clusLoop fuel nbU l s) ∧
        s.tree ⊆ (clusLoop fuel nbU l s).tree ∧
        ((s.up : Int) ≤ nbU + 1 →
          ((clusLoop fuel nbU l s).up : Int) ≤ nbU + 1) ∧
        (((clusLoop fuel nbU l s).up : Int) > nbU ∨
          ∀ e ∈ l, Reach (clusLoop fuel nbU l s).tree e.2.1 e.2.2) := by
  intro l
  induction l with
  | nil =>
    intro s hc hcc hl
    exact ⟨hc, hcc, Finset.Subset.refl _, fun h => h,
      Or.inr (fun e he => absurd he (List.not_mem_nil e))⟩
  | cons e rest ih =>
    intro s hc hcc hl
    by_cases hbr : (s.up : Int) > nbU
    · rw [clusLoop_break hbr]
      exact ⟨hc, hcc, Finset.Subset.refl _, fun h => h, Or.inl hbr⟩
    · rw [clusLoop_cons hbr]
      obtain ⟨he1, he2, he3⟩ := hl e (List.mem_cons_self e rest)
      obtain ⟨hc1, hcc1, hreach1, hsub1, hskipF, haccF⟩ :=
        clusStep_spec hfuel hc he1 he2 he3
      have hup1 : ((clusStep fuel e s).up : Int) ≤ (s.up : Int) + 1 := by
        by_cases hR : Reach s.tree e.2.1 e.2.2
        · rw [(hskipF hR).2.1]; omega
        · rw [(haccF hR).2.1]; push_cast; omega
      obtain ⟨hc2, hcc2, hsub2, hbound2, hcomp2⟩ :=
        ih (clusStep fuel e s) hc1 (hcc1 hcc)
          (fun f hf => hl f (List.mem_cons_of_mem e hf))
      refine ⟨hc2, hcc2, hsub1.trans hsub2, ?_, ?_⟩
      · intro hle
        apply hbound2
        omega
      · rcases hcomp2 with h | h
        · exact Or.inl h
        · refine Or.inr ?_
          intro f hf
          rcases List.mem_cons.mp hf with rfl | hf
          · exact hreach1.mono hsub2
          · exact h f hf

lemma coreInv_congr {E0 : Finset (EdgeT V)} {verts : Finset V} {s t : St V}
    (h : CoreInv E0 verts s) (hp : t.parent = s.parent)
    (hr : t.rank = s.rank) (ht : t.tree = s.tree) (ho : t.ops = s.ops) :
    CoreInv E0 verts t := by
  constructor
  · rw [hp, hr]; exact h.uf
  · rw [ht]; exact h.treeSub
  · rw [ht]; exact h.treeVerts
  · intro a haa b hbb
    rw [hp, ht]
    exact h.rootReach a haa b hbb
  · rw [ht]; exact h.forest
  · rw [ho, ht]; exact h.opsEq

/-- The state change of the `minimum_spanning_tree` loop body is that of
the `clustering` loop body, with `cc` and `union_performed` untouched. -/
lemma mstStep_eq_clusStep {verts : Finset V} {fuel : Nat}
    (hfuel : verts.card < fuel) {s : St V}
    (huf : UFInv verts s.parent s.rank) {e : EdgeT V}
    (ha : e.2.1 ∈ verts) (hb : e.2.2 ∈ verts) :
    mstStep fuel e s =
      { clusStep fuel e s with
        ccKeys := s.ccKeys
        ccMem := s.ccMem
        up := s.up } := by
  obtain ⟨ew, ea, eb⟩ := e
  have hmeasa : rkMeasure verts s.rank ea < fuel :=
    lt_of_le_of_lt (rkMeasure_le_card _) hfuel
  have hmeasb : rkMeasure verts s.rank eb < fuel :=
    lt_of_le_of_lt (rkMeasure_le_card _) hfuel
  obtain ⟨hroota, hinv1, hpres1⟩ := findC_spec fuel s.parent huf ea hmeasa
  obtain ⟨hrootb, hinv2, hpres2⟩ :=
    findC_spec fuel (findC fuel s.parent ea).2 hinv1 eb hmeasb
  set r1 := (findC fuel s.parent ea).1 with hr1def
  set q1 := (findC fuel s.parent ea).2 with hq1def
  set r2 := (findC fuel q1 eb).1 with hr2def
  set q := (findC fuel q1 eb).2 with hqdef
  by_cases h12 : r1 = r2
  · rw [@mstStep_skip V _ _ fuel (ew, ea, eb) s h12,
      @clusStep_skip V _ _ fuel (ew, ea, eb) s h12]
  · have hpres : ∀ w t, RootedAt q w t ↔ RootedAt s.parent w t := fun w t =>
      (hpres2 w t).trans (hpres1 w t)
    have hq_uroot : ∀ w, uroot verts q w = uroot verts s.parent w :=
      fun w => uroot_eq_uroot_of_rootedAt_iff huf hinv2 hpres w
    have hr1 : uroot verts s.parent ea = r1 :=
      uroot_eq_of_rootedAt huf hroota
    have hr2 : uroot verts s.parent eb = r2 :=
      uroot_eq_of_rootedAt huf ((hpres1 _ _).mp hrootb)
    obtain ⟨hinvu, hrest⟩ := unionRC_spec hinv2 ha hb hfuel
    rw [if_neg (by rw [hq_uroot, hq_uroot, hr1, hr2]; exact h12)] at hrest
    obtain ⟨cr, ur, hu1, _⟩ := hrest
    rw [@mstStep_accept V _ _ fuel (ew, ea, eb) s h12,
      @clusStep_accept V _ _ fuel (ew, ea, eb) s h12 cr ur hu1,
      unionUF_eq_returning]

/-- Invariant preservation and behaviour of the loop body of
`minimum_spanning_tree`. -/
lemma mstStep_spec {E0 : Finset (EdgeT V)} {verts : Finset V} {fuel : Nat}
    (hfuel : verts.card < fuel) {s : St V} (hc : CoreInv E0 verts s)
    {e : EdgeT V} (heE : e ∈ E0) (ha : e.2.1 ∈ verts) (hb : e.2.2 ∈ verts) :
    CoreInv E0 verts (mstStep fuel e s) ∧
      Reach (mstStep fuel e s).tree e.2.1 e.2.2 ∧
      s.tree ⊆ (mstStep fuel e s).tree ∧
      (Reach s.tree e.2.1 e.2.2 → (mstStep fuel e s).tree = s.tree) ∧
      (¬ Reach s.tree e.2.1 e.2.2 →
        (mstStep fuel e s).tree = insert e s.tree) := by
  have heq := mstStep_eq_clusStep hfuel hc.uf ha hb
  obtain ⟨hc1, _, hreach, hsub, hskipF, haccF⟩ :=
    clusStep_spec hfuel hc heE ha hb
  refine ⟨?_, ?_, ?_, ?_, ?_⟩
  · apply coreInv_congr hc1 <;> rw [heq]
  · rw [heq]; exact hreach
  · rw [heq]; exact hsub
  · intro h
    rw [heq]
    exact (hskipF h).1
  · intro h
    rw [heq]
    exact (haccF h).1

lemma mstStep_cc (fuel : Nat) (e : EdgeT V) (s : St V) :
    (mstStep fuel e s).ccKeys = s.ccKeys ∧
      (mstStep fuel e s).ccMem = s.ccMem ∧
      (mstStep fuel e s).up = s.up := by
  by_cases h : (findC fuel s.parent e.2.1).1 =
      (findC fuel (findC fuel s.parent e.2.1).2 e.2.2).1
  · rw [mstStep_skip h]
    exact ⟨rfl, rfl, rfl⟩
  · rw [mstStep_accept h]
    exact ⟨rfl, rfl, rfl⟩

/-- Invariant preservation and completeness of the whole
`minimum_spanning_tree` loop. -/
lemma mstLoop_spec {E0 : Finset (EdgeT V)} {verts : Finset V} {fuel : Nat}
    (hfuel : verts.card < fuel) :
    ∀ (l : List (EdgeT V)) (s : St V), CoreInv E0 verts s →
      (∀ e ∈ l, e ∈ E0 ∧ e.2.1 ∈ verts ∧ e.2.2 ∈ verts) →
      CoreInv E0 verts (mstLoop fuel l s) ∧
        s.tree ⊆ (mstLoop fuel l s).tree ∧
        ∀ e ∈ l, Reach (mstLoop fuel l s).tree e.2.1 e.2.2 := by
  intro l
  induction l with
  | nil =>
    intro s hc hl
    exact ⟨hc, Finset.Subset.refl _,
      fun e he => absurd he (List.not_mem_nil e)⟩
  | cons e rest ih =>
    intro s hc hl
    obtain ⟨he1, he2, he3⟩ := hl e (List.mem_cons_self e rest)
    obtain ⟨hc1, hreach1, hsub1, _, _⟩ := mstStep_spec hfuel hc he1 he2 he3
    obtain ⟨hc2, hsub2, hcomp2⟩ :=
      ih (mstStep fuel e s) hc1 (fun f hf => hl f (List.mem_cons_of_mem e hf))
    refine ⟨hc2, hsub1.trans hsub2, ?_⟩
    intro f hf
    rcases List.mem_cons.mp hf with rfl | hf
    · exact hreach1.mono hsub2
    · exact hcomp2 f hf

/-! ## The invariant at initialisation, and the full runs -/

lemma ufInv_id (verts : Finset V) (rk : V → Nat) :
    UFInv verts (fun v => v) rk :=
  ⟨fun _ _ => rfl, fun v hv => hv, fun _ hv => absurd rfl hv⟩

lemma uroot_id (verts : Finset V) (v : V) :
    uroot verts (fun w => w) v = v :=
  uroot_of_isRoot (ufInv_id verts (fun _ => 0)) rfl

lemma initSt_core (edges : List (EdgeT V)) :
    CoreInv edges.toFinset (verticesOf edges) (initSt edges) := by
  constructor
  · rw [initSt_parent, initSt_rank]
    exact ufInv_id _ _
  · rw [initSt_tree]
    exact Finset.empty_subset _
  · rw [initSt_tree, everts_empty]
    exact Finset.empty_subset _
  · intro a ha b hb
    rw [initSt_tree, initSt_parent, uroot_id, uroot_id]
    exact reach_empty_iff.symm
  · rw [initSt_tree]
    exact isForest_empty
  · rw [initSt_ops, initSt_tree]
    simp

lemma initSt_cc (edges : List (EdgeT V)) :
    CCInv (verticesOf edges) (initSt edges) := by
  constructor
  · rw [initSt_ccKeys, initSt_parent]
    ext x
    simp
  · intro r hr
    rw [initSt_ccKeys] at hr
    rw [initSt_ccMem, if_pos hr, initSt_parent]
    ext w
    simp only [Finset.mem_filter, Finset.mem_singleton, uroot_id]
    constructor
    · rintro rfl
      exact ⟨hr, rfl⟩
    · rintro ⟨_, rfl⟩
      rfl
  · intro r hrn
    rw [initSt_ccKeys] at hrn
    rw [initSt_ccMem, if_neg hrn]
  · rw [initSt_tree, initSt_ccKeys]
    simp
  · rw [initSt_up, initSt_ops]

lemma sortEdges_mem_facts (edges : List (EdgeT V)) :
    ∀ e ∈ sortEdges edges, e ∈ edges.toFinset ∧
      e.2.1 ∈ verticesOf edges ∧ e.2.2 ∈ verticesOf edges := by
  intro e he
  have he2 : e ∈ edges := mem_sortEdges.mp he
  exact ⟨List.mem_toFinset.mpr he2, (mem_verticesOf_of_mem he2).1,
    (mem_verticesOf_of_mem he2).2⟩

lemma sortEdges_toFinset (edges : List (EdgeT V)) :
    (sortEdges edges).toFinset = edges.toFinset := by
  ext e
  rw [List.mem_toFinset, List.mem_toFinset, mem_sortEdges]

lemma mstRun_spec (edges : List (EdgeT V)) :
    CoreInv edges.toFinset (verticesOf edges) (mstRun edges) ∧
      ∀ e ∈ edges.toFinset, Reach (mstRun edges).tree e.2.1 e.2.2 := by
  have hfuel : (verticesOf edges).card < (verticesOf edges).card + 1 :=
    Nat.lt_succ_self _
  obtain ⟨hc, _, hcomp⟩ := mstLoop_spec hfuel (sortEdges edges)
    (initSt edges) (initSt_core edges) (sortEdges_mem_facts edges)
  exact ⟨hc, fun e he =>
    hcomp e (mem_sortEdges.mpr (List.mem_toFinset.mp he))⟩

lemma reach_of_complete {E0 T : Finset (EdgeT V)}
    (h : ∀ e ∈ E0, Reach T e.2.1 e.2.2) {x y : V} (hxy : Reach E0 x y) :
    Reach T x y := by
  induction hxy with
  | refl => exact Reach.rfl
  | @tail b c hchain hadj ih =>
    obtain ⟨w, hm | hm⟩ := hadj
    · exact ih.trans (h (w, b, c) hm)
    · exact ih.trans (h (w, c, b) hm).symm

/-- The output of `minimum_spanning_tree` is a spanning forest of its
input. -/
lemma mst_isSF (edges : List (EdgeT V)) :
    IsSpanningForest edges.toFinset (minimum_spanning_tree edges) := by
  obtain ⟨hc, hcomp⟩ := mstRun_spec edges
  exact ⟨hc.treeSub, hc.forest,
    fun a _ b _ hab => reach_of_complete hcomp hab⟩

/-- The greedy exchange argument: along the loop, some minimum spanning
forest always extends the accepted set using only unprocessed edges. -/
lemma mstLoop_min {E0 : Finset (EdgeT V)} {verts : Finset V} {fuel : Nat}
    (hfuel : verts.card < fuel) :
    ∀ (l : List (EdgeT V)) (s : St V), CoreInv E0 verts s →
      (∀ e ∈ l, e ∈ E0 ∧ e.2.1 ∈ verts ∧ e.2.2 ∈ verts) →
      List.Sorted edgeLE l →
      ∀ M, IsSpanningForest E0 M →
        (∀ F, IsSpanningForest E0 F → weightOf M ≤ weightOf F) →
        s.tree ⊆ M → M \ s.tree ⊆ l.toFinset →
        ∃ M2, IsSpanningForest E0 M2 ∧
          (∀ F, IsSpanningForest E0 F → weightOf M2 ≤ weightOf F) ∧
          M2 = (mstLoop fuel l s).tree := by
  intro l
  induction l with
  | nil =>
    intro s hc hl hsort M hMsf hMmin hsubM hrem
    refine ⟨M, hMsf, hMmin, ?_⟩
    show M = s.tree
    apply Finset.Subset.antisymm ?_ hsubM
    intro g hg
    by_contra hgt
    have : g ∈ M \ s.tree := Finset.mem_sdiff.mpr ⟨hg, hgt⟩
    have := hrem this
    simp at this
  | cons e rest ih =>
    intro s hc hl hsort M hMsf hMmin hsubM hrem
    obtain ⟨heE, hea, heb⟩ := hl e (List.mem_cons_self e rest)
    obtain ⟨hhead, htail⟩ := List.sorted_cons.mp hsort
    obtain ⟨hc1, hreach1, hsub1, hskipF, haccF⟩ :=
      mstStep_spec hfuel hc heE hea heb
    show ∃ M2, _ ∧ _ ∧ M2 = (mstLoop fuel rest (mstStep fuel e s)).tree
    by_cases hR : Reach s.tree e.2.1 e.2.2
    · -- skipped edge: it cannot be in M, so the certificate M still works
      have htree : (mstStep fuel e s).tree = s.tree := hskipF hR
      refine ih (mstStep fuel e s) hc1
        (fun f hf => hl f (List.mem_cons_of_mem e hf)) htail M hMsf hMmin
        (htree ▸ hsubM) ?_
      rw [htree]
      intro g hg
      have hg2 := hrem hg
      rw [List.toFinset_cons] at hg2
      rcases Finset.mem_insert.mp hg2 with rfl | hg2
      · -- the skipped edge cannot be in M outside the accepted set:
        -- its endpoints are already connected inside M without it
        exfalso
        obtain ⟨hgM, hgTree⟩ := Finset.mem_sdiff.mp hg
        apply hMsf.2.1 _ hgM
        refine Reach.mono ?_ hR
        intro x hx
        exact Finset.mem_erase.mpr ⟨fun h => hgTree (h ▸ hx), hsubM hx⟩
      · exact hg2
    · -- accepted edge
      have htree : (mstStep fuel e s).tree = insert e s.tree := haccF hR
      by_cases heM : e ∈ M
      · -- the certificate already contains the edge
        refine ih (mstStep fuel e s) hc1
          (fun f hf => hl f (List.mem_cons_of_mem e hf)) htail M hMsf hMmin
          ?_ ?_
        · rw [htree]
          exact Finset.insert_subset_iff.mpr ⟨heM, hsubM⟩
        · rw [htree]
          intro g hg
          obtain ⟨hgM, hgt⟩ := Finset.mem_sdiff.mp hg
          have hge : g ≠ e := fun h => hgt (h ▸ Finset.mem_insert_self _ _)
          have hg2 := hrem (Finset.mem_sdiff.mpr
            ⟨hgM, fun h => hgt (Finset.mem_insert_of_mem h)⟩)
          rw [List.toFinset_cons] at hg2
          rcases Finset.mem_insert.mp hg2 with rfl | hg2
          · exact absurd rfl hge
          · exact hg2
      · -- exchange an unprocessed edge of M for e
        obtain ⟨ew, ea, eb⟩ := e
        have hMreach : Reach M ea eb :=
          spanning_reach hMsf (Reach.of_adjE (adjE_of_mem heE))
        obtain ⟨f, hfM, hfTree, hfcut⟩ := forest_exchange (M \ s.tree).card
          M s.tree (le_refl _) hsubM hMsf.2.1 ea eb hR hMreach
        obtain ⟨fw, fa, fb⟩ := f
        have hfe : (fw, fa, fb) ≠ (ew, ea, eb) := by
          intro h
          rw [h] at hfM
          exact heM hfM
        have hfRest : (fw, fa, fb) ∈ rest.toFinset := by
          have := hrem (Finset.mem_sdiff.mpr ⟨hfM, hfTree⟩)
          rw [List.toFinset_cons] at this
          rcases Finset.mem_insert.mp this with h | h
          · exact absurd h hfe
          · exact h
        have hwle : ew ≤ fw :=
          edgeLE_weight (hhead _ (List.mem_toFinset.mp hfRest))
        have heNotErase : (ew, ea, eb) ∉ M.erase (fw, fa, fb) :=
          fun h => heM (Finset.mem_of_mem_erase h)
        set M2 := insert (ew, ea, eb) (M.erase (fw, fa, fb)) with hM2def
        have hM2sub : M2 ⊆ E0 :=
          Finset.insert_subset_iff.mpr
            ⟨heE, (Finset.erase_subset _ _).trans hMsf.1⟩
        have hM2forest : IsForest M2 :=
          isForest_insert (isForest_subset (Finset.erase_subset _ _)
            hMsf.2.1) hfcut
        have hMsplit : insert (fw, fa, fb) (M.erase (fw, fa, fb)) = M :=
          Finset.insert_erase hfM
        have hfaM2 : Reach M2 fa fb := by
          have h2 : Reach (insert (fw, fa, fb) (M.erase (fw, fa, fb))) ea eb := by
            rw [hMsplit]; exact hMreach
          have hsub2 : M.erase (fw, fa, fb) ⊆ M2 := Finset.subset_insert _ _
          have hee : Reach M2 ea eb :=
            Reach.of_adjE ⟨ew, Or.inl (Finset.mem_insert_self _ _)⟩
          rcases reach_insert_iff.mp h2 with h3 | ⟨h3, h4⟩ | ⟨h3, h4⟩
          · exact absurd h3 hfcut
          · exact ((h3.mono hsub2).symm.trans hee).trans (h4.mono hsub2).symm
          · exact ((h4.mono hsub2).trans hee.symm).trans (h3.mono hsub2)
        have hM2span : ∀ x ∈ evertsOf E0, ∀ y ∈ evertsOf E0,
            Reach E0 x y → Reach M2 x y := by
          intro x hx y hy hxy
          have hMxy : Reach M x y := hMsf.2.2 x hx y hy hxy
          rw [← hMsplit] at hMxy
          have hsub2 : M.erase (fw, fa, fb) ⊆ M2 := Finset.subset_insert _ _
          rcases reach_insert_iff.mp hMxy with h3 | ⟨h3, h4⟩ | ⟨h3, h4⟩
          · exact h3.mono hsub2
          · exact ((h3.mono hsub2).trans hfaM2).trans (h4.mono hsub2)
          · exact ((h3.mono hsub2).trans hfaM2.symm).trans (h4.mono hsub2)
        have hM2sf : IsSpanningForest E0 M2 := ⟨hM2sub, hM2forest, hM2span⟩
        have hM2weight : weightOf M2 ≤ weightOf M := by
          have h1 : weightOf M2 = ew + weightOf (M.erase (fw, fa, fb)) := by
            rw [hM2def]
            exact Finset.sum_insert heNotErase
          have h2 : weightOf (M.erase (fw, fa, fb)) + fw = weightOf M := by
            have := Finset.sum_erase_add M (fun e => e.1) hfM
            exact this
          rw [h1, ← h2]
          omega
        have hM2min : ∀ F, IsSpanningForest E0 F →
            weightOf M2 ≤ weightOf F := fun F hF =>
          le_trans hM2weight (hMmin F hF)
        refine ih (mstStep fuel (ew, ea, eb) s) hc1
          (fun f hf => hl f (List.mem_cons_of_mem _ hf)) htail M2 hM2sf
          hM2min ?_ ?_
        · rw [htree]
          apply Finset.insert_subset_iff.mpr
          refine ⟨Finset.mem_insert_self _ _, ?_⟩
          intro g hg
          apply Finset.mem_insert_of_mem
          exact Finset.mem_erase.mpr ⟨fun h => hfTree (h ▸ hg), hsubM hg⟩
        · rw [htree]
          intro g hg
          obtain ⟨hgM2, hgt⟩ := Finset.mem_sdiff.mp hg
          have hge : g ≠ (ew, ea, eb) :=
            fun h => hgt (h ▸ Finset.mem_insert_self _ _)
          have hgM : g ∈ M.erase (fw, fa, fb) := by
            rcases Finset.mem_insert.mp hgM2 with h | h
            · exact absurd h hge
            · exact h
          have hgMtree : g ∈ M \ s.tree := Finset.mem_sdiff.mpr
            ⟨Finset.mem_of_mem_erase hgM,
              fun h => hgt (Finset.mem_insert_of_mem h)⟩
          have hg2 := hrem hgMtree
          rw [List.toFinset_cons] at hg2
          rcases Finset.mem_insert.mp hg2 with rfl | hg2
          · exact absurd rfl hge
          · exact hg2

/-- Minimality of the weight of `minimum_spanning_tree` among spanning
forests. -/
lemma mst_minimal (edges : List (EdgeT V)) :
    ∀ F, IsSpanningForest edges.toFinset F →
      weightOf (minimum_spanning_tree edges) ≤ weightOf F := by
  obtain ⟨M, hMsf, hMmin⟩ := exists_min_spanning_forest (mst_isSF edges)
  have hfuel : (verticesOf edges).card < (verticesOf edges).card + 1 :=
    Nat.lt_succ_self _
  obtain ⟨M2, hM2sf, hM2min, hM2eq⟩ := mstLoop_min hfuel (sortEdges edges)
    (initSt edges) (initSt_core edges) (sortEdges_mem_facts edges)
    (sorted_sortEdges edges) M hMsf hMmin
    (by rw [initSt_tree]; exact Finset.empty_subset _)
    (by
      rw [initSt_tree, Finset.sdiff_empty, sortEdges_toFinset]
      exact hMsf.1)
  intro F hF
  have : minimum_spanning_tree edges = M2 := hM2eq.symm
  rw [this]
  exact hM2min F hF

/-! ## Counting components via the `cc` keys -/

/-- At any state satisfying the invariants, the number of connected
components of the accepted edge set equals the number of `cc` keys. -/
lemma ncOn_eq_keys {E0 : Finset (EdgeT V)} {verts : Finset V} {s : St V}
    (hc : CoreInv E0 verts s) (hcc : CCInv verts s) :
    ncOn verts s.tree = s.ccKeys.card := by
  have himg : classesOn verts s.tree =
      s.ccKeys.image (fun r => classOn verts s.tree r) := by
    apply Finset.Subset.antisymm
    · intro S hS
      obtain ⟨v, hv, rfl⟩ := Finset.mem_image.mp hS
      apply Finset.mem_image.mpr
      refine ⟨uroot verts s.parent v, ?_, ?_⟩
      · rw [hcc.keys]
        exact Finset.mem_filter.mpr ⟨uroot_mem hc.uf hv,
          uroot_isRoot hc.uf v⟩
      · have hreach : Reach s.tree v (uroot verts s.parent v) := by
          apply (hc.rootReach v hv _ (uroot_mem hc.uf hv)).mp
          exact (uroot_uroot hc.uf v).symm
        exact (classOn_eq_of_reach hreach).symm
    · intro S hS
      obtain ⟨r, hr, rfl⟩ := Finset.mem_image.mp hS
      have hrv : r ∈ verts := by
        rw [hcc.keys] at hr
        exact (Finset.mem_filter.mp hr).1
      exact classOn_mem_classesOn hrv
  have hinj : Set.InjOn (fun r => classOn verts s.tree r) s.ccKeys := by
    intro r hr r2 hr2 heq
    rw [hcc.keys] at hr hr2
    obtain ⟨hrv, hrroot⟩ := Finset.mem_filter.mp hr
    obtain ⟨hr2v, hr2root⟩ := Finset.mem_filter.mp hr2
    have hreach : Reach s.tree r r2 := (classOn_eq_iff hrv hr2v).mp heq
    have := (hc.rootReach r hrv r2 hr2v).mpr hreach
    rwa [uroot_of_isRoot hc.uf hrroot, uroot_of_isRoot hc.uf hr2root] at this
  unfold ncOn
  rw [himg, Finset.card_image_of_injOn hinj]

/-- The full behaviour of `clustering` after the loop. -/
lemma clusRun_spec (edges : List (EdgeT V)) (k : Int) :
    CoreInv edges.toFinset (verticesOf edges) (clusRun edges k) ∧
      CCInv (verticesOf edges) (clusRun edges k) ∧
      ((((clusRun edges k).up : Int) > (verticesOf edges).card - k) ∨
        ∀ e ∈ edges.toFinset, Reach (clusRun edges k).tree e.2.1 e.2.2) ∧
      ((1 : Int) ≤ ((verticesOf edges).card - k) + 1 →
        ((clusRun edges k).up : Int) ≤ ((verticesOf edges).card - k) + 1) := by
  have hfuel : (verticesOf edges).card < (verticesOf edges).card + 1 :=
    Nat.lt_succ_self _
  obtain ⟨hc, hcc, _, hbound, hdisj⟩ := clusLoop_spec hfuel
    ((verticesOf edges).card - k) (sortEdges edges) (initSt edges)
    (initSt_core edges) (initSt_cc edges) (sortEdges_mem_facts edges)
  refine ⟨hc, hcc, ?_, ?_⟩
  · rcases hdisj with h | h
    · exact Or.inl h
    · exact Or.inr (fun e he =>
        h e (mem_sortEdges.mpr (List.mem_toFinset.mp he)))
  · intro hpre
    apply hbound
    rw [initSt_up]
    push_cast
    omega

/-- When all remaining edges already have connected endpoints, the
`clustering` loop changes nothing observable. -/
lemma clusLoop_stable {E0 : Finset (EdgeT V)} {verts : Finset V}
    {fuel : Nat} (hfuel : verts.card < fuel) (nbU : Int) :
    ∀ (l : List (EdgeT V)) (s : St V), CoreInv E0 verts s →
      (∀ e ∈ l, e ∈ E0 ∧ e.2.1 ∈ verts ∧ e.2.2 ∈ verts) →
      (∀ e ∈ l, Reach s.tree e.2.1 e.2.2) →
      (clusLoop fuel nbU l s).tree = s.tree ∧
        (clusLoop fuel nbU l s).ccKeys = s.ccKeys ∧
        (clusLoop fuel nbU l s).ccMem = s.ccMem ∧
        (clusLoop fuel nbU l s).up = s.up := by
  intro l
  induction l with
  | nil => exact fun s _ _ _ => ⟨rfl, rfl, rfl, rfl⟩
  | cons e rest ih =>
    intro s hc hl hconn
    by_cases hbr : (s.up : Int) > nbU
    · rw [clusLoop_break hbr]
      exact ⟨rfl, rfl, rfl, rfl⟩
    · rw [clusLoop_cons hbr]
      obtain ⟨he1, he2, he3⟩ := hl e (List.mem_cons_self e rest)
      have hR : Reach s.tree e.2.1 e.2.2 :=
        hconn e (List.mem_cons_self e rest)
      obtain ⟨hc1, _, _, _, hskipF, _⟩ := clusStep_spec hfuel hc he1 he2 he3
      obtain ⟨ht, hu, ho, hk, hm⟩ := hskipF hR
      obtain ⟨ih1, ih2, ih3, ih4⟩ := ih (clusStep fuel e s) hc1
        (fun f hf => hl f (List.mem_cons_of_mem e hf))
        (fun f hf => ht ▸ hconn f (List.mem_cons_of_mem e hf))
      exact ⟨ih1.trans ht, ih2.trans hk, ih3.trans hm, ih4.trans hu⟩

/-- Same for the `minimum_spanning_tree` loop. -/
lemma mstLoop_stable {E0 : Finset (EdgeT V)} {verts : Finset V}
    {fuel : Nat} (hfuel : verts.card < fuel) :
    ∀ (l : List (EdgeT V)) (s : St V), CoreInv E0 verts s →
      (∀ e ∈ l, e ∈ E0 ∧ e.2.1 ∈ verts ∧ e.2.2 ∈ verts) →
      (∀ e ∈ l, Reach s.tree e.2.1 e.2.2) →
      (mstLoop fuel l s).tree = s.tree := by
  intro l
  induction l with
  | nil => exact fun s _ _ _ => rfl
  | cons e rest ih =>
    intro s hc hl hconn
    obtain ⟨he1, he2, he3⟩ := hl e (List.mem_cons_self e rest)
    have hR : Reach s.tree e.2.1 e.2.2 :=
      hconn e (List.mem_cons_self e rest)
    obtain ⟨hc1, _, _, hskipF, _⟩ := mstStep_spec hfuel hc he1 he2 he3
    have ht := hskipF hR
    have := ih (mstStep fuel e s) hc1
      (fun f hf => hl f (List.mem_cons_of_mem e hf))
      (fun f hf => ht ▸ hconn f (List.mem_cons_of_mem e hf))
    exact this.trans ht

/-- The `minimum_spanning_tree` loop only reads `parent`, `rank` and
`tree`. -/
lemma mstLoop_tree_congr (fuel : Nat) :
    ∀ (l : List (EdgeT V)) (s t : St V), s.parent = t.parent →
      s.rank = t.rank → s.tree = t.tree →
      (mstLoop fuel l s).tree = (mstLoop fuel l t).tree := by
  intro l
  induction l with
  | nil => exact fun s t _ _ ht => ht
  | cons e rest ih =>
    intro s t hp hr ht
    by_cases h : (findC fuel s.parent e.2.1).1 =
        (findC fuel (findC fuel s.parent e.2.1).2 e.2.2).1
    · have h2 : (findC fuel t.parent e.2.1).1 =
          (findC fuel (findC fuel t.parent e.2.1).2 e.2.2).1 := by
        rw [← hp]; exact h
      apply ih
      · rw [mstStep_skip h, mstStep_skip h2]
        show (findC fuel (findC fuel s.parent e.2.1).2 e.2.2).2 = _
        rw [hp]
      · rw [mstStep_skip h, mstStep_skip h2]
        exact hr
      · rw [mstStep_skip h, mstStep_skip h2]
        exact ht
    · have h2 : ¬ (findC fuel t.parent e.2.1).1 =
          (findC fuel (findC fuel t.parent e.2.1).2 e.2.2).1 := by
        rw [← hp]; exact h
      apply ih
      · rw [mstStep_accept h, mstStep_accept h2]
        show (unionUF e.2.1 e.2.2 fuel
          (findC fuel (findC fuel s.parent e.2.1).2 e.2.2).2 s.rank).1 = _
        rw [hp, hr]
      · rw [mstStep_accept h, mstStep_accept h2]
        show (unionUF e.2.1 e.2.2 fuel
          (findC fuel (findC fuel s.parent e.2.1).2 e.2.2).2 s.rank).2 = _
        rw [hp, hr]
      · rw [mstStep_accept h, mstStep_accept h2]
        show insert e s.tree = insert e t.tree
        rw [ht]

/-- If at most one component is left, every pair of vertices is
connected in the accepted set. -/
lemma keys_le_one_connected {E0 : Finset (EdgeT V)} {verts : Finset V}
    {s : St V} (hc : CoreInv E0 verts s) (hcc : CCInv verts s)
    (hk : s.ccKeys.card ≤ 1) :
    ∀ a ∈ verts, ∀ b ∈ verts, Reach s.tree a b := by
  intro a ha b hb
  apply (hc.rootReach a ha b hb).mp
  have hmem : ∀ v ∈ verts, uroot verts s.parent v ∈ s.ccKeys := by
    intro v hv
    rw [hcc.keys]
    exact Finset.mem_filter.mpr ⟨uroot_mem hc.uf hv, uroot_isRoot hc.uf v⟩
  exact Finset.card_le_one.mp hk _ (hmem a ha) _ (hmem b hb)

/-- With a sufficient union budget, the bounded `clustering` loop accepts
exactly the edges the unbounded `minimum_spanning_tree` loop accepts. -/
lemma clus_mst_lockstep {E0 : Finset (EdgeT V)} {verts : Finset V}
    {fuel : Nat} (hfuel : verts.card < fuel) (nbU : Int) :
    ∀ (l : List (EdgeT V)) (s : St V), CoreInv E0 verts s → CCInv verts s →
      (∀ e ∈ l, e ∈ E0 ∧ e.2.1 ∈ verts ∧ e.2.2 ∈ verts) →
      ((s.ccKeys.card : Int) + (s.up : Int) ≤ nbU + 2) →
      (clusLoop fuel nbU l s).tree = (mstLoop fuel l s).tree := by
  intro l
  induction l with
  | nil => intro s _ _ _ _; rfl
  | cons e rest ih =>
    intro s hc hcc hl hslack
    by_cases hbr : (s.up : Int) > nbU
    · rw [clusLoop_break hbr]
      have hk : s.ccKeys.card ≤ 1 := by omega
      have hconn := keys_le_one_connected hc hcc hk
      symm
      exact mstLoop_stable hfuel (e :: rest) s hc hl
        (fun f hf => hconn _ (hl f hf).2.1 _ (hl f hf).2.2)
    · rw [clusLoop_cons hbr]
      obtain ⟨he1, he2, he3⟩ := hl e (List.mem_cons_self e rest)
      obtain ⟨hc1, hcc1f, _, _, hskipF, haccF⟩ :=
        clusStep_spec hfuel hc he1 he2 he3
      have hcc1 := hcc1f hcc
      have heq := mstStep_eq_clusStep hfuel hc.uf he2 he3
      have hmst : (mstLoop fuel (e :: rest) s).tree =
          (mstLoop fuel rest (clusStep fuel e s)).tree := by
        show (mstLoop fuel rest (mstStep fuel e s)).tree = _
        apply mstLoop_tree_congr
        · rw [heq]
        · rw [heq]
        · rw [heq]
      rw [hmst]
      apply ih (clusStep fuel e s) hc1 hcc1
        (fun f hf => hl f (List.mem_cons_of_mem e hf))
      by_cases hR : Reach s.tree e.2.1 e.2.2
      · obtain ⟨ht, hu, ho, hk, hm⟩ := hskipF hR
        rw [hu, hk]
        exact hslack
      · obtain ⟨ht, hu, ho⟩ := haccF hR
        have h1 := hcc.cardKeys
        have h2 := hcc1.cardKeys
        have h3 : (clusStep fuel e s).tree.card = s.tree.card + 1 := by
          rw [ht]
          exact Finset.card_insert_of_not_mem
            (fun hmem => hR (Reach.of_adjE ⟨e.1, Or.inl hmem⟩))
        rw [hu]
        push_cast
        omega

/-- Two budgets that are both large enough to never bind before the loop
stabilises produce the same observable results. -/
lemma clus_clus_lockstep {E0 : Finset (EdgeT V)} {verts : Finset V}
    {fuel : Nat} (hfuel : verts.card < fuel) (nbU nbU2 : Int)
    (hle : nbU ≤ nbU2) :
    ∀ (l : List (EdgeT V)) (s : St V), CoreInv E0 verts s → CCInv verts s →
      (∀ e ∈ l, e ∈ E0 ∧ e.2.1 ∈ verts ∧ e.2.2 ∈ verts) →
      ((s.ccKeys.card : Int) + (s.up : Int) ≤ nbU + 2) →
      (clusLoop fuel nbU l s).tree = (clusLoop fuel nbU2 l s).tree ∧
        (clusLoop fuel nbU l s).ccKeys = (clusLoop fuel nbU2 l s).ccKeys ∧
        (clusLoop fuel nbU l s).ccMem = (clusLoop fuel nbU2 l s).ccMem := by
  intro l
  induction l with
  | nil => intro s _ _ _ _; exact ⟨rfl, rfl, rfl⟩
  | cons e rest ih =>
    intro s hc hcc hl hslack
    by_cases hbr : (s.up : Int) > nbU
    · rw [clusLoop_break hbr]
      have hk : s.ccKeys.card ≤ 1 := by omega
      have hconn := keys_le_one_connected hc hcc hk
      obtain ⟨h1, h2, h3, _⟩ := clusLoop_stable hfuel nbU2 (e :: rest) s hc
        hl (fun f hf => hconn _ (hl f hf).2.1 _ (hl f hf).2.2)
      exact ⟨h1.symm, h2.symm, h3.symm⟩
    · have hbr2 : ¬ (s.up : Int) > nbU2 := by omega
      rw [clusLoop_cons hbr, clusLoop_cons hbr2]
      obtain ⟨he1, he2, he3⟩ := hl e (List.mem_cons_self e rest)
      obtain ⟨hc1, hcc1f, _, _, hskipF, haccF⟩ :=
        clusStep_spec hfuel hc he1 he2 he3
      apply ih (clusStep fuel e s) hc1 (hcc1f hcc)
        (fun f hf => hl f (List.mem_cons_of_mem e hf))
      by_cases hR : Reach s.tree e.2.1 e.2.2
      · obtain ⟨ht, hu, ho, hk, hm⟩ := hskipF hR
        rw [hu, hk]
        exact hslack
      · obtain ⟨ht, hu, ho⟩ := haccF hR
        have h1 := hcc.cardKeys
        have h2 := (hcc1f hcc).cardKeys
        have h3 : (clusStep fuel e s).tree.card = s.tree.card + 1 := by
          rw [ht]
          exact Finset.card_insert_of_not_mem
            (fun hmem => hR (Reach.of_adjE ⟨e.1, Or.inl hmem⟩))
        rw [hu]
        push_cast
        omega

/-- When the requested number of clusters is at least the number of
vertices, the break fires before any edge is processed. -/
lemma clusRun_eq_init (edges : List (EdgeT V)) (k : Int)
    (h : ((verticesOf edges).card : Int) - k < 1) :
    clusRun edges k = initSt edges := by
  unfold clusRun
  apply clusLoop_break
  rw [initSt_up]
  push_cast
  omega

/-- The number of clusters returned: `min k n` whenever the graph has at
most `k` connected components. -/
lemma clusRun_keys_card (edges : List (EdgeT V)) (k : Int) (hk1 : 1 ≤ k)
    (hck : (ncOn (verticesOf edges) edges.toFinset : Int) ≤ k) :
    ((clusRun edges k).ccKeys.card : Int) =
      min k ((verticesOf edges).card : Int) := by
  obtain ⟨hc, hcc, hdisj, hbound⟩ := clusRun_spec edges k
  have hkeys := hcc.cardKeys
  have hup := hcc.upOps
  have hops := hc.opsEq
  have hnc : ncOn (verticesOf edges) (clusRun edges k).tree =
      (clusRun edges k).ccKeys.card := ncOn_eq_keys hc hcc
  by_cases hkn : k ≤ ((verticesOf edges).card : Int)
  · rw [min_eq_left hkn]
    have hb := hbound (by omega)
    by_cases hbr : ((clusRun edges k).up : Int) >
        ((verticesOf edges).card : Int) - k
    · omega
    · rcases hdisj with h | h
      · exact absurd h hbr
      · exfalso
        have hcomp : ncOn (verticesOf edges) (clusRun edges k).tree =
            ncOn (verticesOf edges) edges.toFinset := by
          apply ncOn_congr
          intro a ha b hb2
          exact ⟨fun hr => hr.mono hc.treeSub, reach_of_complete h⟩
        omega
  · rw [min_eq_right (le_of_not_le hkn)]
    rw [clusRun_eq_init edges k (by omega), initSt_ccKeys]

/-! ## A first-order mirror of the state

To evaluate concrete runs, the function-valued dictionaries of `St` are
mirrored by association lists, which is in fact closer to Python's actual
`dict`s: an update is a `cons` in front, a lookup scans the list from the
front.  The mirror states are plain data with decidable equality, so a
concrete run can be replayed step by step, each intermediate state being
given by a literal.  `RelD` relates a mirror state to the corresponding
`St`; it is preserved by every operation, so the observable components of
a run (`tree`, `ccKeys`, counters, and `ccMem` pointwise) can be read off
the mirror run. -/

structure StD (V : Type) where
  parent : List (V × V)
  rank : List (V × Nat)
  ccKeys : Finset V
  ccMem : List (V × Finset V)
  tree : Finset (EdgeT V)
  up : Nat
  ops : Nat
  deriving DecidableEq

/-- Association-list lookup for a `parent` dict, defaulting to the key
itself (such entries are never read on registered keys). -/
def lookV : List (V × V) → V → V
  | [], v => v
  | (k, r) :: t, v => if v = k then r else lookV t v

/-- Association-list lookup for a `rank` dict, defaulting to `0`. -/
def lookN : List (V × Nat) → V → Nat
  | [], _ => 0
  | (k, r) :: t, v => if v = k then r else lookN t v

/-- Association-list lookup for the `cc` dict, defaulting to `∅`. -/
def lookS : List (V × Finset V) → V → Finset V
  | [], _ => ∅
  | (k, r) :: t, v => if v = k then r else lookS t v

lemma lookV_cons (l : List (V × V)) (a r : V) :
    lookV ((a, r) :: l) = Function.update (lookV l) a r := by
  funext x
  simp [lookV, Function.update_apply]

lemma lookN_cons (l : List (V × Nat)) (a : V) (r : Nat) :
    lookN ((a, r) :: l) = Function.update (lookN l) a r := by
  funext x
  simp [lookN, Function.update_apply]

lemma lookS_cons (l : List (V × Finset V)) (a : V) (r : Finset V) :
    lookS ((a, r) :: l) = Function.update (lookS l) a r := by
  funext x
  simp [lookS, Function.update_apply]

lemma lookV_nil : lookV ([] : List (V × V)) = fun v => v := by
  funext v; rfl

lemma lookN_nil : lookN ([] : List (V × Nat)) = fun _ => 0 := by
  funext v; rfl

lemma lookS_nil : lookS ([] : List (V × Finset V)) = fun _ => (∅ : Finset V) := by
  funext v; rfl

/-- Mirror of `make_set`. -/
def make_setD (v : V) (s : StD V) : StD V :=
  { s with
    parent := (v, v) :: s.parent
    rank := (v, 0) :: s.rank
    ccKeys := insert v s.ccKeys
    ccMem := (v, {v}) :: s.ccMem }

/-- Mirror of `emptySt`. -/
def emptyStD (V : Type) : StD V :=
  { parent := []
    rank := []
    ccKeys := ∅
    ccMem := []
    tree := ∅
    up := 1
    ops := 0 }

/-- Mirror of `initSt`. -/
def initStD (edges : List (EdgeT V)) : StD V :=
  (verticesList edges).dedup.foldl (fun s v => make_setD v s) (emptyStD V)

/-- Mirror of `findC`. -/
def findD : Nat → List (V × V) → V → V × List (V × V)
  | 0, p, v => (v, p)
  | n + 1, p, v =>
    if lookV p v = v then (v, p)
    else
      let r := findD n p (lookV p v)
      (r.1, (v, r.1) :: r.2)

/-- Mirror of `union_returning_choosen`. -/
def union_rcD (v1 v2 : V) (fuel : Nat) (p : List (V × V))
    (rk : List (V × Nat)) :
    Option (V × V) × List (V × V) × List (V × Nat) :=
  let f1 := findD fuel p v1
  let f2 := findD fuel f1.2 v2
  let r1 := f1.1
  let r2 := f2.1
  let q := f2.2
  if r1 ≠ r2 then
    if lookN rk r2 < lookN rk r1 then (some (r1, r2), (r2, r1) :: q, rk)
    else
      if lookN rk r1 = lookN rk r2 then
        (some (r2, r1), (r1, r2) :: q, (r2, lookN rk r2 + 1) :: rk)
      else (some (r2, r1), (r1, r2) :: q, rk)
  else (none, q, rk)

/-- Mirror of `mstStep` (via `unionUF_eq_returning`, the `_union` of the
source has the same effect on `parent` and `rank` as
`_union_returning_choosen`). -/
def mstStepD (fuel : Nat) (e : EdgeT V) (s : StD V) : StD V :=
  let f1 := findD fuel s.parent e.2.1
  let f2 := findD fuel f1.2 e.2.2
  if f1.1 ≠ f2.1 then
    let u := union_rcD e.2.1 e.2.2 fuel f2.2 s.rank
    { s with
      parent := u.2.1
      rank := u.2.2
      tree := insert e s.tree
      ops := s.ops + 1 }
  else { s with parent := f2.2 }

/-- Mirror of `mstLoop`. -/
def mstLoopD (fuel : Nat) : List (EdgeT V) → StD V → StD V
  | [], s => s
  | e :: rest, s => mstLoopD fuel rest (mstStepD fuel e s)

/-- Mirror of `mstRun`. -/
def mstRunD (edges : List (EdgeT V)) : StD V :=
  mstLoopD ((verticesOf edges).card + 1) (sortEdges edges) (initStD edges)

/-- Mirror of `clusStep`. -/
def clusStepD (fuel : Nat) (e : EdgeT V) (s : StD V) : StD V :=
  let f1 := findD fuel s.parent e.2.1
  let f2 := findD fuel f1.2 e.2.2
  if f1.1 ≠ f2.1 then
    let u := union_rcD e.2.1 e.2.2 fuel f2.2 s.rank
    match u.1 with
    | some rs =>
      { parent := u.2.1
        rank := u.2.2
        ccKeys := s.ccKeys.erase rs.2
        ccMem := (rs.2, ∅) ::
          (rs.1, lookS s.ccMem rs.1 ∪ lookS s.ccMem rs.2) :: s.ccMem
        tree := insert e s.tree
        up := s.up + 1
        ops := s.ops + 1 }
    | none =>
      { parent := u.2.1
        rank := u.2.2
        ccKeys := s.ccKeys
        ccMem := s.ccMem
        tree := insert e s.tree
        up := s.up + 1
        ops := s.ops }
  else { s with parent := f2.2 }

/-- Mirror of `clusLoop`. -/
def clusLoopD (fuel : Nat) (nbU : Int) : List (EdgeT V) → StD V → StD V
  | [], s => s
  | e :: rest, s =>
    if (s.up : Int) > nbU then s
    else clusLoopD fuel nbU rest (clusStepD fuel e s)

/-- Mirror of `clusRun`. -/
def clusRunD (edges : List (EdgeT V)) (nb_clusters : Int) : StD V :=
  clusLoopD ((verticesOf edges).card + 1)
    ((verticesOf edges).card - nb_clusters) (sortEdges edges) (initStD edges)

/-- The simulation relation between a mirror state and a `St`. -/
def RelD (d : StD V) (s : St V) : Prop :=
  s.parent = lookV d.parent ∧ s.rank = lookN d.rank ∧
    s.ccKeys = d.ccKeys ∧ s.ccMem = lookS d.ccMem ∧
    s.tree = d.tree ∧ s.up = d.up ∧ s.ops = d.ops

lemma findD_agree : ∀ (n : Nat) (l : List (V × V)) (v : V),
    (findD n l v).1 = (findC n (lookV l) v).1 ∧
      lookV (findD n l v).2 = (findC n (lookV l) v).2 := by
  intro n
  induction n with
  | zero => intro l v; exact ⟨rfl, rfl⟩
  | succ n ih =>
    intro l v
    by_cases h : lookV l v = v
    · simp [findD, findC, h]
    · obtain ⟨ih1, ih2⟩ := ih l (lookV l v)
      simp only [findD, findC, if_neg h]
      refine ⟨ih1, ?_⟩
      rw [lookV_cons, ih2, ih1]

lemma union_rcD_agree (v1 v2 : V) (fuel : Nat) (p : List (V × V))
    (rk : List (V × Nat)) :
    (union_rcD v1 v2 fuel p rk).1 =
        (union_returning_choosen v1 v2 fuel (lookV p) (lookN rk)).1 ∧
      lookV (union_rcD v1 v2 fuel p rk).2.1 =
        (union_returning_choosen v1 v2 fuel (lookV p) (lookN rk)).2.1 ∧
      lookN (union_rcD v1 v2 fuel p rk).2.2 =
        (union_returning_choosen v1 v2 fuel (lookV p) (lookN rk)).2.2 := by
  obtain ⟨hf1, hf2⟩ := findD_agree fuel p v1
  obtain ⟨hg1, hg2⟩ := findD_agree fuel (findD fuel p v1).2 v2
  rw [hf2] at hg1 hg2
  unfold union_rcD union_returning_choosen
  dsimp only
  rw [hf1, hg1]
  split_ifs <;>
    refine ⟨rfl, ?_, ?_⟩ <;>
      simp [lookV_cons, lookN_cons, hg2]

lemma clusStep_accept_none {fuel : Nat} {e : EdgeT V} {s : St V}
    (h : ¬ (findC fuel s.parent e.2.1).1 =
      (findC fuel (findC fuel s.parent e.2.1).2 e.2.2).1)
    (hu : (union_returning_choosen e.2.1 e.2.2 fuel
      (findC fuel (findC fuel s.parent e.2.1).2 e.2.2).2 s.rank).1 = none) :
    clusStep fuel e s =
      { parent := (union_returning_choosen e.2.1 e.2.2 fuel
          (findC fuel (findC fuel s.parent e.2.1).2 e.2.2).2 s.rank).2.1
        rank := (union_returning_choosen e.2.1 e.2.2 fuel
          (findC fuel (findC fuel s.parent e.2.1).2 e.2.2).2 s.rank).2.2
        ccKeys := s.ccKeys
        ccMem := s.ccMem
        tree := insert e s.tree
        up := s.up + 1
        ops := s.ops } := by
  unfold clusStep
  rw [if_pos (by simpa using h)]
  simp only [hu]

lemma mstStepD_skip {fuel : Nat} {e : EdgeT V} {s : StD V}
    (h : (findD fuel s.parent e.2.1).1 =
      (findD fuel (findD fuel s.parent e.2.1).2 e.2.2).1) :
    mstStepD fuel e s =
      { s with
        parent := (findD fuel (findD fuel s.parent e.2.1).2 e.2.2).2 } := by
  unfold mstStepD
  rw [if_neg (by simpa using h)]

lemma mstStepD_accept {fuel : Nat} {e : EdgeT V} {s : StD V}
    (h : ¬ (findD fuel s.parent e.2.1).1 =
      (findD fuel (findD fuel s.parent e.2.1).2 e.2.2).1) :
    mstStepD fuel e s =
      { s with
        parent := (union_rcD e.2.1 e.2.2 fuel
          (findD fuel (findD fuel s.parent e.2.1).2 e.2.2).2 s.rank).2.1
        rank := (union_rcD e.2.1 e.2.2 fuel
          (findD fuel (findD fuel s.parent e.2.1).2 e.2.2).2 s.rank).2.2
        tree := insert e s.tree
        ops := s.ops + 1 } := by
  unfold mstStepD
  rw [if_pos (by simpa using h)]

lemma clusStepD_skip {fuel : Nat} {e : EdgeT V} {s : StD V}
    (h : (findD fuel s.parent e.2.1).1 =
      (findD fuel (findD fuel s.parent e.2.1).2 e.2.2).1) :
    clusStepD fuel e s =
      { s with
        parent := (findD fuel (findD fuel s.parent e.2.1).2 e.2.2).2 } := by
  unfold clusStepD
  rw [if_neg (by simpa using h)]

lemma clusStepD_accept {fuel : Nat} {e : EdgeT V} {s : StD V}
    (h : ¬ (findD fuel s.parent e.2.1).1 =
      (findD fuel (findD fuel s.parent e.2.1).2 e.2.2).1)
    {cr ur : V}
    (hu : (union_rcD e.2.1 e.2.2 fuel
      (findD fuel (findD fuel s.parent e.2.1).2 e.2.2).2 s.rank).1 =
        some (cr, ur)) :
    clusStepD fuel e s =
      { parent := (union_rcD e.2.1 e.2.2 fuel
          (findD fuel (findD fuel s.parent e.2.1).2 e.2.2).2 s.rank).2.1
        rank := (union_rcD e.2.1 e.2.2 fuel
          (findD fuel (findD fuel s.parent e.2.1).2 e.2.2).2 s.rank).2.2
        ccKeys := s.ccKeys.erase ur
        ccMem := (ur, ∅) ::
          (cr, lookS s.ccMem cr ∪ lookS s.ccMem ur) :: s.ccMem
        tree := insert e s.tree
        up := s.up + 1
        ops := s.ops + 1 } := by
  unfold clusStepD
  rw [if_pos (by simpa using h)]
  simp only [hu]

lemma clusStepD_accept_none {fuel : Nat} {e : EdgeT V} {s : StD V}
    (h : ¬ (findD fuel s.parent e.2.1).1 =
      (findD fuel (findD fuel s.parent e.2.1).2 e.2.2).1)
    (hu : (union_rcD e.2.1 e.2.2 fuel
      (findD fuel (findD fuel s.parent e.2.1).2 e.2.2).2 s.rank).1 = none) :
    clusStepD fuel e s =
      { parent := (union_rcD e.2.1 e.2.2 fuel
          (findD fuel (findD fuel s.parent e.2.1).2 e.2.2).2 s.rank).2.1
        rank := (union_rcD e.2.1 e.2.2 fuel
          (findD fuel (findD fuel s.parent e.2.1).2 e.2.2).2 s.rank).2.2
        ccKeys := s.ccKeys
        ccMem := s.ccMem
        tree := insert e s.tree
        up := s.up + 1
        ops := s.ops } := by
  unfold clusStepD
  rw [if_pos (by simpa using h)]
  simp only [hu]

lemma mstStepD_agree {fuel : Nat} {e : EdgeT V} {d : StD V} {s : St V}
    (h : RelD d s) : RelD (mstStepD fuel e d) (mstStep fuel e s) := by
  obtain ⟨hp, hr, hk, hm, ht, hu, ho⟩ := h
  obtain ⟨hf1, hf2⟩ := findD_agree fuel d.parent e.2.1
  obtain ⟨hg1, hg2⟩ := findD_agree fuel (findD fuel d.parent e.2.1).2 e.2.2
  rw [hf2] at hg1 hg2
  rw [← hp] at hf1 hf2 hg1 hg2
  by_cases hcond : (findC fuel s.parent e.2.1).1 =
      (findC fuel (findC fuel s.parent e.2.1).2 e.2.2).1
  · rw [mstStep_skip hcond, mstStepD_skip (by rw [hf1, hg1]; exact hcond)]
    exact ⟨hg2.symm, hr, hk, hm, ht, hu, ho⟩
  · have hcondD : ¬ (findD fuel d.parent e.2.1).1 =
        (findD fuel (findD fuel d.parent e.2.1).2 e.2.2).1 := by
      rw [hf1, hg1]; exact hcond
    obtain ⟨hu1, hu2, hu3⟩ := union_rcD_agree e.2.1 e.2.2 fuel
      (findD fuel (findD fuel d.parent e.2.1).2 e.2.2).2 d.rank
    rw [hg2, ← hr] at hu1 hu2 hu3
    rw [mstStep_accept hcond, mstStepD_accept hcondD, unionUF_eq_returning]
    exact ⟨hu2.symm, hu3.symm, hk, hm, by rw [ht], hu, by rw [ho]⟩

lemma clusStepD_agree {fuel : Nat} {e : EdgeT V} {d : StD V} {s : St V}
    (h : RelD d s) : RelD (clusStepD fuel e d) (clusStep fuel e s) := by
  obtain ⟨hp, hr, hk, hm, ht, hu, ho⟩ := h
  obtain ⟨hf1, hf2⟩ := findD_agree fuel d.parent e.2.1
  obtain ⟨hg1, hg2⟩ := findD_agree fuel (findD fuel d.parent e.2.1).2 e.2.2
  rw [hf2] at hg1 hg2
  rw [← hp] at hf1 hf2 hg1 hg2
  by_cases hcond : (findC fuel s.parent e.2.1).1 =
      (findC fuel (findC fuel s.parent e.2.1).2 e.2.2).1
  · rw [clusStep_skip hcond, clusStepD_skip (by rw [hf1, hg1]; exact hcond)]
    exact ⟨hg2.symm, hr, hk, hm, ht, hu, ho⟩
  · have hcondD : ¬ (findD fuel d.parent e.2.1).1 =
        (findD fuel (findD fuel d.parent e.2.1).2 e.2.2).1 := by
      rw [hf1, hg1]; exact hcond
    obtain ⟨hu1, hu2, hu3⟩ := union_rcD_agree e.2.1 e.2.2 fuel
      (findD fuel (findD fuel d.parent e.2.1).2 e.2.2).2 d.rank
    rw [hg2, ← hr] at hu1 hu2 hu3
    rcases hopt : (union_returning_choosen e.2.1 e.2.2 fuel
        (findC fuel (findC fuel s.parent e.2.1).2 e.2.2).2 s.rank).1 with
      _ | ⟨cr, ur⟩
    · rw [clusStep_accept_none hcond hopt,
        clusStepD_accept_none hcondD (by rw [hu1]; exact hopt)]
      exact ⟨hu2.symm, hu3.symm, hk, hm, by rw [ht], by rw [hu], ho⟩
    · rw [clusStep_accept hcond hopt,
        clusStepD_accept hcondD (by rw [hu1]; exact hopt)]
      refine ⟨hu2.symm, hu3.symm, by rw [hk], ?_, by rw [ht], by rw [hu],
        by rw [ho]⟩
      rw [hm, lookS_cons, lookS_cons]

lemma clusLoopD_break {fuel : Nat} {nbU : Int} {l : List (EdgeT V)}
    {s : StD V} (h : (s.up : Int) > nbU) : clusLoopD fuel nbU l s = s := by
  cases l with
  | nil => rfl
  | cons e rest =>
    unfold clusLoopD
    rw [if_pos h]

lemma clusLoopD_cons {fuel : Nat} {nbU : Int} {e : EdgeT V}
    {l : List (EdgeT V)} {s : StD V} (h : ¬ (s.up : Int) > nbU) :
    clusLoopD fuel nbU (e :: l) s =
      clusLoopD fuel nbU l (clusStepD fuel e s) := by
  conv_lhs => unfold clusLoopD
  rw [if_neg h]

lemma mstLoopD_nil (fuel : Nat) (s : StD V) : mstLoopD fuel [] s = s := rfl

lemma mstLoopD_cons (fuel : Nat) (e : EdgeT V) (l : List (EdgeT V))
    (s : StD V) :
    mstLoopD fuel (e :: l) s = mstLoopD fuel l (mstStepD fuel e s) := rfl

lemma mstLoopD_agree {fuel : Nat} : ∀ (l : List (EdgeT V)) {d : StD V}
    {s : St V}, RelD d s → RelD (mstLoopD fuel l d) (mstLoop fuel l s)
  | [], _, _, h => h
  | e :: rest, _, _, h => mstLoopD_agree rest (mstStepD_agree h)

lemma clusLoopD_agree {fuel : Nat} {nbU : Int} :
    ∀ (l : List (EdgeT V)) {d : StD V} {s : St V},
      RelD d s → RelD (clusLoopD fuel nbU l d) (clusLoop fuel nbU l s) := by
  intro l
  induction l with
  | nil => intro d s h; exact h
  | cons e rest ih =>
    intro d s h
    have hup : s.up = d.up := h.2.2.2.2.2.1
    by_cases hb : (s.up : Int) > nbU
    · rw [clusLoop_break hb, clusLoopD_break (by rw [← hup]; exact hb)]
      exact h
    · rw [clusLoop_cons hb, clusLoopD_cons (by rw [← hup]; exact hb)]
      exact ih (clusStepD_agree h)

lemma make_setD_agree {v : V} {d : StD V} {s : St V} (h : RelD d s) :
    RelD (make_setD v d) (make_set v s) := by
  obtain ⟨hp, hr, hk, hm, ht, hu, ho⟩ := h
  unfold make_set make_setD
  exact ⟨by rw [hp, lookV_cons], by rw [hr, lookN_cons], by rw [hk],
    by rw [hm, lookS_cons], ht, hu, ho⟩

lemma emptyStD_agree : RelD (emptyStD V) (emptySt V) :=
  ⟨lookV_nil.symm, lookN_nil.symm, rfl, lookS_nil.symm, rfl, rfl, rfl⟩

lemma foldl_make_setD_agree : ∀ (l : List V) {d : StD V} {s : St V},
    RelD d s →
      RelD (l.foldl (fun t v => make_setD v t) d)
        (l.foldl (fun t v => make_set v t) s)
  | [], _, _, h => h
  | v :: t, _, _, h => foldl_make_setD_agree t (make_setD_agree h)

lemma initStD_agree (edges : List (EdgeT V)) :
    RelD (initStD edges) (initSt edges) :=
  foldl_make_setD_agree (verticesList edges).dedup emptyStD_agree

lemma mstRunD_agree (edges : List (EdgeT V)) :
    RelD (mstRunD edges) (mstRun edges) :=
  mstLoopD_agree (sortEdges edges) (initStD_agree edges)

lemma clusRunD_agree (edges : List (EdgeT V)) (k : Int) :
    RelD (clusRunD edges k) (clusRun edges k) :=
  clusLoopD_agree (sortEdges edges) (initStD_agree edges)

/-! ## The example graph of `main.py` -/

def exampleGraph : List (EdgeT Char) :=
  [(1, 'A', 'S'), (5, 'A', 'B'), (6, 'A', 'C'), (3, 'S', 'C'),
    (2, 'C', 'D'), (3, 'B', 'D'), (2, 'E', 'B'), (4, 'E', 'D')]

lemma exampleSorted : sortEdges exampleGraph =
    [(1, 'A', 'S'), (2, 'C', 'D'), (2, 'E', 'B'), (3, 'B', 'D'),
      (3, 'S', 'C'), (4, 'E', 'D'), (5, 'A', 'B'), (6, 'A', 'C')] := by
  decide

lemma exampleInitD : initStD exampleGraph =
    (StD.mk [('D', 'D'), ('E', 'E'), ('B', 'B'), ('C', 'C'), ('S', 'S'), ('A', 'A')] [('D', 0), ('E', 0), ('B', 0), ('C', 0), ('S', 0), ('A', 0)] {'D', 'E', 'B', 'C', 'S', 'A'} [('D', {'D'}), ('E', {'E'}), ('B', {'B'}), ('C', {'C'}), ('S', {'S'}), ('A', {'A'})] ∅ 1 0) := by
  decide

lemma exampleMstD : mstRunD exampleGraph =
    (StD.mk [('C', 'D'), ('A', 'D'), ('B', 'D'), ('A', 'D'), ('S', 'D'), ('E', 'D'), ('B', 'D'), ('S', 'D'), ('C', 'D'), ('C', 'D'), ('B', 'D'), ('E', 'B'), ('C', 'D'), ('A', 'S'), ('D', 'D'), ('E', 'E'), ('B', 'B'), ('C', 'C'), ('S', 'S'), ('A', 'A')] [('D', 2), ('B', 1), ('D', 1), ('S', 1), ('D', 0), ('E', 0), ('B', 0), ('C', 0), ('S', 0), ('A', 0)] {'D', 'E', 'B', 'C', 'S', 'A'} [('D', {'D'}), ('E', {'E'}), ('B', {'B'}), ('C', {'C'}), ('S', {'S'}), ('A', {'A'})] {(3, 'S', 'C'), (3, 'B', 'D'), (2, 'E', 'B'), (2, 'C', 'D'), (1, 'A', 'S')} 1 5) := by
  have h1 : mstStepD ((verticesOf exampleGraph).card + 1) ((1 : Int), 'A', 'S')
      (StD.mk [('D', 'D'), ('E', 'E'), ('B', 'B'), ('C', 'C'), ('S', 'S'), ('A', 'A')] [('D', 0), ('E', 0), ('B', 0), ('C', 0), ('S', 0), ('A', 0)] {'D', 'E', 'B', 'C', 'S', 'A'} [('D', {'D'}), ('E', {'E'}), ('B', {'B'}), ('C', {'C'}), ('S', {'S'}), ('A', {'A'})] ∅ 1 0) =
      (StD.mk [('A', 'S'), ('D', 'D'), ('E', 'E'), ('B', 'B'), ('C', 'C'), ('S', 'S'), ('A', 'A')] [('S', 1), ('D', 0), ('E', 0), ('B', 0), ('C', 0), ('S', 0), ('A', 0)] {'D', 'E', 'B', 'C', 'S', 'A'} [('D', {'D'}), ('E', {'E'}), ('B', {'B'}), ('C', {'C'}), ('S', {'S'}), ('A', {'A'})] {(1, 'A', 'S')} 1 1) := by
    decide
  have h2 : mstStepD ((verticesOf exampleGraph).card + 1) ((2 : Int), 'C', 'D')
      (StD.mk [('A', 'S'), ('D', 'D'), ('E', 'E'), ('B', 'B'), ('C', 'C'), ('S', 'S'), ('A', 'A')] [('S', 1), ('D', 0), ('E', 0), ('B', 0), ('C', 0), ('S', 0), ('A', 0)] {'D', 'E', 'B', 'C', 'S', 'A'} [('D', {'D'}), ('E', {'E'}), ('B', {'B'}), ('C', {'C'}), ('S', {'S'}), ('A', {'A'})] {(1, 'A', 'S')} 1 1) =
      (StD.mk [('C', 'D'), ('A', 'S'), ('D', 'D'), ('E', 'E'), ('B', 'B'), ('C', 'C'), ('S', 'S'), ('A', 'A')] [('D', 1), ('S', 1), ('D', 0), ('E', 0), ('B', 0), ('C', 0), ('S', 0), ('A', 0)] {'D', 'E', 'B', 'C', 'S', 'A'} [('D', {'D'}), ('E', {'E'}), ('B', {'B'}), ('C', {'C'}), ('S', {'S'}), ('A', {'A'})] {(2, 'C', 'D'), (1, 'A', 'S')} 1 2) := by
    decide
  have h3 : mstStepD ((verticesOf exampleGraph).card + 1) ((2 : Int), 'E', 'B')
      (StD.mk [('C', 'D'), ('A', 'S'), ('D', 'D'), ('E', 'E'), ('B', 'B'), ('C', 'C'), ('S', 'S'), ('A', 'A')] [('D', 1), ('S', 1), ('D', 0), ('E', 0), ('B', 0), ('C', 0), ('S', 0), ('A', 0)] {'D', 'E', 'B', 'C', 'S', 'A'} [('D', {'D'}), ('E', {'E'}), ('B', {'B'}), ('C', {'C'}), ('S', {'S'}), ('A', {'A'})] {(2, 'C', 'D'), (1, 'A', 'S')} 1 2) =
      (StD.mk [('E', 'B'), ('C', 'D'), ('A', 'S'), ('D', 'D'), ('E', 'E'), ('B', 'B'), ('C', 'C'), ('S', 'S'), ('A', 'A')] [('B', 1), ('D', 1), ('S', 1), ('D', 0), ('E', 0), ('B', 0), ('C', 0), ('S', 0), ('A', 0)] {'D', 'E', 'B', 'C', 'S', 'A'} [('D', {'D'}), ('E', {'E'}), ('B', {'B'}), ('C', {'C'}), ('S', {'S'}), ('A', {'A'})] {(2, 'E', 'B'), (2, 'C', 'D'), (1, 'A', 'S')} 1 3) := by
    decide
  have h4 : mstStepD ((verticesOf exampleGraph).card + 1) ((3 : Int), 'B', 'D')
      (StD.mk [('E', 'B'), ('C', 'D'), ('A', 'S'), ('D', 'D'), ('E', 'E'), ('B', 'B'), ('C', 'C'), ('S', 'S'), ('A', 'A')] [('B', 1), ('D', 1), ('S', 1), ('D', 0), ('E', 0), ('B', 0), ('C', 0), ('S', 0), ('A', 0)] {'D', 'E', 'B', 'C', 'S', 'A'} [('D', {'D'}), ('E', {'E'}), ('B', {'B'}), ('C', {'C'}), ('S', {'S'}), ('A', {'A'})] {(2, 'E', 'B'), (2, 'C', 'D'), (1, 'A', 'S')} 1 3) =
      (StD.mk [('B', 'D'), ('E', 'B'), ('C', 'D'), ('A', 'S'), ('D', 'D'), ('E', 'E'), ('B', 'B'), ('C', 'C'), ('S', 'S'), ('A', 'A')] [('D', 2), ('B', 1), ('D', 1), ('S', 1), ('D', 0), ('E', 0), ('B', 0), ('C', 0), ('S', 0), ('A', 0)] {'D', 'E', 'B', 'C', 'S', 'A'} [('D', {'D'}), ('E', {'E'}), ('B', {'B'}), ('C', {'C'}), ('S', {'S'}), ('A', {'A'})] {(3, 'B', 'D'), (2, 'E', 'B'), (2, 'C', 'D'), (1, 'A', 'S')} 1 4) := by
    decide
  have h5 : mstStepD ((verticesOf exampleGraph).card + 1) ((3 : Int), 'S', 'C')
      (StD.mk [('B', 'D'), ('E', 'B'), ('C', 'D'), ('A', 'S'), ('D', 'D'), ('E', 'E'), ('B', 'B'), ('C', 'C'), ('S', 'S'), ('A', 'A')] [('D', 2), ('B', 1), ('D', 1), ('S', 1), ('D', 0), ('E', 0), ('B', 0), ('C', 0), ('S', 0), ('A', 0)] {'D', 'E', 'B', 'C', 'S', 'A'} [('D', {'D'}), ('E', {'E'}), ('B', {'B'}), ('C', {'C'}), ('S', {'S'}), ('A', {'A'})] {(3, 'B', 'D'), (2, 'E', 'B'), (2, 'C', 'D'), (1, 'A', 'S')} 1 4) =
      (StD.mk [('S', 'D'), ('C', 'D'), ('C', 'D'), ('B', 'D'), ('E', 'B'), ('C', 'D'), ('A', 'S'), ('D', 'D'), ('E', 'E'), ('B', 'B'), ('C', 'C'), ('S', 'S'), ('A', 'A')] [('D', 2), ('B', 1), ('D', 1), ('S', 1), ('D', 0), ('E', 0), ('B', 0), ('C', 0), ('S', 0), ('A', 0)] {'D', 'E', 'B', 'C', 'S', 'A'} [('D', {'D'}), ('E', {'E'}), ('B', {'B'}), ('C', {'C'}), ('S', {'S'}), ('A', {'A'})] {(3, 'S', 'C'), (3, 'B', 'D'), (2, 'E', 'B'), (2, 'C', 'D'), (1, 'A', 'S')} 1 5) := by
    decide
  have h6 : mstStepD ((verticesOf exampleGraph).card + 1) ((4 : Int), 'E', 'D')
      (StD.mk [('S', 'D'), ('C', 'D'), ('C', 'D'), ('B', 'D'), ('E', 'B'), ('C', 'D'), ('A', 'S'), ('D', 'D'), ('E', 'E'), ('B', 'B'), ('C', 'C'), ('S', 'S'), ('A', 'A')] [('D', 2), ('B', 1), ('D', 1), ('S', 1), ('D', 0), ('E', 0), ('B', 0), ('C', 0), ('S', 0), ('A', 0)] {'D', 'E', 'B', 'C', 'S', 'A'} [('D', {'D'}), ('E', {'E'}), ('B', {'B'}), ('C', {'C'}), ('S', {'S'}), ('A', {'A'})] {(3, 'S', 'C'), (3, 'B', 'D'), (2, 'E', 'B'), (2, 'C', 'D'), (1, 'A', 'S')} 1 5) =
      (StD.mk [('E', 'D'), ('B', 'D'), ('S', 'D'), ('C', 'D'), ('C', 'D'), ('B', 'D'), ('E', 'B'), ('C', 'D'), ('A', 'S'), ('D', 'D'), ('E', 'E'), ('B', 'B'), ('C', 'C'), ('S', 'S'), ('A', 'A')] [('D', 2), ('B', 1), ('D', 1), ('S', 1), ('D', 0), ('E', 0), ('B', 0), ('C', 0), ('S', 0), ('A', 0)] {'D', 'E', 'B', 'C', 'S', 'A'} [('D', {'D'}), ('E', {'E'}), ('B', {'B'}), ('C', {'C'}), ('S', {'S'}), ('A', {'A'})] {(3, 'S', 'C'), (3, 'B', 'D'), (2, 'E', 'B'), (2, 'C', 'D'), (1, 'A', 'S')} 1 5) := by
    decide
  have h7 : mstStepD ((verticesOf exampleGraph).card + 1) ((5 : Int), 'A', 'B')
      (StD.mk [('E', 'D'), ('B', 'D'), ('S', 'D'), ('C', 'D'), ('C', 'D'), ('B', 'D'), ('E', 'B'), ('C', 'D'), ('A', 'S'), ('D', 'D'), ('E', 'E'), ('B', 'B'), ('C', 'C'), ('S', 'S'), ('A', 'A')] [('D', 2), ('B', 1), ('D', 1), ('S', 1), ('D', 0), ('E', 0), ('B', 0), ('C', 0), ('S', 0), ('A', 0)] {'D', 'E', 'B', 'C', 'S', 'A'} [('D', {'D'}), ('E', {'E'}), ('B', {'B'}), ('C', {'C'}), ('S', {'S'}), ('A', {'A'})] {(3, 'S', 'C'), (3, 'B', 'D'), (2, 'E', 'B'), (2, 'C', 'D'), (1, 'A', 'S')} 1 5) =
      (StD.mk [('B', 'D'), ('A', 'D'), ('S', 'D'), ('E', 'D'), ('B', 'D'), ('S', 'D'), ('C', 'D'), ('C', 'D'), ('B', 'D'), ('E', 'B'), ('C', 'D'), ('A', 'S'), ('D', 'D'), ('E', 'E'), ('B', 'B'), ('C', 'C'), ('S', 'S'), ('A', 'A')] [('D', 2), ('B', 1), ('D', 1), ('S', 1), ('D', 0), ('E', 0), ('B', 0), ('C', 0), ('S', 0), ('A', 0)] {'D', 'E', 'B', 'C', 'S', 'A'} [('D', {'D'}), ('E', {'E'}), ('B', {'B'}), ('C', {'C'}), ('S', {'S'}), ('A', {'A'})] {(3, 'S', 'C'), (3, 'B', 'D'), (2, 'E', 'B'), (2, 'C', 'D'), (1, 'A', 'S')} 1 5) := by
    decide
  have h8 : mstStepD ((verticesOf exampleGraph).card + 1) ((6 : Int), 'A', 'C')
      (StD.mk [('B', 'D'), ('A', 'D'), ('S', 'D'), ('E', 'D'), ('B', 'D'), ('S', 'D'), ('C', 'D'), ('C', 'D'), ('B', 'D'), ('E', 'B'), ('C', 'D'), ('A', 'S'), ('D', 'D'), ('E', 'E'), ('B', 'B'), ('C', 'C'), ('S', 'S'), ('A', 'A')] [('D', 2), ('B', 1), ('D', 1), ('S', 1), ('D', 0), ('E', 0), ('B', 0), ('C', 0), ('S', 0), ('A', 0)] {'D', 'E', 'B', 'C', 'S', 'A'} [('D', {'D'}), ('E', {'E'}), ('B', {'B'}), ('C', {'C'}), ('S', {'S'}), ('A', {'A'})] {(3, 'S', 'C'), (3, 'B', 'D'), (2, 'E', 'B'), (2, 'C', 'D'), (1, 'A', 'S')} 1 5) =
      (StD.mk [('C', 'D'), ('A', 'D'), ('B', 'D'), ('A', 'D'), ('S', 'D'), ('E', 'D'), ('B', 'D'), ('S', 'D'), ('C', 'D'), ('C', 'D'), ('B', 'D'), ('E', 'B'), ('C', 'D'), ('A', 'S'), ('D', 'D'), ('E', 'E'), ('B', 'B'), ('C', 'C'), ('S', 'S'), ('A', 'A')] [('D', 2), ('B', 1), ('D', 1), ('S', 1), ('D', 0), ('E', 0), ('B', 0), ('C', 0), ('S', 0), ('A', 0)] {'D', 'E', 'B', 'C', 'S', 'A'} [('D', {'D'}), ('E', {'E'}), ('B', {'B'}), ('C', {'C'}), ('S', {'S'}), ('A', {'A'})] {(3, 'S', 'C'), (3, 'B', 'D'), (2, 'E', 'B'), (2, 'C', 'D'), (1, 'A', 'S')} 1 5) := by
    decide
  unfold mstRunD
  rw [exampleSorted, exampleInitD, mstLoopD_cons, h1, mstLoopD_cons, h2,
    mstLoopD_cons, h3, mstLoopD_cons, h4, mstLoopD_cons, h5,
    mstLoopD_cons, h6, mstLoopD_cons, h7, mstLoopD_cons, h8,
    mstLoopD_nil]

lemma exampleClusD : clusRunD exampleGraph 3 =
    (StD.mk [('E', 'B'), ('C', 'D'), ('A', 'S'), ('D', 'D'), ('E', 'E'), ('B', 'B'), ('C', 'C'), ('S', 'S'), ('A', 'A')] [('B', 1), ('D', 1), ('S', 1), ('D', 0), ('E', 0), ('B', 0), ('C', 0), ('S', 0), ('A', 0)] {'D', 'B', 'S'} [('E', ∅), ('B', {'B', 'E'}), ('C', ∅), ('D', {'D', 'C'}), ('A', ∅), ('S', {'S', 'A'}), ('D', {'D'}), ('E', {'E'}), ('B', {'B'}), ('C', {'C'}), ('S', {'S'}), ('A', {'A'})] {(2, 'E', 'B'), (2, 'C', 'D'), (1, 'A', 'S')} 4 3) := by
  have hb1 : ¬ (((StD.mk [('D', 'D'), ('E', 'E'), ('B', 'B'), ('C', 'C'), ('S', 'S'), ('A', 'A')] [('D', 0), ('E', 0), ('B', 0), ('C', 0), ('S', 0), ('A', 0)] {'D', 'E', 'B', 'C', 'S', 'A'} [('D', {'D'}), ('E', {'E'}), ('B', {'B'}), ('C', {'C'}), ('S', {'S'}), ('A', {'A'})] ∅ 1 0) : StD Char).up : Int) > (((verticesOf exampleGraph).card : Int) - 3) := by
    decide
  have hc1 : clusStepD ((verticesOf exampleGraph).card + 1) ((1 : Int), 'A', 'S')
      (StD.mk [('D', 'D'), ('E', 'E'), ('B', 'B'), ('C', 'C'), ('S', 'S'), ('A', 'A')] [('D', 0), ('E', 0), ('B', 0), ('C', 0), ('S', 0), ('A', 0)] {'D', 'E', 'B', 'C', 'S', 'A'} [('D', {'D'}), ('E', {'E'}), ('B', {'B'}), ('C', {'C'}), ('S', {'S'}), ('A', {'A'})] ∅ 1 0) =
      (StD.mk [('A', 'S'), ('D', 'D'), ('E', 'E'), ('B', 'B'), ('C', 'C'), ('S', 'S'), ('A', 'A')] [('S', 1), ('D', 0), ('E', 0), ('B', 0), ('C', 0), ('S', 0), ('A', 0)] {'D', 'E', 'B', 'C', 'S'} [('A', ∅), ('S', {'S', 'A'}), ('D', {'D'}), ('E', {'E'}), ('B', {'B'}), ('C', {'C'}), ('S', {'S'}), ('A', {'A'})] {(1, 'A', 'S')} 2 1) := by
    decide
  have hb2 : ¬ (((StD.mk [('A', 'S'), ('D', 'D'), ('E', 'E'), ('B', 'B'), ('C', 'C'), ('S', 'S'), ('A', 'A')] [('S', 1), ('D', 0), ('E', 0), ('B', 0), ('C', 0), ('S', 0), ('A', 0)] {'D', 'E', 'B', 'C', 'S'} [('A', ∅), ('S', {'S', 'A'}), ('D', {'D'}), ('E', {'E'}), ('B', {'B'}), ('C', {'C'}), ('S', {'S'}), ('A', {'A'})] {(1, 'A', 'S')} 2 1) : StD Char).up : Int) > (((verticesOf exampleGraph).card : Int) - 3) := by
    decide
  have hc2 : clusStepD ((verticesOf exampleGraph).card + 1) ((2 : Int), 'C', 'D')
      (StD.mk [('A', 'S'), ('D', 'D'), ('E', 'E'), ('B', 'B'), ('C', 'C'), ('S', 'S'), ('A', 'A')] [('S', 1), ('D', 0), ('E', 0), ('B', 0), ('C', 0), ('S', 0), ('A', 0)] {'D', 'E', 'B', 'C', 'S'} [('A', ∅), ('S', {'S', 'A'}), ('D', {'D'}), ('E', {'E'}), ('B', {'B'}), ('C', {'C'}), ('S', {'S'}), ('A', {'A'})] {(1, 'A', 'S')} 2 1) =
      (StD.mk [('C', 'D'), ('A', 'S'), ('D', 'D'), ('E', 'E'), ('B', 'B'), ('C', 'C'), ('S', 'S'), ('A', 'A')] [('D', 1), ('S', 1), ('D', 0), ('E', 0), ('B', 0), ('C', 0), ('S', 0), ('A', 0)] {'D', 'E', 'B', 'S'} [('C', ∅), ('D', {'D', 'C'}), ('A', ∅), ('S', {'S', 'A'}), ('D', {'D'}), ('E', {'E'}), ('B', {'B'}), ('C', {'C'}), ('S', {'S'}), ('A', {'A'})] {(2, 'C', 'D'), (1, 'A', 'S')} 3 2) := by
    decide
  have hb3 : ¬ (((StD.mk [('C', 'D'), ('A', 'S'), ('D', 'D'), ('E', 'E'), ('B', 'B'), ('C', 'C'), ('S', 'S'), ('A', 'A')] [('D', 1), ('S', 1), ('D', 0), ('E', 0), ('B', 0), ('C', 0), ('S', 0), ('A', 0)] {'D', 'E', 'B', 'S'} [('C', ∅), ('D', {'D', 'C'}), ('A', ∅), ('S', {'S', 'A'}), ('D', {'D'}), ('E', {'E'}), ('B', {'B'}), ('C', {'C'}), ('S', {'S'}), ('A', {'A'})] {(2, 'C', 'D'), (1, 'A', 'S')} 3 2) : StD Char).up : Int) > (((verticesOf exampleGraph).card : Int) - 3) := by
    decide
  have hc3 : clusStepD ((verticesOf exampleGraph).card + 1) ((2 : Int), 'E', 'B')
      (StD.mk [('C', 'D'), ('A', 'S'), ('D', 'D'), ('E', 'E'), ('B', 'B'), ('C', 'C'), ('S', 'S'), ('A', 'A')] [('D', 1), ('S', 1), ('D', 0), ('E', 0), ('B', 0), ('C', 0), ('S', 0), ('A', 0)] {'D', 'E', 'B', 'S'} [('C', ∅), ('D', {'D', 'C'}), ('A', ∅), ('S', {'S', 'A'}), ('D', {'D'}), ('E', {'E'}), ('B', {'B'}), ('C', {'C'}), ('S', {'S'}), ('A', {'A'})] {(2, 'C', 'D'), (1, 'A', 'S')} 3 2) =
      (StD.mk [('E', 'B'), ('C', 'D'), ('A', 'S'), ('D', 'D'), ('E', 'E'), ('B', 'B'), ('C', 'C'), ('S', 'S'), ('A', 'A')] [('B', 1), ('D', 1), ('S', 1), ('D', 0), ('E', 0), ('B', 0), ('C', 0), ('S', 0), ('A', 0)] {'D', 'B', 'S'} [('E', ∅), ('B', {'B', 'E'}), ('C', ∅), ('D', {'D', 'C'}), ('A', ∅), ('S', {'S', 'A'}), ('D', {'D'}), ('E', {'E'}), ('B', {'B'}), ('C', {'C'}), ('S', {'S'}), ('A', {'A'})] {(2, 'E', 'B'), (2, 'C', 'D'), (1, 'A', 'S')} 4 3) := by
    decide
  have hb4 : (((StD.mk [('E', 'B'), ('C', 'D'), ('A', 'S'), ('D', 'D'), ('E', 'E'), ('B', 'B'), ('C', 'C'), ('S', 'S'), ('A', 'A')] [('B', 1), ('D', 1), ('S', 1), ('D', 0), ('E', 0), ('B', 0), ('C', 0), ('S', 0), ('A', 0)] {'D', 'B', 'S'} [('E', ∅), ('B', {'B', 'E'}), ('C', ∅), ('D', {'D', 'C'}), ('A', ∅), ('S', {'S', 'A'}), ('D', {'D'}), ('E', {'E'}), ('B', {'B'}), ('C', {'C'}), ('S', {'S'}), ('A', {'A'})] {(2, 'E', 'B'), (2, 'C', 'D'), (1, 'A', 'S')} 4 3) : StD Char).up : Int) > (((verticesOf exampleGraph).card : Int) - 3) := by
    decide
  unfold clusRunD
  rw [exampleSorted, exampleInitD, clusLoopD_cons hb1, hc1,
    clusLoopD_cons hb2, hc2, clusLoopD_cons hb3, hc3, clusLoopD_break hb4]

/-! ## The claims -/

/-- C1: on the concrete input edge set of `main.py`,
`minimum_spanning_tree` returns exactly
`{(1,A,S), (2,C,D), (3,S,C), (3,B,D), (2,E,B)}` — an edge set of total
weight 11, with 5 edges over 6 vertices forming 1 component — and
`clustering` of those edges with `nb_clusters = 3` returns exactly 3
accepted edges and a membership mapping of exactly 3 clusters that
together cover all 6 vertices. -/
theorem claim_C1 :
    minimum_spanning_tree exampleGraph =
        {(1, 'A', 'S'), (2, 'C', 'D'), (3, 'S', 'C'), (3, 'B', 'D'),
          (2, 'E', 'B')} ∧
      weightOf (minimum_spanning_tree exampleGraph) = 11 ∧
      (minimum_spanning_tree exampleGraph).card = 5 ∧
      (evertsOf (minimum_spanning_tree exampleGraph)).card = 6 ∧
      ncOn (evertsOf (minimum_spanning_tree exampleGraph))
        (minimum_spanning_tree exampleGraph) = 1 ∧
      (clustering exampleGraph 3).1.card = 3 ∧
      (clustering exampleGraph 3).2.1.card = 3 ∧
      (clustering exampleGraph 3).2.1.biUnion
          (clustering exampleGraph 3).2.2 = verticesOf exampleGraph ∧
      (verticesOf exampleGraph).card = 6 := by
  have ht : minimum_spanning_tree exampleGraph =
      {(1, 'A', 'S'), (2, 'C', 'D'), (3, 'S', 'C'), (3, 'B', 'D'),
        (2, 'E', 'B')} := by
    have h := (mstRunD_agree exampleGraph).2.2.2.2.1
    rw [exampleMstD] at h
    unfold minimum_spanning_tree
    rw [h]
    decide
  have hck : (clusRun exampleGraph 3).ccKeys = {'D', 'B', 'S'} := by
    have h := (clusRunD_agree exampleGraph 3).2.2.1
    rw [exampleClusD] at h
    rw [h]
    try decide
  have hctree : (clusRun exampleGraph 3).tree.card = 3 := by
    have h := (clusRunD_agree exampleGraph 3).2.2.2.2.1
    rw [exampleClusD] at h
    rw [h]
    try decide
  have hm := (clusRunD_agree exampleGraph 3).2.2.2.1
  rw [exampleClusD] at hm
  refine ⟨ht, by rw [ht]; decide, by rw [ht]; decide, by rw [ht]; decide,
    by rw [ht]; decide, hctree, ?_, ?_, by decide⟩
  · show (clusRun exampleGraph 3).ccKeys.card = 3
    rw [hck]
    decide
  · show (clusRun exampleGraph 3).ccKeys.biUnion
        (clusRun exampleGraph 3).ccMem = verticesOf exampleGraph
    rw [hck, hm]
    decide

/-- C2: for every edge collection and target cluster count `k ≥ 1`, if the
input graph has at most `k` connected components (it supplies enough
non-redundant edges), the membership mapping has exactly
`min k (number of vertices)` entries; and with `k` equal to the number of
vertices, `clustering` accepts zero edges and puts every vertex in its own
singleton cluster. -/
theorem claim_C2 (edges : List (EdgeT V)) (k : Int) (hk : 1 ≤ k)
    (hck : (ncOn (verticesOf edges) edges.toFinset : Int) ≤ k) :
    ((clusRun edges k).ccKeys.card : Int) =
        min k ((verticesOf edges).card : Int) ∧
      (k = ((verticesOf edges).card : Int) →
        (clusRun edges k).tree = ∅ ∧
          (clusRun edges k).ccKeys = verticesOf edges ∧
          ∀ v ∈ verticesOf edges, (clusRun edges k).ccMem v = {v}) := by
  refine ⟨clusRun_keys_card edges k hk hck, ?_⟩
  intro hkn
  have h0 : clusRun edges k = initSt edges :=
    clusRun_eq_init edges k (by omega)
  rw [h0, initSt_tree, initSt_ccKeys]
  exact ⟨rfl, rfl, fun v hv => by rw [initSt_ccMem, if_pos hv]⟩

theorem claim_C2_witness :
    ((1 : Int) ≤ 2 ∧
        (ncOn (verticesOf [((1 : Int), 'a', 'b')])
            [((1 : Int), 'a', 'b')].toFinset : Int) ≤ 2) ∧
      ((clusRun [((1 : Int), 'a', 'b')] 2).ccKeys.card : Int) =
          min 2 ((verticesOf [((1 : Int), 'a', 'b')]).card : Int) ∧
        ((2 : Int) = ((verticesOf [((1 : Int), 'a', 'b')]).card : Int) →
          (clusRun [((1 : Int), 'a', 'b')] 2).tree = ∅ ∧
            (clusRun [((1 : Int), 'a', 'b')] 2).ccKeys =
              verticesOf [((1 : Int), 'a', 'b')] ∧
            ∀ v ∈ verticesOf [((1 : Int), 'a', 'b')],
              (clusRun [((1 : Int), 'a', 'b')] 2).ccMem v = {v}) :=
  ⟨⟨by decide, by decide⟩,
    claim_C2 [((1 : Int), 'a', 'b')] 2 (by decide) (by decide)⟩

/-- C3: for every input edge collection, the result of
`minimum_spanning_tree` is acyclic — its number of edges equals the number
of vertices it touches minus its number of connected components — and it
is a spanning forest of the input of minimal total weight. -/
theorem claim_C3 (edges : List (EdgeT V)) :
    IsForest (minimum_spanning_tree edges) ∧
      (minimum_spanning_tree edges).card +
          ncOn (evertsOf (minimum_spanning_tree edges))
            (minimum_spanning_tree edges) =
        (evertsOf (minimum_spanning_tree edges)).card ∧
      IsSpanningForest edges.toFinset (minimum_spanning_tree edges) ∧
      ∀ F, IsSpanningForest edges.toFinset F →
        weightOf (minimum_spanning_tree edges) ≤ weightOf F := by
  have hsf := mst_isSF edges
  exact ⟨hsf.2.1,
    isForest_card (minimum_spanning_tree edges) hsf.2.1 (subset_refl _),
    hsf, mst_minimal edges⟩

theorem claim_C3_witness :
    IsSpanningForest ([((1 : Int), 'a', 'b')].toFinset)
        {((1 : Int), 'a', 'b')} ∧
      weightOf (minimum_spanning_tree [((1 : Int), 'a', 'b')]) ≤
        weightOf {((1 : Int), 'a', 'b')} :=
  ⟨by decide,
    (claim_C3 [((1 : Int), 'a', 'b')]).2.2.2 {((1 : Int), 'a', 'b')}
      (by decide)⟩

/-- C4 (corrected): the accepted edge set of either loop is a set (a
`Finset`, no duplicates), is acyclic, and has exactly as many edges as the
number of union operations actually performed — not one fewer, as the
specification claims.  The `union_performed` counter exceeds the number of
performed unions by one (it starts at 1), which is the likely origin of
the off-by-one in the specification. -/
theorem claim_C4 (edges : List (EdgeT V)) (k : Int) :
    ((mstRun edges).tree.card = (mstRun edges).ops ∧
        IsForest (mstRun edges).tree) ∧
      (clusRun edges k).tree.card = (clusRun edges k).ops ∧
        IsForest (clusRun edges k).tree ∧
        (clusRun edges k).up = (clusRun edges k).ops + 1 := by
  obtain ⟨hc, _⟩ := mstRun_spec edges
  obtain ⟨hc2, hcc2, _, _⟩ := clusRun_spec edges k
  exact ⟨⟨hc.opsEq.symm, hc.forest⟩, hc2.opsEq.symm, hc2.forest,
    hcc2.upOps⟩

set_option maxHeartbeats 1000000 in
/-- C4, counterexample to the literal claim: on the one-edge graph
`[(1, a, b)]` with `nb_clusters = 1`, the clustering loop performs exactly
one union and accepts exactly one edge, so the accepted edge count equals
the number of performed unions and is not one fewer. -/
theorem claim_C4_counterexample :
    (clusRun [((1 : Int), 'a', 'b')] 1).tree.card = 1 ∧
      (clusRun [((1 : Int), 'a', 'b')] 1).ops = 1 ∧
      ¬ (clusRun [((1 : Int), 'a', 'b')] 1).tree.card =
          (clusRun [((1 : Int), 'a', 'b')] 1).ops - 1 := by
  refine ⟨by decide, by decide, ?_⟩
  intro h
  rw [show (clusRun [((1 : Int), 'a', 'b')] 1).tree.card = 1 from by decide,
    show (clusRun [((1 : Int), 'a', 'b')] 1).ops = 1 from by decide] at h
  exact absurd h (by decide)

/-- C5: `clustering` fails with the descriptive `ValueError` exactly when
some supplied edge is not a 3-element structure, and on well-shaped input
it returns the clustering result; in this model the error is the
immediately returned `Except.error`, produced before any state is
created. -/
theorem claim_C5 {U : Type} (parse : List U → EdgeT V)
    (raw : List (List U)) (k : Int) :
    ((∃ e ∈ raw, e.length ≠ 3) ↔
        clusteringChecked parse raw k =
          Except.error ("Given graph must be an iterable of 3-tuple, " ++
            "defining an edge (weight, source node, target node).")) ∧
      ((∀ e ∈ raw, e.length = 3) →
        clusteringChecked parse raw k =
          Except.ok (clustering (raw.map parse) k)) := by
  unfold clusteringChecked
  by_cases h : raw.all (fun e => e.length == 3)
  · rw [if_pos h]
    refine ⟨⟨?_, ?_⟩, fun _ => rfl⟩
    · rintro ⟨e, he, hne⟩
      exact absurd (by simpa using List.all_eq_true.mp h e he) hne
    · intro hcontra
      exact Except.noConfusion hcontra
  · rw [if_neg h]
    refine ⟨⟨fun _ => rfl, fun _ => ?_⟩, fun hall => ?_⟩
    · have h2 : ¬ ∀ e ∈ raw, e.length = 3 := by
        intro hall
        apply h
        rw [List.all_eq_true]
        intro e he
        simpa using hall e he
      push_neg at h2
      exact h2
    · exfalso
      apply h
      rw [List.all_eq_true]
      intro e he
      simpa using hall e he

theorem claim_C5_witness :
    (∀ e ∈ [[1, 2, 3]], List.length e = 3) ∧
      clusteringChecked (fun _ => ((0 : Int), 0, 0)) [[1, 2, 3]] 2 =
        Except.ok (clustering ([[1, 2, 3]].map
          (fun _ => ((0 : Int), (0 : Nat), (0 : Nat)))) 2) :=
  ⟨by decide,
    (claim_C5 (fun _ => ((0 : Int), (0 : Nat), (0 : Nat))) [[1, 2, 3]]
      2).2 (by decide)⟩

/-- C6: the `cc` invariant holds after initialisation and is preserved by
every loop body execution, and the final membership mapping partitions the
vertex set. -/
theorem claim_C6 (edges : List (EdgeT V)) (k : Int) :
    CCInv (verticesOf edges) (initSt edges) ∧
      (∀ (fuel : Nat) (e : EdgeT V) (s : St V),
        (verticesOf edges).card < fuel → e ∈ edges.toFinset →
        CoreInv edges.toFinset (verticesOf edges) s →
        CCInv (verticesOf edges) s →
        CCInv (verticesOf edges) (clusStep fuel e s)) ∧
      (clusRun edges k).ccKeys =
        (verticesOf edges).filter
          (fun v => (clusRun edges k).parent v = v) ∧
      (clusRun edges k).ccKeys.biUnion (clusRun edges k).ccMem =
        verticesOf edges ∧
      (∀ v ∈ verticesOf edges, ∃! r, r ∈ (clusRun edges k).ccKeys ∧
        v ∈ (clusRun edges k).ccMem r) := by
  obtain ⟨hc, hcc, _, _⟩ := clusRun_spec edges k
  have hkey : ∀ v ∈ verticesOf edges,
      uroot (verticesOf edges) (clusRun edges k).parent v ∈
        (clusRun edges k).ccKeys := by
    intro v hv
    rw [hcc.keys]
    exact Finset.mem_filter.mpr ⟨uroot_mem hc.uf hv, uroot_isRoot hc.uf v⟩
  refine ⟨initSt_cc edges, ?_, hcc.keys, ?_, ?_⟩
  · intro fuel e s hfuel he hcs hccs
    obtain ⟨_, ha, hb⟩ := sortEdges_mem_facts edges e
      (mem_sortEdges.mpr (List.mem_toFinset.mp he))
    exact (clusStep_spec hfuel hcs he ha hb).2.1 hccs
  · apply Finset.Subset.antisymm
    · intro v hv
      obtain ⟨r, hr, hvr⟩ := Finset.mem_biUnion.mp hv
      rw [hcc.memEq r hr] at hvr
      exact (Finset.mem_filter.mp hvr).1
    · intro v hv
      apply Finset.mem_biUnion.mpr
      refine ⟨uroot (verticesOf edges) (clusRun edges k).parent v,
        hkey v hv, ?_⟩
      rw [hcc.memEq _ (hkey v hv)]
      exact Finset.mem_filter.mpr ⟨hv, rfl⟩
  · intro v hv
    refine ⟨uroot (verticesOf edges) (clusRun edges k).parent v,
      ⟨hkey v hv, ?_⟩, ?_⟩
    · rw [hcc.memEq _ (hkey v hv)]
      exact Finset.mem_filter.mpr ⟨hv, rfl⟩
    · rintro r' ⟨hr', hvr'⟩
      rw [hcc.memEq r' hr'] at hvr'
      exact ((Finset.mem_filter.mp hvr').2).symm

theorem claim_C6_witness :
    ((verticesOf [((1 : Int), 'a', 'b')]).card < 3 ∧
        ((1 : Int), 'a', 'b') ∈ [((1 : Int), 'a', 'b')].toFinset ∧
        CCInv (verticesOf [((1 : Int), 'a', 'b')])
          (initSt [((1 : Int), 'a', 'b')])) ∧
      CCInv (verticesOf [((1 : Int), 'a', 'b')])
        (clusStep 3 ((1 : Int), 'a', 'b')
          (initSt [((1 : Int), 'a', 'b')])) :=
  ⟨⟨by decide, by decide, (claim_C6 [((1 : Int), 'a', 'b')] 0).1⟩,
    (claim_C6 [((1 : Int), 'a', 'b')] 0).2.1 3 ((1 : Int), 'a', 'b')
      (initSt [((1 : Int), 'a', 'b')]) (by decide) (by decide)
      (initSt_core [((1 : Int), 'a', 'b')])
      (claim_C6 [((1 : Int), 'a', 'b')] 0).1⟩

/-- C7: immediately after `_make_set(v)`, `_find(v)` returns `v`; and on a
well-formed union-find state, `_union_returning_choosen(a, b)` returns no
pair exactly when `a` and `b` already share a root, while whenever it
returns a pair `(choosen, unchoosen)`, both `a` and `b` afterwards find
the same root, namely `choosen`. -/
theorem claim_C7 {verts : Finset V} {p : V → V} {rk : V → Nat}
    (hinv : UFInv verts p rk) {a b : V} (ha : a ∈ verts)
    (hb : b ∈ verts) :
    (∀ (fuel : Nat) (v : V) (s : St V),
        (findC fuel (make_set v s).parent v).1 = v) ∧
      ((union_returning_choosen a b (verts.card + 1) p rk).1 = none ↔
        uroot verts p a = uroot verts p b) ∧
      (∀ cr ur,
        (union_returning_choosen a b (verts.card + 1) p rk).1 =
            some (cr, ur) →
          uroot verts
              (union_returning_choosen a b (verts.card + 1) p rk).2.1 a =
            cr ∧
          uroot verts
              (union_returning_choosen a b (verts.card + 1) p rk).2.1 b =
            cr) := by
  have hfuel : verts.card < verts.card + 1 := Nat.lt_succ_self _
  have hspec := unionRC_spec hinv ha hb hfuel
  refine ⟨?_, ?_⟩
  · intro fuel v s
    cases fuel with
    | zero => rfl
    | succ n =>
      have hpv : (make_set v s).parent v = v := by
        show Function.update s.parent v v v = v
        exact Function.update_same v v s.parent
      simp [findC, hpv]
  · by_cases heq : uroot verts p a = uroot verts p b
    · rw [if_pos heq] at hspec
      obtain ⟨_, hnone, _, _, _⟩ := hspec
      refine ⟨⟨fun _ => heq, fun _ => hnone⟩, ?_⟩
      intro cr ur hsome
      rw [hnone] at hsome
      exact Option.noConfusion hsome
    · rw [if_neg heq] at hspec
      obtain ⟨_, cr0, ur0, hsome0, hne0, hch0, hmap0, _⟩ := hspec
      refine ⟨⟨?_, fun h => absurd h heq⟩, ?_⟩
      · intro hn
        rw [hsome0] at hn
        exact Option.noConfusion hn
      · intro cr ur hsome
        rw [hsome0] at hsome
        simp only [Option.some.injEq, Prod.mk.injEq] at hsome
        obtain ⟨rfl, rfl⟩ := hsome
        rcases hch0 with ⟨hca, hur⟩ | ⟨hcb, hur⟩
        · have hne2 : uroot verts p a ≠ ur0 := by
            rw [hur]
            exact heq
          constructor
          · rw [hmap0 a, if_neg hne2]
            exact hca.symm
          · rw [hmap0 b, if_pos hur.symm]
        · have hne2 : uroot verts p b ≠ ur0 := by
            rw [hur]
            exact fun h => heq h.symm
          constructor
          · rw [hmap0 a, if_pos hur.symm]
          · rw [hmap0 b, if_neg hne2]
            exact hcb.symm

theorem claim_C7_witness :
    (UFInv ({'a', 'b'} : Finset Char) (fun v => v) (fun _ => 0) ∧
        'a' ∈ ({'a', 'b'} : Finset Char) ∧
        'b' ∈ ({'a', 'b'} : Finset Char)) ∧
      ((union_returning_choosen 'a' 'b'
            (({'a', 'b'} : Finset Char).card + 1) (fun v => v)
            (fun _ => 0)).1 = none ↔
        uroot ({'a', 'b'} : Finset Char) (fun v => v) 'a' =
          uroot ({'a', 'b'} : Finset Char) (fun v => v) 'b') :=
  ⟨⟨ufInv_id _ _, by decide, by decide⟩,
    (claim_C7 (ufInv_id {'a', 'b'} (fun _ => 0)) (by decide)
      (by decide)).2.1⟩

lemma ncOn_le_one_connected (edges : List (EdgeT V))
    (hconn : ∀ a ∈ verticesOf edges, ∀ b ∈ verticesOf edges,
      Reach edges.toFinset a b) :
    ncOn (verticesOf edges) edges.toFinset ≤ 1 := by
  by_cases hW : verticesOf edges = ∅
  · unfold ncOn classesOn
    rw [hW]
    simp
  · obtain ⟨v0, hv0⟩ := Finset.nonempty_of_ne_empty hW
    have hsub : classesOn (verticesOf edges) edges.toFinset ⊆
        {classOn (verticesOf edges) edges.toFinset v0} := by
      intro S hS
      obtain ⟨v, hv, rfl⟩ := Finset.mem_image.mp hS
      rw [Finset.mem_singleton]
      exact (classOn_eq_of_reach (hconn v0 hv0 v hv)).symm
    calc ncOn (verticesOf edges) edges.toFinset
        ≤ ({classOn (verticesOf edges) edges.toFinset v0} :
            Finset (Finset V)).card := Finset.card_le_card hsub
      _ = 1 := Finset.card_singleton _

/-- On a nonempty connected graph, `clustering(edges, 1)` accepts exactly
the edges of `minimum_spanning_tree(edges)` and ends with one single
cluster holding every vertex. -/
lemma clusRun_one_connected (edges : List (EdgeT V))
    (hne : verticesOf edges ≠ ∅)
    (hconn : ∀ a ∈ verticesOf edges, ∀ b ∈ verticesOf edges,
      Reach edges.toFinset a b) :
    (clusRun edges 1).tree = minimum_spanning_tree edges ∧
      (clusRun edges 1).ccKeys.card = 1 ∧
      ∀ r ∈ (clusRun edges 1).ccKeys,
        (clusRun edges 1).ccMem r = verticesOf edges := by
  have hfuel : (verticesOf edges).card < (verticesOf edges).card + 1 :=
    Nat.lt_succ_self _
  obtain ⟨hc, hcc, _, _⟩ := clusRun_spec edges 1
  have hn1 : 1 ≤ (verticesOf edges).card :=
    Finset.card_pos.mpr (Finset.nonempty_of_ne_empty hne)
  have hkc : ((clusRun edges 1).ccKeys.card : Int) =
      min 1 ((verticesOf edges).card : Int) :=
    clusRun_keys_card edges 1 le_rfl
      (by exact_mod_cast ncOn_le_one_connected edges hconn)
  have hk1 : (clusRun edges 1).ccKeys.card = 1 := by
    have hmin : min (1 : Int) ((verticesOf edges).card : Int) = 1 :=
      min_eq_left (by exact_mod_cast hn1)
    rw [hmin] at hkc
    exact_mod_cast hkc
  have htree : (clusRun edges 1).tree = (mstRun edges).tree := by
    apply clus_mst_lockstep hfuel (((verticesOf edges).card : Int) - 1)
      (sortEdges edges) (initSt edges) (initSt_core edges)
      (initSt_cc edges) (sortEdges_mem_facts edges)
    rw [initSt_ccKeys, initSt_up]
    push_cast
    omega
  refine ⟨htree, hk1, ?_⟩
  intro r hr
  rw [hcc.memEq r hr]
  apply Finset.Subset.antisymm (Finset.filter_subset _ _)
  intro w hw
  apply Finset.mem_filter.mpr
  refine ⟨hw, ?_⟩
  have hwk : uroot (verticesOf edges) (clusRun edges 1).parent w ∈
      (clusRun edges 1).ccKeys := by
    rw [hcc.keys]
    exact Finset.mem_filter.mpr ⟨uroot_mem hc.uf hw, uroot_isRoot hc.uf w⟩
  exact Finset.card_le_one.mp (le_of_eq hk1) _ hwk _ hr

/-- C8: on a connected (and nonempty) input graph, `clustering(edges, 1)`
accepts an edge set of the same total weight as
`minimum_spanning_tree(edges)` — in fact the same edge set — and returns a
single cluster containing all vertices. -/
theorem claim_C8 (edges : List (EdgeT V)) (hne : verticesOf edges ≠ ∅)
    (hconn : ∀ a ∈ verticesOf edges, ∀ b ∈ verticesOf edges,
      Reach edges.toFinset a b) :
    weightOf (clusRun edges 1).tree =
        weightOf (minimum_spanning_tree edges) ∧
      (clusRun edges 1).tree = minimum_spanning_tree edges ∧
      (clusRun edges 1).ccKeys.card = 1 ∧
      ∀ r ∈ (clusRun edges 1).ccKeys,
        (clusRun edges 1).ccMem r = verticesOf edges := by
  obtain ⟨h1, h2, h3⟩ := clusRun_one_connected edges hne hconn
  exact ⟨by rw [h1], h1, h2, h3⟩

theorem claim_C8_witness :
    (verticesOf [((1 : Int), 'a', 'b')] ≠ ∅ ∧
        ∀ a ∈ verticesOf [((1 : Int), 'a', 'b')],
          ∀ b ∈ verticesOf [((1 : Int), 'a', 'b')],
            Reach [((1 : Int), 'a', 'b')].toFinset a b) ∧
      weightOf (clusRun [((1 : Int), 'a', 'b')] 1).tree =
        weightOf (minimum_spanning_tree [((1 : Int), 'a', 'b')]) :=
  ⟨⟨by decide, by decide⟩,
    (claim_C8 [((1 : Int), 'a', 'b')] (by decide) (by decide)).1⟩

/-- C9: every edge accepted by `clustering` comes from the input edge
collection, and the accepted set is acyclic (an edge is only accepted when
its endpoints lie in distinct components at the moment it is examined). -/
theorem claim_C9 (edges : List (EdgeT V)) (k : Int) :
    (clustering edges k).1 ⊆ edges.toFinset ∧
      IsForest (clustering edges k).1 := by
  obtain ⟨hc, _, _, _⟩ := clusRun_spec edges k
  exact ⟨hc.treeSub, hc.forest⟩

/-- C10: `clustering` does not validate `nb_clusters`: any `k ≤ 0` passes
the input check just like any other value, and on a nonempty connected
graph the result is exactly that of `nb_clusters = 1` — the full spanning
tree and one single cluster holding every vertex. -/
theorem claim_C10 {U : Type} (parse : List U → EdgeT V)
    (raw : List (List U)) (edges : List (EdgeT V)) (k : Int)
    (hk : k ≤ 0) (hne : verticesOf edges ≠ ∅)
    (hconn : ∀ a ∈ verticesOf edges, ∀ b ∈ verticesOf edges,
      Reach edges.toFinset a b) :
    ((∀ e ∈ raw, e.length = 3) →
        clusteringChecked parse raw k =
          Except.ok (clustering (raw.map parse) k)) ∧
      clustering edges k = clustering edges 1 ∧
      (clustering edges k).1 = minimum_spanning_tree edges ∧
      (clustering edges k).2.1.card = 1 ∧
      ∀ r ∈ (clustering edges k).2.1,
        (clustering edges k).2.2 r = verticesOf edges := by
  have hfuel : (verticesOf edges).card < (verticesOf edges).card + 1 :=
    Nat.lt_succ_self _
  obtain ⟨hlt, hlk, hlm⟩ := clus_clus_lockstep hfuel
    (((verticesOf edges).card : Int) - 1)
    (((verticesOf edges).card : Int) - k) (by omega)
    (sortEdges edges) (initSt edges) (initSt_core edges)
    (initSt_cc edges) (sortEdges_mem_facts edges)
    (by rw [initSt_ccKeys, initSt_up]; push_cast; omega)
  have htE : (clusRun edges k).tree = (clusRun edges 1).tree := hlt.symm
  have hkE : (clusRun edges k).ccKeys = (clusRun edges 1).ccKeys :=
    hlk.symm
  have hmE : (clusRun edges k).ccMem = (clusRun edges 1).ccMem := hlm.symm
  obtain ⟨h1, h2, h3⟩ := clusRun_one_connected edges hne hconn
  refine ⟨?_, ?_, ?_, ?_, ?_⟩
  · intro hall
    unfold clusteringChecked
    rw [if_pos (by
      rw [List.all_eq_true]
      intro e he
      simpa using hall e he)]
  · unfold clustering
    rw [htE, hkE, hmE]
  · show (clusRun edges k).tree = minimum_spanning_tree edges
    rw [htE]
    exact h1
  · show (clusRun edges k).ccKeys.card = 1
    rw [hkE]
    exact h2
  · show ∀ r ∈ (clusRun edges k).ccKeys,
        (clusRun edges k).ccMem r = verticesOf edges
    intro r hr
    rw [hkE] at hr
    rw [hmE]
    exact h3 r hr

theorem claim_C10_witness :
    ((0 : Int) ≤ 0 ∧ verticesOf [((1 : Int), 'a', 'b')] ≠ ∅) ∧
      clustering [((1 : Int), 'a', 'b')] 0 =
        clustering [((1 : Int), 'a', 'b')] 1 :=
  ⟨⟨by decide, by decide⟩,
    (claim_C10 (fun _ : List Nat => ((0 : Int), 'x', 'x')) [[0, 0, 0]]
      [((1 : Int), 'a', 'b')] 0 (by decide) (by decide) (by decide)).2.1⟩

end Kruskal
